import Mathlib

/-!
Verification of the markdown indented-code-block converter
(`md_codeblock_converter.py`).

A document is modelled as a `List Char`; Python's `str.split('\n')` and
`'\n'.join` become `splitNl` and `joinNl` over `List Char` lines.  The four
core functions `detect_frontmatter_boundaries`, `detect_indented_code_blocks`,
`unindent_code` and `convert_to_fenced_blocks` are translated line for line
from the source.  Python's `str.strip()` is modelled over the ASCII
whitespace characters (space, tab, newline, carriage return, vertical tab,
form feed), which coincides with Python's behaviour on ASCII text.
-/

namespace MdConv

abbrev Line := List Char

/-- Helper for `splitNl`: prepend a character to the first line of a
nonempty list of lines. -/
def consHead (c : Char) : List Line → List Line
  | [] => [[c]]
  | l :: ls => (c :: l) :: ls

/-- Model of `content.split('\n')`: split on newline characters; the result
is always nonempty (the empty string splits to `[[]]`). -/
def splitNl : List Char → List Line
  | [] => [[]]
  | c :: rest => if c = '\n' then [] :: splitNl rest else consHead c (splitNl rest)

/-- Model of `'\n'.join(lines)`. -/
def joinNl : List Line → List Char
  | [] => []
  | [l] => l
  | l :: l' :: ls => l ++ '\n' :: joinNl (l' :: ls)

/-- ASCII whitespace, as stripped by Python's `str.strip()`. -/
def isSpace (c : Char) : Bool :=
  c = ' ' || c = '\t' || c = '\n' || c = '\r' || c = '\x0b' || c = '\x0c'

/-- Model of `line.strip()`. -/
def strip (l : Line) : Line :=
  ((l.dropWhile isSpace).reverse.dropWhile isSpace).reverse

/-- Model of `line.strip() == ''`. -/
def blank (l : Line) : Bool := (strip l).isEmpty

/-- Three backticks. -/
def fenceMark : Line := "```".toList

/-- Model of `re.match(r'^```', line.strip())`: the stripped line starts
with three backticks. -/
def isFence (l : Line) : Bool := fenceMark.isPrefixOf (strip l)

def fourSpaces : Line := [' ', ' ', ' ', ' ']

/-- Model of `re.match(r'^(    |\t+)', line)`: the line starts with four
spaces or with one or more tabs. -/
def isIndentStart (l : Line) : Bool :=
  fourSpaces.isPrefixOf l || ['\t'].isPrefixOf l

/-- Search `lines` (numbering them from `i`) for the first line whose strip
equals `delim`; the inner loops of `detect_frontmatter_boundaries`. -/
def findClose (delim : Line) : Nat → List Line → Option Nat
  | _, [] => none
  | i, l :: ls => if strip l = delim then some i else findClose delim (i + 1) ls

def tomlDelim : Line := "+++".toList
def yamlDelim : Line := "---".toList

/-- Model of `detect_frontmatter_boundaries`: the `(start_line, end_line)`
pair of the frontmatter, with `none` standing for Python's `(None, None)`
sentinel. -/
def detect_frontmatter_boundaries (content : List Char) : Option (Nat × Nat) :=
  match splitNl content with
  | [] => none
  | l0 :: rest =>
    if strip l0 = tomlDelim then
      (findClose tomlDelim 1 rest).map (fun i => (0, i))
    else if strip l0 = yamlDelim then
      (findClose yamlDelim 1 rest).map (fun i => (0, i))
    else none

/-- Model of the frontmatter test
`frontmatter_start is not None and frontmatter_start <= i <= frontmatter_end`. -/
def fmSkip : Option (Nat × Nat) → Nat → Bool
  | none, _ => false
  | some (a, b), i => decide (a ≤ i ∧ i ≤ b)

/-- A detected block: `(start_line, end_line, code_content)`. -/
abbrev Span := Nat × Nat × List Char

/-- The loop state of `detect_indented_code_blocks`. -/
structure ScanState where
  blocks : List Span
  curStart : Option Nat
  curLines : List Line
  inFence : Bool
deriving Repr, DecidableEq

/-- Model of `while current_block_lines and current_block_lines[-1].strip() == '':
current_block_lines.pop()`. -/
def dropTrailingBlanks (ls : List Line) : List Line :=
  (ls.reverse.dropWhile blank).reverse

/-- Trim trailing blank lines and emit the accumulated block if any content
remains; resets the accumulator. -/
def finalizeBlock (st : ScanState) : ScanState :=
  match st.curStart with
  | none => st
  | some s =>
    let trimmed := dropTrailingBlanks st.curLines
    if trimmed.isEmpty then
      { st with curStart := none, curLines := [] }
    else
      { st with
          blocks := st.blocks ++ [(s, s + trimmed.length - 1, joinNl trimmed)],
          curStart := none, curLines := [] }

/-- One iteration of the scanning loop of `detect_indented_code_blocks`
on line `line` at index `i`. -/
def scanStep (fm : Option (Nat × Nat)) (i : Nat) (line : Line)
    (st : ScanState) : ScanState :=
  if fmSkip fm i then st
  else if isFence line then
    { st with inFence := !st.inFence, curStart := none, curLines := [] }
  else if st.inFence then st
  else if isIndentStart line || (blank line && st.curStart.isSome) then
    match st.curStart with
    | none => { st with curStart := some i, curLines := [line] }
    | some _ => { st with curLines := st.curLines ++ [line] }
  else finalizeBlock st

/-- The scanning loop, starting at index `i`. -/
def scanFrom (fm : Option (Nat × Nat)) : Nat → List Line → ScanState → ScanState
  | _, [], st => st
  | i, l :: ls, st => scanFrom fm (i + 1) ls (scanStep fm i l st)

def initState : ScanState := ⟨[], none, [], false⟩

/-- The end-of-file handling of `detect_indented_code_blocks`. -/
def endScan (st : ScanState) : ScanState :=
  if st.curStart.isSome && !st.inFence then finalizeBlock st else st

/-- Model of `detect_indented_code_blocks`. -/
def detect_indented_code_blocks (content : List Char) : List Span :=
  let lines := splitNl content
  let fm := detect_frontmatter_boundaries content
  (endScan (scanFrom fm 0 lines initState)).blocks

/-- The per-line rule of `unindent_code`. -/
def unindentLine (l : Line) : Line :=
  if fourSpaces.isPrefixOf l then l.drop 4
  else if ['\t'].isPrefixOf l then l.drop 1
  else l

/-- Model of `unindent_code`. -/
def unindent_code (code_content : List Char) : List Char :=
  joinNl ((splitNl code_content).map unindentLine)

/-- The replacement lines for one detected block:
`['```'] + unindented_code.split('\n') + ['```']`. -/
def fencedOf (code_content : List Char) : List Line :=
  fenceMark :: (splitNl (unindent_code code_content) ++ [fenceMark])

/-- Model of `lines[start_line:end_line + 1] = fenced_block` (Python slice
assignment). -/
def spliceOne (lines : List Line) (sp : Span) : List Line :=
  lines.take sp.1 ++ fencedOf sp.2.2 ++ lines.drop (sp.2.1 + 1)

/-- Model of `convert_to_fenced_blocks`. -/
def convert_to_fenced_blocks (content : List Char) : List Char :=
  let lines := splitNl content
  let code_blocks := detect_indented_code_blocks content
  if code_blocks.isEmpty then content
  else joinNl (code_blocks.reverse.foldl spliceOne lines)

/-! ### Lines: splitting and joining -/

theorem splitNl_ne_nil (s : List Char) : splitNl s ≠ [] := by
  cases s with
  | nil => simp [splitNl]
  | cons c rest =>
    simp only [splitNl]
    split
    · simp
    · cases h : splitNl rest <;> simp [consHead]

theorem consHead_cons (c : Char) (l : Line) (ls : List Line) :
    consHead c (l :: ls) = (c :: l) :: ls := rfl

theorem joinNl_cons_of_ne (l : Line) (ls : List Line) (h : ls ≠ []) :
    joinNl (l :: ls) = l ++ '\n' :: joinNl ls := by
  cases ls with
  | nil => exact absurd rfl h
  | cons l' ls' => rfl

theorem joinNl_consHead (c : Char) (L : List Line) (h : L ≠ []) :
    joinNl (consHead c L) = c :: joinNl L := by
  cases L with
  | nil => exact absurd rfl h
  | cons l ls =>
    cases ls with
    | nil => rfl
    | cons l' ls' => rfl

theorem joinNl_splitNl (s : List Char) : joinNl (splitNl s) = s := by
  induction s with
  | nil => rfl
  | cons c rest ih =>
    simp only [splitNl]
    by_cases h : c = '\n'
    · subst h
      rw [if_pos rfl, joinNl_cons_of_ne _ _ (splitNl_ne_nil rest), ih]
      rfl
    · rw [if_neg h, joinNl_consHead c _ (splitNl_ne_nil rest), ih]

theorem not_nl_of_mem_splitNl {l : Line} {s : List Char}
    (h : l ∈ splitNl s) : '\n' ∉ l := by
  induction s generalizing l with
  | nil =>
    simp [splitNl] at h
    simp [h]
  | cons c rest ih =>
    simp only [splitNl] at h
    by_cases hc : c = '\n'
    · rw [if_pos hc] at h
      rcases List.mem_cons.mp h with h | h
      · simp [h]
      · exact ih h
    · rw [if_neg hc] at h
      cases hr : splitNl rest with
      | nil => exact absurd hr (splitNl_ne_nil rest)
      | cons m ms =>
        rw [hr, consHead_cons] at h
        rcases List.mem_cons.mp h with h | h
        · subst h
          intro hm
          rcases List.mem_cons.mp hm with hm | hm
          · exact hc hm.symm
          · exact ih (hr ▸ List.mem_cons_self m ms) hm
        · exact ih (hr ▸ List.mem_cons.mpr (Or.inr h))

theorem splitNl_of_not_nl {l : Line} (h : '\n' ∉ l) : splitNl l = [l] := by
  induction l with
  | nil => rfl
  | cons c rest ih =>
    have hc : c ≠ '\n' := fun hc => h (hc ▸ List.mem_cons_self c rest)
    have hr : '\n' ∉ rest := fun hr => h (List.mem_cons.mpr (Or.inr hr))
    simp only [splitNl, if_neg hc, ih hr, consHead_cons]

theorem splitNl_append_nl {l : Line} (h : '\n' ∉ l) (r : List Char) :
    splitNl (l ++ '\n' :: r) = l :: splitNl r := by
  induction l with
  | nil => simp [splitNl]
  | cons c rest ih =>
    have hc : c ≠ '\n' := fun hc => h (hc ▸ List.mem_cons_self c rest)
    have hr : '\n' ∉ rest := fun hr => h (List.mem_cons.mpr (Or.inr hr))
    show splitNl (c :: (rest ++ '\n' :: r)) = (c :: rest) :: splitNl r
    simp only [splitNl, if_neg hc, ih hr, consHead_cons]

theorem splitNl_joinNl {ls : List Line} (h : ls ≠ [])
    (h2 : ∀ l ∈ ls, '\n' ∉ l) : splitNl (joinNl ls) = ls := by
  induction ls with
  | nil => exact absurd rfl h
  | cons l ls' ih =>
    cases ls' with
    | nil => exact splitNl_of_not_nl (h2 l (List.mem_cons_self l []))
    | cons m ms =>
      rw [joinNl_cons_of_ne _ _ (by simp),
        splitNl_append_nl (h2 l (List.mem_cons_self l (m :: ms))),
        ih (by simp) (fun x hx => h2 x (List.mem_cons.mpr (Or.inr hx)))]

theorem joinNl_append {xs ys : List Line} (hx : xs ≠ []) (hy : ys ≠ []) :
    joinNl (xs ++ ys) = joinNl xs ++ '\n' :: joinNl ys := by
  induction xs with
  | nil => exact absurd rfl hx
  | cons l ls ih =>
    cases ls with
    | nil =>
      cases ys with
      | nil => exact absurd rfl hy
      | cons m ms => simp [joinNl]
    | cons l' ls' =>
      rw [List.cons_append, joinNl_cons_of_ne _ _ (by simp),
        joinNl_cons_of_ne _ _ (by simp), ih (by simp), List.append_assoc]
      rfl

theorem splitNl_length_pos (s : List Char) : 0 < (splitNl s).length :=
  List.length_pos.mpr (splitNl_ne_nil s)

/-! ### Stripping, blanks, unindenting -/

theorem strip_cons_space {c : Char} (h : isSpace c = true) (l : Line) :
    strip (c :: l) = strip l := by
  simp [strip, List.dropWhile_cons, h]

theorem isPrefixOf_iff_append {l t : Line} :
    l.isPrefixOf t = true ↔ ∃ r, l ++ r = t := by
  rw [List.isPrefixOf_iff_prefix]
  exact Iff.rfl

theorem strip_drop4 {l : Line} (h : fourSpaces.isPrefixOf l = true) :
    strip (l.drop 4) = strip l := by
  rcases isPrefixOf_iff_append.mp h with ⟨r, rfl⟩
  simp only [fourSpaces, List.cons_append, List.nil_append]
  rw [show ((' ' :: ' ' :: ' ' :: ' ' :: r).drop 4) = r from rfl]
  rw [strip_cons_space (by decide), strip_cons_space (by decide),
    strip_cons_space (by decide), strip_cons_space (by decide)]

theorem strip_drop1 {l : Line} (h : (['\t'] : Line).isPrefixOf l = true) :
    strip (l.drop 1) = strip l := by
  rcases isPrefixOf_iff_append.mp h with ⟨r, rfl⟩
  simp only [List.cons_append, List.nil_append]
  rw [show (('\t' :: r).drop 1) = r from rfl, strip_cons_space (by decide)]

theorem strip_unindentLine (l : Line) : strip (unindentLine l) = strip l := by
  unfold unindentLine
  split
  · exact strip_drop4 (by assumption)
  · split
    · exact strip_drop1 (by assumption)
    · rfl

theorem blank_unindentLine (l : Line) : blank (unindentLine l) = blank l := by
  simp [blank, strip_unindentLine]

theorem isFence_unindentLine (l : Line) : isFence (unindentLine l) = isFence l := by
  simp [isFence, strip_unindentLine]

theorem not_nl_unindentLine {l : Line} (h : '\n' ∉ l) : '\n' ∉ unindentLine l := by
  unfold unindentLine
  split
  · exact fun hm => h (List.mem_of_mem_drop hm)
  · split
    · exact fun hm => h (List.mem_of_mem_drop hm)
    · exact h

theorem splitNl_unindent (c : List Char) :
    splitNl (unindent_code c) = (splitNl c).map unindentLine := by
  unfold unindent_code
  refine splitNl_joinNl ?_ ?_
  · simp [splitNl_ne_nil c]
  · intro l hl
    rcases List.mem_map.mp hl with ⟨m, hm, rfl⟩
    exact not_nl_unindentLine (not_nl_of_mem_splitNl hm)

theorem splitNl_unindent_length (c : List Char) :
    (splitNl (unindent_code c)).length = (splitNl c).length := by
  rw [splitNl_unindent, List.length_map]

/-! ### Line segments of a document -/

/-- Shorthand for line `i` of the document (with the empty line as
out-of-range default). -/
def lineAt (lines : List Line) (i : Nat) : Line := lines.getD i []

/-- The half-open segment of lines `[a, b)`. -/
def seg (lines : List Line) (a b : Nat) : List Line := (lines.drop a).take (b - a)

theorem seg_self (lines : List Line) (a : Nat) : seg lines a a = [] := by
  simp [seg]

theorem seg_length {lines : List Line} {a b : Nat} (hab : a ≤ b)
    (hb : b ≤ lines.length) : (seg lines a b).length = b - a := by
  simp only [seg, List.length_take, List.length_drop]
  omega

theorem seg_getElem? {lines : List Line} {a b j : Nat} (hj : j < b - a) :
    (seg lines a b)[j]? = lines[a + j]? := by
  simp [seg, List.getElem?_take, List.getElem?_drop, hj]

theorem seg_snoc {lines : List Line} {a i : Nat} (hai : a ≤ i)
    (hi : i < lines.length) :
    seg lines a (i + 1) = seg lines a i ++ [lineAt lines i] := by
  have h1 : i + 1 - a = (i - a) + 1 := by omega
  have h2 : a + (i - a) = i := by omega
  simp only [seg, h1, List.take_succ, List.getElem?_drop, h2,
    List.getElem?_eq_getElem hi]
  simp [lineAt, List.getD_eq_getElem lines [] hi, List.getElem?_eq_getElem hi]

theorem seg_take {lines : List Line} {a b m : Nat} (hm : m ≤ b - a) :
    (seg lines a b).take m = seg lines a (a + m) := by
  simp only [seg, List.take_take]
  congr 1
  omega

theorem mem_seg {lines : List Line} {a b : Nat} {l : Line}
    (h : l ∈ seg lines a b) : l ∈ lines :=
  List.mem_of_mem_drop (List.mem_of_mem_take h)

theorem seg_ne_nil {lines : List Line} {a b : Nat} (hab : a < b)
    (ha : a < lines.length) : seg lines a b ≠ [] := by
  have : (seg lines a b).length ≠ 0 := by
    simp only [seg, List.length_take, List.length_drop]
    omega
  exact fun h => this (by simp [h])

theorem seg_getLast {lines : List Line} {a b : Nat} (hab : a < b)
    (hb : b ≤ lines.length) (h : seg lines a b ≠ []) :
    (seg lines a b).getLast h = lineAt lines (b - 1) := by
  have hlen : (seg lines a b).length = b - a := seg_length (Nat.le_of_lt hab) hb
  have hpos : 0 < (seg lines a b).length := by omega
  rw [List.getLast_eq_getElem]
  have hidx : (seg lines a b).length - 1 < b - a := by omega
  have := @seg_getElem? lines a b _ hidx
  rw [List.getElem?_eq_getElem (by omega)] at this
  have hab' : a + ((seg lines a b).length - 1) = b - 1 := by omega
  rw [hab'] at this
  have hb1 : b - 1 < lines.length := by omega
  rw [List.getElem?_eq_getElem hb1] at this
  have := Option.some.inj this
  rw [this, lineAt, List.getD_eq_getElem lines [] hb1]

theorem seg_getLastQ {lines : List Line} {a b : Nat} (hab : a < b)
    (hb : b ≤ lines.length) :
    (seg lines a b).getLast? = some (lineAt lines (b - 1)) := by
  have ha : a < lines.length := by omega
  have hne := seg_ne_nil hab ha
  rw [List.getLast?_eq_getLast _ hne, seg_getLast hab hb hne]

/-! ### Trailing-blank trimming -/

theorem dtb_eq_rdropWhile (ls : List Line) :
    dropTrailingBlanks ls = List.rdropWhile blank ls := rfl

theorem dtb_concat_blank {b : Line} (h : blank b = true) (ls : List Line) :
    dropTrailingBlanks (ls ++ [b]) = dropTrailingBlanks ls := by
  rw [dtb_eq_rdropWhile, dtb_eq_rdropWhile]
  exact List.rdropWhile_concat_pos blank ls b h

theorem dtb_concat_nonblank {b : Line} (h : blank b = false) (ls : List Line) :
    dropTrailingBlanks (ls ++ [b]) = ls ++ [b] := by
  rw [dtb_eq_rdropWhile]
  exact List.rdropWhile_concat_neg blank ls b (by simp [h])

theorem dtb_eq_nil_iff {ls : List Line} :
    dropTrailingBlanks ls = [] ↔ ∀ l ∈ ls, blank l = true := by
  rw [dtb_eq_rdropWhile]
  exact List.rdropWhile_eq_nil_iff

theorem dtb_getLast {ls : List Line} (h : dropTrailingBlanks ls ≠ []) :
    blank ((dropTrailingBlanks ls).getLast h) = false := by
  have h' : List.rdropWhile blank ls ≠ [] := h
  have := List.rdropWhile_last_not blank ls h'
  simpa using this

theorem dtb_append_rtake (ls : List Line) :
    dropTrailingBlanks ls ++ List.rtakeWhile blank ls = ls := by
  unfold dropTrailingBlanks List.rtakeWhile
  rw [← List.reverse_append, List.takeWhile_append_dropWhile, List.reverse_reverse]

theorem dtb_take (ls : List Line) :
    dropTrailingBlanks ls = ls.take (dropTrailingBlanks ls).length := by
  set m := (dropTrailingBlanks ls).length with hm
  conv_rhs => rw [← dtb_append_rtake ls]
  rw [hm, List.take_left]

theorem dtb_length_le (ls : List Line) :
    (dropTrailingBlanks ls).length ≤ ls.length := by
  conv_rhs => rw [← dtb_append_rtake ls]
  simp

theorem dtb_dropped {ls : List Line} {j : Nat}
    (h1 : (dropTrailingBlanks ls).length ≤ j) (h2 : j < ls.length) :
    blank (lineAt ls j) = true := by
  have hs := dtb_append_rtake ls
  have h3 : ls[j]? = (List.rtakeWhile blank ls)[j - (dropTrailingBlanks ls).length]? := by
    conv_lhs => rw [← hs]
    exact List.getElem?_append_right h1
  have hx : ls[j]? = some ls[j] := List.getElem?_eq_getElem h2
  have hxmem : ls[j] ∈ List.rtakeWhile blank ls :=
    List.getElem?_mem (h3 ▸ hx)
  have hla : lineAt ls j = ls[j] := by
    rw [lineAt, List.getD_eq_getElem?_getD, hx]
    rfl
  rw [hla]
  exact List.mem_rtakeWhile_imp hxmem

theorem dtb_getLastQ {ls : List Line} (h : dropTrailingBlanks ls ≠ []) :
    ∃ x, (dropTrailingBlanks ls).getLast? = some x ∧ blank x = false :=
  ⟨(dropTrailingBlanks ls).getLast h, List.getLast?_eq_getLast _ h, dtb_getLast h⟩

/-! ### Scan-step case lemmas -/

theorem scanStep_fm {fm : Option (Nat × Nat)} {i : Nat} {l : Line} {st : ScanState}
    (h : fmSkip fm i = true) : scanStep fm i l st = st := by
  simp [scanStep, h]

theorem scanStep_fence {fm : Option (Nat × Nat)} {i : Nat} {l : Line} {st : ScanState}
    (h1 : fmSkip fm i = false) (h2 : isFence l = true) :
    scanStep fm i l st =
      { st with inFence := !st.inFence, curStart := none, curLines := [] } := by
  simp [scanStep, h1, h2]

theorem scanStep_inFence {fm : Option (Nat × Nat)} {i : Nat} {l : Line} {st : ScanState}
    (h1 : fmSkip fm i = false) (h2 : isFence l = false) (h3 : st.inFence = true) :
    scanStep fm i l st = st := by
  simp [scanStep, h1, h2, h3]

theorem scanStep_startBlock {fm : Option (Nat × Nat)} {i : Nat} {l : Line} {st : ScanState}
    (h1 : fmSkip fm i = false) (h2 : isFence l = false) (h3 : st.inFence = false)
    (h4 : st.curStart = none) (h5 : isIndentStart l = true) :
    scanStep fm i l st = { st with curStart := some i, curLines := [l] } := by
  simp [scanStep, h1, h2, h3, h4, h5]

theorem scanStep_extend {fm : Option (Nat × Nat)} {i : Nat} {l : Line} {st : ScanState}
    {s : Nat} (h1 : fmSkip fm i = false) (h2 : isFence l = false)
    (h3 : st.inFence = false) (h4 : st.curStart = some s)
    (h5 : isIndentStart l = true ∨ blank l = true) :
    scanStep fm i l st = { st with curLines := st.curLines ++ [l] } := by
  rcases h5 with h5 | h5 <;> simp [scanStep, h1, h2, h3, h4, h5]

theorem scanStep_noQual {fm : Option (Nat × Nat)} {i : Nat} {l : Line} {st : ScanState}
    (h1 : fmSkip fm i = false) (h2 : isFence l = false) (h3 : st.inFence = false)
    (h4 : isIndentStart l = false)
    (h5 : blank l = false ∨ st.curStart = none) :
    scanStep fm i l st = finalizeBlock st := by
  rcases h5 with h5 | h5 <;> simp [scanStep, h1, h2, h3, h4, h5]

theorem finalizeBlock_none {st : ScanState} (h : st.curStart = none) :
    finalizeBlock st = st := by
  simp [finalizeBlock, h]

theorem finalizeBlock_some_nil {st : ScanState} {s : Nat} (h : st.curStart = some s)
    (h2 : dropTrailingBlanks st.curLines = []) :
    finalizeBlock st = { st with curStart := none, curLines := [] } := by
  simp [finalizeBlock, h, h2]

theorem finalizeBlock_some_emit {st : ScanState} {s : Nat} (h : st.curStart = some s)
    (h2 : dropTrailingBlanks st.curLines ≠ []) :
    finalizeBlock st = { st with
      blocks := st.blocks ++ [(s, s + (dropTrailingBlanks st.curLines).length - 1,
        joinNl (dropTrailingBlanks st.curLines))],
      curStart := none, curLines := [] } := by
  simp only [finalizeBlock, h]
  rw [if_neg (by simpa [List.isEmpty_iff] using h2)]

/-! ### The scanning loop: basic structure -/

theorem scanFrom_nil (fm : Option (Nat × Nat)) (i : Nat) (st : ScanState) :
    scanFrom fm i [] st = st := rfl

theorem scanFrom_cons (fm : Option (Nat × Nat)) (i : Nat) (l : Line)
    (ls : List Line) (st : ScanState) :
    scanFrom fm i (l :: ls) st = scanFrom fm (i + 1) ls (scanStep fm i l st) := rfl

theorem scanFrom_append (fm : Option (Nat × Nat)) (xs ys : List Line) (i : Nat)
    (st : ScanState) :
    scanFrom fm i (xs ++ ys) st
      = scanFrom fm (i + xs.length) ys (scanFrom fm i xs st) := by
  induction xs generalizing i st with
  | nil => simp [scanFrom]
  | cons l ls ih =>
    rw [List.cons_append, scanFrom_cons, ih, scanFrom_cons, List.length_cons,
      show i + 1 + ls.length = i + (ls.length + 1) from by omega]

/-- Lower bound for the start line of any block the scan can still emit. -/
def lowB (i : Nat) (st : ScanState) : Nat :=
  match st.curStart with
  | some s => s
  | none => i

theorem lowB_none {i : Nat} {st : ScanState} (h : st.curStart = none) :
    lowB i st = i := by simp [lowB, h]

theorem lowB_some {i : Nat} {st : ScanState} {s : Nat} (h : st.curStart = some s) :
    lowB i st = s := by simp [lowB, h]

theorem scanStep_future {fm : Option (Nat × Nat)} {i : Nat} {l : Line} {st : ScanState}
    (hcs : ∀ s, st.curStart = some s → s ≤ i) :
    (∀ s, (scanStep fm i l st).curStart = some s → s ≤ i + 1) ∧
    lowB i st ≤ lowB (i + 1) (scanStep fm i l st) ∧
    ∀ sp ∈ (scanStep fm i l st).blocks, sp ∈ st.blocks ∨ lowB i st ≤ sp.1 := by
  have hsame : ∀ s, st.curStart = some s → s ≤ i + 1 :=
    fun s hs => Nat.le_succ_of_le (hcs s hs)
  have hlowsame : lowB i st ≤ lowB (i + 1) st := by
    cases h : st.curStart with
    | none => simp [lowB, h]
    | some s => simp [lowB, h]
  have hlow_le_i : lowB i st ≤ i := by
    cases h : st.curStart with
    | none => simp [lowB, h]
    | some s => simpa [lowB, h] using hcs s h
  unfold scanStep
  split
  · exact ⟨hsame, hlowsame, fun sp hsp => Or.inl hsp⟩
  split
  · refine ⟨by intro s hs; exact absurd hs (by simp), ?_, fun sp hsp => Or.inl hsp⟩
    conv_rhs => rw [lowB_none rfl]
    exact le_trans hlow_le_i (Nat.le_succ i)
  split
  · exact ⟨hsame, hlowsame, fun sp hsp => Or.inl hsp⟩
  split
  · split
    next hnone =>
      refine ⟨by intro s hs; simp at hs; omega, ?_, fun sp hsp => Or.inl hsp⟩
      rw [lowB_none hnone, lowB_some rfl]
    next s' hsome =>
      exact ⟨hsame, hlowsame, fun sp hsp => Or.inl hsp⟩
  · cases hcs' : st.curStart with
    | none => rw [finalizeBlock_none hcs']; exact ⟨hsame, hlowsame, fun sp hsp => Or.inl hsp⟩
    | some s' =>
      by_cases hdtb : dropTrailingBlanks st.curLines = []
      · rw [finalizeBlock_some_nil hcs' hdtb]
        refine ⟨by intro s hs; exact absurd hs (by simp), ?_, fun sp hsp => Or.inl hsp⟩
        conv_rhs => rw [lowB_none rfl]
        exact le_trans hlow_le_i (Nat.le_succ i)
      · rw [finalizeBlock_some_emit hcs' hdtb]
        refine ⟨by intro s hs; exact absurd hs (by simp), ?_, ?_⟩
        · conv_rhs => rw [lowB_none rfl]
          exact le_trans hlow_le_i (Nat.le_succ i)
        · intro sp hsp
          simp only [List.mem_append, List.mem_singleton] at hsp
          rcases hsp with hsp | hsp
          · exact Or.inl hsp
          · right
            simp [hsp, lowB_some hcs']

theorem scanFrom_future {fm : Option (Nat × Nat)} (ys : List Line) {i : Nat}
    {st : ScanState} (hcs : ∀ s, st.curStart = some s → s ≤ i) :
    (∀ s, (scanFrom fm i ys st).curStart = some s → s ≤ i + ys.length) ∧
    lowB i st ≤ lowB (i + ys.length) (scanFrom fm i ys st) ∧
    ∀ sp ∈ (scanFrom fm i ys st).blocks, sp ∈ st.blocks ∨ lowB i st ≤ sp.1 := by
  induction ys generalizing i st with
  | nil => exact ⟨fun s hs => by simpa using hcs s hs, by simp [scanFrom], fun sp hsp => Or.inl hsp⟩
  | cons l ls ih =>
    obtain ⟨h1, h2, h3⟩ := @scanStep_future fm i l st hcs
    obtain ⟨g1, g2, g3⟩ := @ih (i + 1) (scanStep fm i l st) h1
    rw [scanFrom_cons]
    refine ⟨?_, ?_, ?_⟩
    · intro s hs
      have := g1 s hs
      simpa [Nat.add_assoc, Nat.add_comm 1 ls.length] using this
    · calc lowB i st ≤ lowB (i + 1) (scanStep fm i l st) := h2
        _ ≤ lowB (i + 1 + ls.length) (scanFrom fm (i + 1) ls (scanStep fm i l st)) := g2
        _ = lowB (i + (l :: ls).length) (scanFrom fm (i + 1) ls (scanStep fm i l st)) := by
            rw [List.length_cons, show i + 1 + ls.length = i + (ls.length + 1) from by omega]
    · intro sp hsp
      rcases g3 sp hsp with h | h
      · rcases h3 sp h with h' | h'
        · exact Or.inl h'
        · exact Or.inr h'
      · exact Or.inr (le_trans h2 h)

theorem endScan_future {st : ScanState} {i : Nat} :
    ∀ sp ∈ (endScan st).blocks, sp ∈ st.blocks ∨ lowB i st ≤ sp.1 := by
  unfold endScan
  split
  · cases hcs' : st.curStart with
    | none => rw [finalizeBlock_none hcs']; exact fun sp hsp => Or.inl hsp
    | some s' =>
      by_cases hdtb : dropTrailingBlanks st.curLines = []
      · rw [finalizeBlock_some_nil hcs' hdtb]
        exact fun sp hsp => Or.inl hsp
      · rw [finalizeBlock_some_emit hcs' hdtb]
        intro sp hsp
        simp only [List.mem_append, List.mem_singleton] at hsp
        rcases hsp with hsp | hsp
        · exact Or.inl hsp
        · right
          simp [hsp, lowB_some hcs']
  · exact fun sp hsp => Or.inl hsp

theorem scanStep_blocks_mono (fm : Option (Nat × Nat)) (i : Nat) (l : Line)
    (st : ScanState) : ∃ new, (scanStep fm i l st).blocks = st.blocks ++ new := by
  unfold scanStep
  split
  · exact ⟨[], by simp⟩
  split
  · exact ⟨[], by simp⟩
  split
  · exact ⟨[], by simp⟩
  split
  · split <;> exact ⟨[], by simp⟩
  · cases hcs' : st.curStart with
    | none => exact ⟨[], by rw [finalizeBlock_none hcs']; simp⟩
    | some s' =>
      by_cases hdtb : dropTrailingBlanks st.curLines = []
      · exact ⟨[], by rw [finalizeBlock_some_nil hcs' hdtb]; simp⟩
      · exact ⟨_, by rw [finalizeBlock_some_emit hcs' hdtb]⟩

theorem scanFrom_blocks_mono (fm : Option (Nat × Nat)) (ys : List Line) (i : Nat)
    (st : ScanState) : ∃ new, (scanFrom fm i ys st).blocks = st.blocks ++ new := by
  induction ys generalizing i st with
  | nil => exact ⟨[], by simp [scanFrom]⟩
  | cons l ls ih =>
    obtain ⟨n1, h1⟩ := scanStep_blocks_mono fm i l st
    obtain ⟨n2, h2⟩ := @ih (i + 1) (scanStep fm i l st)
    exact ⟨n1 ++ n2, by rw [scanFrom_cons, h2, h1, List.append_assoc]⟩

theorem endScan_blocks_mono (st : ScanState) :
    ∃ new, (endScan st).blocks = st.blocks ++ new := by
  unfold endScan
  split
  · cases hcs' : st.curStart with
    | none => exact ⟨[], by rw [finalizeBlock_none hcs']; simp⟩
    | some s' =>
      by_cases hdtb : dropTrailingBlanks st.curLines = []
      · exact ⟨[], by rw [finalizeBlock_some_nil hcs' hdtb]; simp⟩
      · exact ⟨_, by rw [finalizeBlock_some_emit hcs' hdtb]⟩
  · exact ⟨[], by simp⟩

end MdConv

namespace MdConv

/-! ### Fence state as a function of the line index -/

/-- Value of the `in_fenced_block` flag just before line `i` is examined. -/
def fenceUpTo (fm : Option (Nat × Nat)) (lines : List Line) : Nat → Bool
  | 0 => false
  | i + 1 =>
    if fmSkip fm i then fenceUpTo fm lines i
    else if isFence (lineAt lines i) then !fenceUpTo fm lines i
    else fenceUpTo fm lines i

/-- Classification facts for a line index that can belong to a detected
block: not in the frontmatter, not in fence state, not itself a fence
marker, and indented or blank. -/
def GoodLine (fm : Option (Nat × Nat)) (lines : List Line) (j : Nat) : Prop :=
  fmSkip fm j = false ∧ fenceUpTo fm lines j = false ∧
  isFence (lineAt lines j) = false ∧
  (isIndentStart (lineAt lines j) = true ∨ blank (lineAt lines j) = true)

/-- Structural facts about an emitted span. -/
def SpanOk (fm : Option (Nat × Nat)) (lines : List Line) (bk : Span) : Prop :=
  bk.1 ≤ bk.2.1 ∧ bk.2.1 < lines.length ∧
  bk.2.2 = joinNl (seg lines bk.1 (bk.2.1 + 1)) ∧
  isIndentStart (lineAt lines bk.1) = true ∧
  blank (lineAt lines bk.2.1) = false ∧
  (∀ j, bk.1 ≤ j → j ≤ bk.2.1 → GoodLine fm lines j)

/-- The loop invariant of the scanner, holding just before line `i` is
examined. -/
structure Inv (fm : Option (Nat × Nat)) (lines : List Line) (i : Nat)
    (st : ScanState) : Prop where
  fence_eq : st.inFence = fenceUpTo fm lines i
  cur_nil : st.curStart = none → st.curLines = []
  cur_some : ∀ s, st.curStart = some s →
    s < i ∧ st.curLines = seg lines s i ∧
    isIndentStart (lineAt lines s) = true ∧
    (∀ j, s ≤ j → j < i → GoodLine fm lines j) ∧
    (∀ bk ∈ st.blocks, bk.2.1 < s) ∧
    st.inFence = false
  blk_sorted : List.Chain' (fun p q : Span => p.2.1 < q.1) st.blocks
  blk_lt : ∀ bk ∈ st.blocks, bk.2.1 < i
  blk_ok : ∀ bk ∈ st.blocks, SpanOk fm lines bk

theorem Inv_zero (fm : Option (Nat × Nat)) (lines : List Line) :
    Inv fm lines 0 initState := by
  refine ⟨rfl, fun _ => rfl, ?_, List.chain'_nil, ?_, ?_⟩ <;> simp [initState]

/-- Finalizing under the invariant emits (at most) one well-formed block and
clears the accumulator. -/
theorem finalize_ok {fm : Option (Nat × Nat)} {lines : List Line} {i : Nat}
    {st : ScanState} (hi : i ≤ lines.length) (hinv : Inv fm lines i st) :
    List.Chain' (fun p q : Span => p.2.1 < q.1) (finalizeBlock st).blocks ∧
    (∀ bk ∈ (finalizeBlock st).blocks, SpanOk fm lines bk ∧ bk.2.1 < i) ∧
    (finalizeBlock st).curStart = none ∧ (finalizeBlock st).curLines = [] ∧
    (finalizeBlock st).inFence = st.inFence ∧
    (finalizeBlock st).blocks.length ≤ st.blocks.length + 1 := by
  cases hcs : st.curStart with
  | none =>
    rw [finalizeBlock_none hcs]
    exact ⟨hinv.blk_sorted, fun bk hbk => ⟨hinv.blk_ok bk hbk, hinv.blk_lt bk hbk⟩,
      hcs, hinv.cur_nil hcs, rfl, Nat.le_succ _⟩
  | some s =>
    obtain ⟨hsi, hcl, hind, hgood, hends, hnf⟩ := hinv.cur_some s hcs
    by_cases hdtb : dropTrailingBlanks st.curLines = []
    · rw [finalizeBlock_some_nil hcs hdtb]
      exact ⟨hinv.blk_sorted, fun bk hbk => ⟨hinv.blk_ok bk hbk, hinv.blk_lt bk hbk⟩,
        rfl, rfl, rfl, Nat.le_succ _⟩
    · rw [finalizeBlock_some_emit hcs hdtb]
      rw [hcl] at hdtb
      rw [hcl]
      have hslen : s < lines.length := by omega
      have hseglen : (seg lines s i).length = i - s := seg_length (Nat.le_of_lt hsi) hi
      have hTpos : 0 < (dropTrailingBlanks (seg lines s i)).length :=
        List.length_pos.mpr hdtb
      have hTle : (dropTrailingBlanks (seg lines s i)).length ≤ i - s := by
        have := dtb_length_le (seg lines s i)
        rwa [hseglen] at this
      have hTseg : dropTrailingBlanks (seg lines s i)
          = seg lines s (s + (dropTrailingBlanks (seg lines s i)).length) := by
        have h1 := dtb_take (seg lines s i)
        rwa [seg_take hTle] at h1
      have hb : s + (dropTrailingBlanks (seg lines s i)).length - 1 + 1
          = s + (dropTrailingBlanks (seg lines s i)).length := by omega
      have hblt : s + (dropTrailingBlanks (seg lines s i)).length - 1 < i := by omega
      have hbltlen : s + (dropTrailingBlanks (seg lines s i)).length - 1
          < lines.length := by omega
      have hspan : SpanOk fm lines (s, s + (dropTrailingBlanks (seg lines s i)).length - 1,
          joinNl (dropTrailingBlanks (seg lines s i))) := by
        refine ⟨by simp; omega, by simpa using hbltlen, ?_, by simpa using hind, ?_, ?_⟩
        · show joinNl (dropTrailingBlanks (seg lines s i))
            = joinNl (seg lines s (s + (dropTrailingBlanks (seg lines s i)).length - 1 + 1))
          rw [hb, ← hTseg]
        · show blank (lineAt lines
            (s + (dropTrailingBlanks (seg lines s i)).length - 1)) = false
          obtain ⟨x, hx1, hx2⟩ := dtb_getLastQ hdtb
          rw [hTseg] at hx1
          rw [seg_getLastQ (by omega) (by omega)] at hx1
          have := Option.some.inj hx1
          rwa [← this] at hx2
        · intro j h1 h2
          exact hgood j (by simpa using h1) (by simp at h2; omega)
      constructor
      · show List.Chain' _ (st.blocks ++ [(s, s + (dropTrailingBlanks (seg lines s i)).length - 1,
          joinNl (dropTrailingBlanks (seg lines s i)))])
        rw [List.chain'_append]
        refine ⟨hinv.blk_sorted, List.chain'_singleton _, ?_⟩
        intro x hx y hy
        simp only [List.head?_cons, Option.mem_def, Option.some.injEq] at hy
        subst hy
        have hxmem : x ∈ st.blocks := List.mem_of_mem_getLast? hx
        have := hends x hxmem
        simpa using this
      refine ⟨?_, rfl, rfl, rfl, by simp⟩
      intro bk hbk
      simp only [List.mem_append, List.mem_singleton] at hbk
      rcases hbk with hbk | hbk
      · exact ⟨hinv.blk_ok bk hbk, hinv.blk_lt bk hbk⟩
      · subst hbk
        exact ⟨hspan, hblt⟩

end MdConv

namespace MdConv

theorem fenceUpTo_succ (fm : Option (Nat × Nat)) (lines : List Line) (i : Nat) :
    fenceUpTo fm lines (i + 1) =
      if fmSkip fm i then fenceUpTo fm lines i
      else if isFence (lineAt lines i) then !fenceUpTo fm lines i
      else fenceUpTo fm lines i := rfl

/-- Preservation of the scanner invariant by one step. -/
theorem Inv_step {fm : Option (Nat × Nat)} {lines : List Line} {i : Nat}
    {st : ScanState} (hfm0 : ∀ a b, fm = some (a, b) → a = 0)
    (hi : i < lines.length) (hinv : Inv fm lines i st) :
    Inv fm lines (i + 1) (scanStep fm i (lineAt lines i) st) := by
  by_cases hfm : fmSkip fm i = true
  · rw [scanStep_fm hfm]
    have hcov : ∀ j, j ≤ i → fmSkip fm j = true := by
      intro j hj
      cases fm with
      | none => simp [fmSkip] at hfm
      | some p =>
        obtain ⟨a, b⟩ := p
        have ha := hfm0 a b rfl
        subst ha
        simp only [fmSkip, decide_eq_true_eq] at hfm ⊢
        omega
    have hnone : st.curStart = none := by
      cases hcs : st.curStart with
      | none => rfl
      | some s =>
        obtain ⟨hsi, _, _, hgood, _, _⟩ := hinv.cur_some s hcs
        have := (hgood s (le_refl s) hsi).1
        rw [hcov s (by omega)] at this
        exact absurd this (by simp)
    refine ⟨?_, hinv.cur_nil, ?_, hinv.blk_sorted,
      fun bk hbk => Nat.lt_succ_of_lt (hinv.blk_lt bk hbk), hinv.blk_ok⟩
    · rw [hinv.fence_eq, fenceUpTo_succ, if_pos hfm]
    · intro s hs
      rw [hnone] at hs
      exact absurd hs (by simp)
  · have hfm' : fmSkip fm i = false := by simpa using hfm
    by_cases hfc : isFence (lineAt lines i) = true
    · rw [scanStep_fence hfm' hfc]
      refine ⟨?_, fun _ => rfl, ?_, hinv.blk_sorted,
        fun bk hbk => Nat.lt_succ_of_lt (hinv.blk_lt bk hbk), hinv.blk_ok⟩
      · show (!st.inFence) = fenceUpTo fm lines (i + 1)
        rw [fenceUpTo_succ, if_neg (by simp [hfm']), if_pos hfc, hinv.fence_eq]
      · intro s hs
        exact absurd hs (by simp)
    · have hfc' : isFence (lineAt lines i) = false := by simpa using hfc
      by_cases hif : st.inFence = true
      · rw [scanStep_inFence hfm' hfc' hif]
        refine ⟨?_, hinv.cur_nil, ?_, hinv.blk_sorted,
          fun bk hbk => Nat.lt_succ_of_lt (hinv.blk_lt bk hbk), hinv.blk_ok⟩
        · rw [fenceUpTo_succ, if_neg (by simp [hfm']), if_neg (by simp [hfc']),
            ← hinv.fence_eq]
        · intro s hs
          obtain ⟨_, _, _, _, _, hnf⟩ := hinv.cur_some s hs
          rw [hnf] at hif
          exact absurd hif (by simp)
      · have hif' : st.inFence = false := by simpa using hif
        have hfUT : fenceUpTo fm lines i = false := by rw [← hinv.fence_eq]; exact hif'
        have hfsucc : fenceUpTo fm lines (i + 1) = fenceUpTo fm lines i := by
          rw [fenceUpTo_succ, if_neg (by simp [hfm']), if_neg (by simp [hfc'])]
        by_cases hq : (isIndentStart (lineAt lines i)
            || (blank (lineAt lines i) && st.curStart.isSome)) = true
        · cases hcs : st.curStart with
          | none =>
            have hind : isIndentStart (lineAt lines i) = true := by
              rw [hcs] at hq
              simpa using hq
            rw [scanStep_startBlock hfm' hfc' hif' hcs hind]
            refine ⟨?_, ?_, ?_, hinv.blk_sorted,
              fun bk hbk => Nat.lt_succ_of_lt (hinv.blk_lt bk hbk), hinv.blk_ok⟩
            · show st.inFence = fenceUpTo fm lines (i + 1)
              rw [hfsucc, hinv.fence_eq]
            · intro h
              exact absurd h (by simp)
            · intro s hs
              have hsi : s = i := by simpa using hs.symm
              subst hsi
              refine ⟨Nat.lt_succ_self s, ?_, hind, ?_, ?_, hif'⟩
              · show [lineAt lines s] = seg lines s (s + 1)
                rw [seg_snoc (le_refl s) hi, seg_self]
                rfl
              · intro j h1 h2
                have : j = s := by omega
                subst this
                exact ⟨hfm', hfUT, hfc', Or.inl hind⟩
              · exact fun bk hbk => hinv.blk_lt bk hbk
          | some s =>
            have hor : isIndentStart (lineAt lines i) = true
                ∨ blank (lineAt lines i) = true := by
              rcases Bool.or_eq_true_iff.mp hq with h | h
              · exact Or.inl h
              · exact Or.inr (Bool.and_eq_true_iff.mp h).1
            rw [scanStep_extend hfm' hfc' hif' hcs hor]
            obtain ⟨hsi, hcl, hind, hgood, hends, hnf2⟩ := hinv.cur_some s hcs
            refine ⟨?_, ?_, ?_, hinv.blk_sorted,
              fun bk hbk => Nat.lt_succ_of_lt (hinv.blk_lt bk hbk), hinv.blk_ok⟩
            · show st.inFence = fenceUpTo fm lines (i + 1)
              rw [hfsucc, hinv.fence_eq]
            · intro h
              rw [hcs] at h
              exact absurd h (by simp)
            · intro s' hs'
              have hss : s' = s := by
                rw [hcs] at hs'
                simpa using hs'.symm
              subst hss
              refine ⟨by omega, ?_, hind, ?_, hends, hif'⟩
              · show st.curLines ++ [lineAt lines i] = seg lines s' (i + 1)
                rw [hcl, seg_snoc (Nat.le_of_lt hsi) hi]
              · intro j h1 h2
                by_cases hji : j < i
                · exact hgood j h1 hji
                · have : j = i := by omega
                  subst this
                  exact ⟨hfm', hfUT, hfc', hor⟩
        · have h4 : isIndentStart (lineAt lines i) = false := by
            cases hii : isIndentStart (lineAt lines i)
            · rfl
            · exact absurd (by simp [hii]) hq
          have h5 : blank (lineAt lines i) = false ∨ st.curStart = none := by
            cases hbl : blank (lineAt lines i)
            · exact Or.inl rfl
            · cases hcs : st.curStart
              · exact Or.inr rfl
              · exact absurd (by simp [hbl, hcs]) hq
          rw [scanStep_noQual hfm' hfc' hif' h4 h5]
          obtain ⟨fs, fok, fcs, fcl, fif, _⟩ := finalize_ok (Nat.le_of_lt hi) hinv
          refine ⟨?_, fun _ => fcl, ?_, fs,
            fun bk hbk => Nat.lt_succ_of_lt (fok bk hbk).2,
            fun bk hbk => (fok bk hbk).1⟩
          · rw [fif, hfsucc, hinv.fence_eq]
          · intro s hs
            rw [fcs] at hs
            exact absurd hs (by simp)

end MdConv

namespace MdConv

/-- State of the scanner just before line `i` is examined. -/
def scanUpTo (fm : Option (Nat × Nat)) (lines : List Line) (i : Nat) : ScanState :=
  scanFrom fm 0 (lines.take i) initState

theorem scanUpTo_zero (fm : Option (Nat × Nat)) (lines : List Line) :
    scanUpTo fm lines 0 = initState := by
  simp [scanUpTo, scanFrom]

theorem scanUpTo_succ {fm : Option (Nat × Nat)} {lines : List Line} {i : Nat}
    (h : i < lines.length) :
    scanUpTo fm lines (i + 1)
      = scanStep fm i (lineAt lines i) (scanUpTo fm lines i) := by
  unfold scanUpTo
  rw [List.take_succ, List.getElem?_eq_getElem h,
    show (some lines[i]).toList = [lines[i]] from rfl, scanFrom_append,
    List.length_take, Nat.min_eq_left (Nat.le_of_lt h)]
  simp [scanFrom, lineAt, List.getD_eq_getElem?_getD, List.getElem?_eq_getElem h]

theorem scanUpTo_len (fm : Option (Nat × Nat)) (lines : List Line) :
    scanUpTo fm lines lines.length = scanFrom fm 0 lines initState := by
  simp [scanUpTo]

/-- The scanner invariant holds at every step of the scan. -/
theorem Inv_upTo {fm : Option (Nat × Nat)} {lines : List Line}
    (hfm0 : ∀ a b, fm = some (a, b) → a = 0) (i : Nat) (hi : i ≤ lines.length) :
    Inv fm lines i (scanUpTo fm lines i) := by
  induction i with
  | zero => rw [scanUpTo_zero]; exact Inv_zero fm lines
  | succ n ih =>
    have hn : n < lines.length := by omega
    rw [scanUpTo_succ hn]
    exact Inv_step hfm0 hn (ih (by omega))

theorem fm_fst_zero (content : List Char) :
    ∀ p, detect_frontmatter_boundaries content = some p → p.1 = 0 := by
  intro p hp
  unfold detect_frontmatter_boundaries at hp
  rcases h : splitNl content with _ | ⟨l0, rest⟩
  · rw [h] at hp
    exact absurd hp (by simp)
  · rw [h] at hp
    dsimp only at hp
    by_cases h1 : strip l0 = tomlDelim
    · rw [if_pos h1] at hp
      rcases Option.map_eq_some'.mp hp with ⟨i, _, hpi⟩
      rw [← hpi]
    · rw [if_neg h1] at hp
      by_cases h2 : strip l0 = yamlDelim
      · rw [if_pos h2] at hp
        rcases Option.map_eq_some'.mp hp with ⟨i, _, hpi⟩
        rw [← hpi]
      · rw [if_neg h2] at hp
        exact absurd hp (by simp)

theorem detect_eq_scan (content : List Char) :
    detect_indented_code_blocks content
      = (endScan (scanUpTo (detect_frontmatter_boundaries content)
          (splitNl content) (splitNl content).length)).blocks := by
  rw [scanUpTo_len]
  rfl

/-- Every result list of the block scanner is sorted and consists of
well-formed spans. -/
theorem detect_facts (content : List Char) :
    List.Chain' (fun p q : Span => p.2.1 < q.1) (detect_indented_code_blocks content) ∧
    ∀ bk ∈ detect_indented_code_blocks content,
      SpanOk (detect_frontmatter_boundaries content) (splitNl content) bk := by
  have hinv := @Inv_upTo (detect_frontmatter_boundaries content) (splitNl content)
    (fun a b hab => fm_fst_zero content (a, b) hab) (splitNl content).length
    (le_refl _)
  rw [detect_eq_scan]
  unfold endScan
  split
  · obtain ⟨fs, fok, _⟩ := finalize_ok (le_refl _) hinv
    exact ⟨fs, fun bk hbk => (fok bk hbk).1⟩
  · exact ⟨hinv.blk_sorted, hinv.blk_ok⟩

end MdConv

namespace MdConv

/-! ### The rewriter: characterizing the splice fold -/

/-- Immutable-rebuild description of the rewriter's output: copy the lines
before a span, insert its fenced replacement, continue after the span's
end line. -/
def rebuildFrom (lines : List Line) : Nat → List Span → List Line
  | off, [] => lines.drop off
  | off, sp :: rest =>
    (lines.drop off).take (sp.1 - off) ++ fencedOf sp.2.2
      ++ rebuildFrom lines (sp.2.1 + 1) rest

theorem rebuildFrom_nil (lines : List Line) (off : Nat) :
    rebuildFrom lines off [] = lines.drop off := rfl

theorem rebuildFrom_cons (lines : List Line) (off : Nat) (sp : Span)
    (rest : List Span) :
    rebuildFrom lines off (sp :: rest)
      = (lines.drop off).take (sp.1 - off)
        ++ (fencedOf sp.2.2 ++ rebuildFrom lines (sp.2.1 + 1) rest) := by
  rw [rebuildFrom, List.append_assoc]

/-- Recursive well-formedness of a span list relative to an offset:
ordered, in range, and with content line counts matching the spans. -/
def SpansOkFrom (lines : List Line) : Nat → List Span → Prop
  | _, [] => True
  | off, sp :: rest => off ≤ sp.1 ∧ sp.1 ≤ sp.2.1 ∧ sp.2.1 < lines.length ∧
      (splitNl sp.2.2).length = sp.2.1 + 1 - sp.1 ∧
      sp.2.2 = joinNl (seg lines sp.1 (sp.2.1 + 1)) ∧
      SpansOkFrom lines (sp.2.1 + 1) rest

theorem spansOkFrom_mono {lines : List Line} {off off' : Nat} {spans : List Span}
    (h : SpansOkFrom lines off spans) (hle : off' ≤ off) :
    SpansOkFrom lines off' spans := by
  cases spans with
  | nil => trivial
  | cons sp rest =>
    obtain ⟨h1, h2, h3, h4, h4c, h5⟩ := h
    exact ⟨by omega, h2, h3, h4, h4c, h5⟩

theorem spansOkFrom_mem {lines : List Line} {off : Nat} {spans : List Span}
    (h : SpansOkFrom lines off spans) :
    ∀ sp ∈ spans, off ≤ sp.1 ∧ sp.1 ≤ sp.2.1 ∧ sp.2.1 < lines.length ∧
      (splitNl sp.2.2).length = sp.2.1 + 1 - sp.1 := by
  induction spans generalizing off with
  | nil => intro sp hsp; exact absurd hsp (by simp)
  | cons sp' rest ih =>
    intro sp hsp
    obtain ⟨h1, h2, h3, h4, h4c, h5⟩ := h
    rcases List.mem_cons.mp hsp with hsp | hsp
    · subst hsp; exact ⟨h1, h2, h3, h4⟩
    · have := ih h5 sp hsp
      exact ⟨by omega, this.2.1, this.2.2.1, this.2.2.2⟩

theorem fencedOf_length (c : List Char) :
    (fencedOf c).length = (splitNl (unindent_code c)).length + 2 := by
  simp [fencedOf]

theorem fencedOf_ne_nil (c : List Char) : fencedOf c ≠ [] := by
  simp [fencedOf]

theorem dropTakeShift (l : List Line) (off t m : Nat) (h : off ≤ t) :
    ((l.drop off).take m).drop (t - off) = (l.drop t).take (m - (t - off)) := by
  rw [List.drop_take, List.drop_drop]
  congr 2
  omega

/-- The prefix of a rebuild up to a point at or before the first span start
is copied verbatim. -/
theorem rebuildFrom_take {lines : List Line} {spans : List Span} {off t : Nat}
    (hok : SpansOkFrom lines off spans) (hoff : off ≤ t)
    (hfirst : ∀ sp ∈ spans.head?, t ≤ sp.1) :
    (rebuildFrom lines off spans).take (t - off)
      = (lines.drop off).take (t - off) := by
  cases spans with
  | nil => rfl
  | cons sp rest =>
    obtain ⟨h1, h2, h3, _, _, _⟩ := hok
    have ht : t ≤ sp.1 := hfirst sp (by simp)
    have hlen : t - off ≤ ((lines.drop off).take (sp.1 - off)).length := by
      simp only [List.length_take, List.length_drop]
      omega
    rw [rebuildFrom_cons, List.take_append_of_le_length hlen, List.take_take]
    congr 1
    omega

/-- Dropping a rebuild to a point at or before the first span start shifts
the offset. -/
theorem rebuildFrom_drop {lines : List Line} {spans : List Span} {off t : Nat}
    (hok : SpansOkFrom lines off spans) (hoff : off ≤ t)
    (hfirst : ∀ sp ∈ spans.head?, t ≤ sp.1) :
    (rebuildFrom lines off spans).drop (t - off)
      = rebuildFrom lines t spans := by
  cases spans with
  | nil =>
    show (lines.drop off).drop (t - off) = lines.drop t
    rw [List.drop_drop]
    congr 1
    omega
  | cons sp rest =>
    obtain ⟨h1, h2, h3, _, _, _⟩ := hok
    have ht : t ≤ sp.1 := hfirst sp (by simp)
    have hlen : t - off ≤ ((lines.drop off).take (sp.1 - off)).length := by
      simp only [List.length_take, List.length_drop]
      omega
    rw [rebuildFrom_cons, rebuildFrom_cons, List.drop_append_of_le_length hlen,
      dropTakeShift lines off t (sp.1 - off) hoff,
      show sp.1 - off - (t - off) = sp.1 - t from by omega]

/-- The reverse-order splice fold of the rewriter equals the immutable
rebuild. -/
theorem foldl_spliceOne_eq_rebuild {lines : List Line} {spans : List Span}
    (hok : SpansOkFrom lines 0 spans) :
    spans.reverse.foldl spliceOne lines = rebuildFrom lines 0 spans := by
  induction spans with
  | nil => simp [rebuildFrom]
  | cons sp rest ih =>
    obtain ⟨h1, h2, h3, h4, h4c, h5⟩ := hok
    have hok' : SpansOkFrom lines 0 rest := spansOkFrom_mono h5 (Nat.zero_le _)
    rw [List.reverse_cons, List.foldl_append, ih hok']
    show spliceOne (rebuildFrom lines 0 rest) sp = _
    unfold spliceOne
    have hfirst : ∀ sp' ∈ rest.head?, sp.1 ≤ sp'.1 := by
      intro sp' hsp'
      cases rest with
      | nil => exact absurd hsp' (by simp)
      | cons r rs =>
        simp only [List.head?_cons, Option.mem_def, Option.some.injEq] at hsp'
        subst hsp'
        have := h5.1
        omega
    have hfirst' : ∀ sp' ∈ rest.head?, sp.2.1 + 1 ≤ sp'.1 := by
      intro sp' hsp'
      cases rest with
      | nil => exact absurd hsp' (by simp)
      | cons r rs =>
        simp only [List.head?_cons, Option.mem_def, Option.some.injEq] at hsp'
        subst hsp'
        exact h5.1
    have htake := rebuildFrom_take hok' (Nat.zero_le _) hfirst
    have hdrop := rebuildFrom_drop hok' (Nat.zero_le _) hfirst'
    simp only [Nat.sub_zero, List.drop_zero] at htake hdrop
    rw [htake, hdrop, rebuildFrom_cons, List.drop_zero, List.append_assoc,
      Nat.sub_zero]

theorem rebuildFrom_length {lines : List Line} {spans : List Span} {off : Nat}
    (hok : SpansOkFrom lines off spans) (hoff : off ≤ lines.length) :
    (rebuildFrom lines off spans).length
      = (lines.length - off) + 2 * spans.length := by
  induction spans generalizing off with
  | nil =>
    show (lines.drop off).length = _
    simp
  | cons sp rest ih =>
    obtain ⟨h1, h2, h3, h4, h4c, h5⟩ := hok
    have hrest := ih h5 (by omega)
    rw [rebuildFrom_cons, List.length_append, List.length_append, hrest,
      fencedOf_length, splitNl_unindent_length, h4]
    simp only [List.length_take, List.length_drop, List.length_cons]
    omega

theorem rebuildFrom_no_nl {lines : List Line} {spans : List Span} {off : Nat}
    (hnl : ∀ l ∈ lines, '\n' ∉ l) :
    ∀ l ∈ rebuildFrom lines off spans, '\n' ∉ l := by
  induction spans generalizing off with
  | nil =>
    intro l hl
    rw [rebuildFrom_nil] at hl
    exact hnl l (List.mem_of_mem_drop hl)
  | cons sp rest ih =>
    intro l hl
    rw [rebuildFrom_cons] at hl
    rcases List.mem_append.mp hl with hl | hl
    · exact hnl l (List.mem_of_mem_drop (List.mem_of_mem_take hl))
    rcases List.mem_append.mp hl with hl | hl
    · simp only [fencedOf, List.mem_cons, List.mem_append, List.not_mem_nil,
        or_false] at hl
      rcases hl with hl | hl | hl
      · subst hl; decide
      · exact not_nl_of_mem_splitNl hl
      · subst hl; decide
    · exact ih l hl

theorem rebuildFrom_ne_nil {lines : List Line} {spans : List Span} {off : Nat}
    (h : spans ≠ []) : rebuildFrom lines off spans ≠ [] := by
  cases spans with
  | nil => exact absurd rfl h
  | cons sp rest =>
    rw [rebuildFrom_cons]
    simp [fencedOf]

end MdConv

namespace MdConv

theorem spansOkFrom_of_chain {fm : Option (Nat × Nat)} {lines : List Line} :
    ∀ {spans : List Span} {off : Nat},
    List.Chain' (fun p q : Span => p.2.1 < q.1) spans →
    (∀ sp ∈ spans, SpanOk fm lines sp) →
    (∀ sp ∈ spans.head?, off ≤ sp.1) →
    (∀ l ∈ lines, '\n' ∉ l) →
    SpansOkFrom lines off spans := by
  intro spans
  induction spans with
  | nil => intro off _ _ _ _; trivial
  | cons sp rest ih =>
    intro off hchain hok hhead hnl
    obtain ⟨hab, hblen, hcontent, _, _, _⟩ := hok sp (List.mem_cons_self sp rest)
    obtain ⟨hrel, hchain'⟩ := List.chain'_cons'.mp hchain
    refine ⟨hhead sp (by simp), hab, hblen, ?_, hcontent, ?_⟩
    · rw [hcontent, splitNl_joinNl (seg_ne_nil (by omega) (by omega))
        (fun l hl => hnl l (mem_seg hl)), seg_length (by omega) (by omega)]
    · refine ih hchain' (fun sp' hsp' => hok sp' (List.mem_cons.mpr (Or.inr hsp')))
        ?_ hnl
      intro sp' hsp'
      have := hrel sp' hsp'
      omega

theorem detect_spansOkFrom (content : List Char) :
    SpansOkFrom (splitNl content) 0 (detect_indented_code_blocks content) := by
  obtain ⟨hchain, hok⟩ := detect_facts content
  exact spansOkFrom_of_chain hchain hok (fun sp _ => Nat.zero_le _)
    (fun l hl => not_nl_of_mem_splitNl hl)

/-- When no blocks are detected, the converter returns its input. -/
theorem convert_of_nil {content : List Char}
    (h : detect_indented_code_blocks content = []) :
    convert_to_fenced_blocks content = content := by
  unfold convert_to_fenced_blocks
  rw [if_pos (by simp [h])]

/-- When blocks are detected, the converter's output is the immutable
rebuild of the input lines. -/
theorem convert_of_ne {content : List Char}
    (h : detect_indented_code_blocks content ≠ []) :
    convert_to_fenced_blocks content
      = joinNl (rebuildFrom (splitNl content) 0
          (detect_indented_code_blocks content)) := by
  unfold convert_to_fenced_blocks
  rw [if_neg (by simpa [List.isEmpty_iff] using h)]
  rw [foldl_spliceOne_eq_rebuild (detect_spansOkFrom content)]

/-- Line-level description of the converter's output. -/
theorem convert_lines {content : List Char}
    (h : detect_indented_code_blocks content ≠ []) :
    splitNl (convert_to_fenced_blocks content)
      = rebuildFrom (splitNl content) 0 (detect_indented_code_blocks content) := by
  rw [convert_of_ne h]
  exact splitNl_joinNl (rebuildFrom_ne_nil h)
    (rebuildFrom_no_nl (fun l hl => not_nl_of_mem_splitNl hl))

end MdConv

namespace MdConv

/-- A line outside every span is carried over verbatim, shifted by two for
each replaced span that ended before it. -/
theorem rebuildFrom_pos {lines : List Line} : ∀ {spans : List Span} {off i : Nat},
    SpansOkFrom lines off spans → off ≤ i → i < lines.length →
    (∀ sp ∈ spans, ¬(sp.1 ≤ i ∧ i ≤ sp.2.1)) →
    (rebuildFrom lines off spans)[i - off
        + 2 * (spans.filter (fun sp => decide (sp.2.1 < i))).length]?
      = lines[i]? := by
  intro spans
  induction spans with
  | nil =>
    intro off i _ hoff hi _
    rw [rebuildFrom_nil, List.getElem?_drop]
    congr 1
    simp only [List.filter_nil, List.length_nil]
    omega
  | cons sp rest ih =>
    intro off i hok hoff hi hnotin
    obtain ⟨h1, h2, h3, h4, h4c, h5⟩ := hok
    have hnotsp := hnotin sp (List.mem_cons_self _ _)
    rw [rebuildFrom_cons]
    by_cases hlt : i < sp.1
    · have hfilter : ((sp :: rest).filter (fun x => decide (x.2.1 < i))).length = 0 := by
        rw [List.length_eq_zero]
        refine List.filter_eq_nil_iff.mpr ?_
        intro x hx
        rcases List.mem_cons.mp hx with hx | hx
        · subst hx
          simp only [decide_eq_true_eq, not_lt]
          omega
        · have hx1 := (spansOkFrom_mem h5 x hx).1
          have hx2 := (spansOkFrom_mem h5 x hx).2.1
          simp only [decide_eq_true_eq, not_lt]
          omega
      rw [hfilter]
      simp only [Nat.mul_zero, Nat.add_zero]
      have hidx : i - off < ((lines.drop off).take (sp.1 - off)).length := by
        simp only [List.length_take, List.length_drop]
        omega
      rw [List.getElem?_append_left hidx, List.getElem?_take, if_pos (by omega),
        List.getElem?_drop]
      congr 1
      omega
    · have hgt : sp.2.1 < i := by omega
      have hc : ((sp :: rest).filter (fun x => decide (x.2.1 < i)))
          = sp :: rest.filter (fun x => decide (x.2.1 < i)) := by
        rw [List.filter_cons, if_pos (by simpa using hgt)]
      rw [hc, List.length_cons]
      have hAlen : ((lines.drop off).take (sp.1 - off)).length = sp.1 - off := by
        simp only [List.length_take, List.length_drop]
        omega
      have hFlen : (fencedOf sp.2.2).length = (sp.2.1 + 1 - sp.1) + 2 := by
        rw [fencedOf_length, splitNl_unindent_length, h4]
      rw [List.getElem?_append_right (by rw [hAlen]; omega), hAlen,
        List.getElem?_append_right (by rw [hFlen]; omega), hFlen]
      have hihres := ih h5 (show sp.2.1 + 1 ≤ i from hgt) hi
        (fun x hx => hnotin x (List.mem_cons.mpr (Or.inr hx)))
      rw [show i - off + 2 * ((rest.filter (fun x => decide (x.2.1 < i))).length + 1)
            - (sp.1 - off) - ((sp.2.1 + 1 - sp.1) + 2)
          = i - (sp.2.1 + 1)
            + 2 * (rest.filter (fun x => decide (x.2.1 < i))).length from by omega]
      exact hihres

end MdConv

namespace MdConv

/-! ### Claim C2 -/

/-- C2: whenever `detect_indented_code_blocks` finds zero spans, the
converter returns its input byte-for-byte unchanged (and, being a total
function, produces no error). -/
theorem noop_of_no_blocks (content : List Char)
    (h : detect_indented_code_blocks content = []) :
    convert_to_fenced_blocks content = content :=
  convert_of_nil h

/-- Witness for C2 with the empty document and a frontmatter-free,
indentation-free document. -/
theorem noop_of_no_blocks_witness :
    (detect_indented_code_blocks [] = [] ∧ convert_to_fenced_blocks [] = []) ∧
    (detect_indented_code_blocks ("# title\ntext".toList) = [] ∧
      convert_to_fenced_blocks ("# title\ntext".toList) = "# title\ntext".toList) :=
  ⟨⟨rfl, noop_of_no_blocks [] rfl⟩,
   ⟨rfl, noop_of_no_blocks ("# title\ntext".toList) rfl⟩⟩

/-! ### Claim C5 -/

/-- C5: `unindent_code` transforms each line independently — exactly four
leading spaces are removed if present, else exactly one leading tab, else
the line is unchanged — and the number of lines is preserved. -/
theorem unindent_per_line (code_content : List Char) :
    splitNl (unindent_code code_content)
      = (splitNl code_content).map (fun l =>
          if fourSpaces.isPrefixOf l then l.drop 4
          else if (['\t'] : Line).isPrefixOf l then l.drop 1
          else l) ∧
    (splitNl (unindent_code code_content)).length
      = (splitNl code_content).length := by
  constructor
  · rw [splitNl_unindent code_content]
    rfl
  · exact splitNl_unindent_length code_content

/-! ### Claim C9 -/

/-- C9 counterexample: a whitespace-only line consisting of four spaces is
blank (its stripped content is empty) yet it starts a block, so the span
emitted for `"    \n    x"` begins with a blank line. -/
theorem blank_line_starts_block :
    detect_indented_code_blocks ("    \n    x".toList)
        = [(0, 1, "    \n    x".toList)] ∧
    blank (lineAt (splitNl ("    \n    x".toList)) 0) = true := by
  constructor
  · rfl
  · rfl

/-- C9 amended: every emitted span begins with a line matching the 4-space
or tab indent pattern (possibly whitespace-only), ends with a non-blank
line (trailing blanks having been trimmed), and a document consisting
solely of blank lines produces no span. -/
theorem span_blank_structure (content : List Char) :
    (∀ sp ∈ detect_indented_code_blocks content,
      isIndentStart (lineAt (splitNl content) sp.1) = true ∧
      blank (lineAt (splitNl content) sp.2.1) = false) ∧
    ((∀ l ∈ splitNl content, blank l = true) →
      detect_indented_code_blocks content = []) := by
  obtain ⟨_, hok⟩ := detect_facts content
  constructor
  · intro sp hsp
    obtain ⟨_, _, _, hind, hbl, _⟩ := hok sp hsp
    exact ⟨hind, hbl⟩
  · intro hbl
    rw [List.eq_nil_iff_forall_not_mem]
    intro sp hsp
    obtain ⟨_, hlen, _, _, hnb, _⟩ := hok sp hsp
    have hmem : lineAt (splitNl content) sp.2.1 ∈ splitNl content := by
      rw [lineAt, List.getD_eq_getElem _ _ hlen]
      exact List.getElem_mem hlen
    rw [hbl _ hmem] at hnb
    exact absurd hnb (by simp)

/-- Witness for C9's amended statement. -/
theorem span_blank_structure_witness :
    isIndentStart (lineAt (splitNl ("    \n    x".toList)) 0) = true ∧
    detect_indented_code_blocks ("    \n\t \n ".toList) = [] :=
  ⟨((span_blank_structure ("    \n    x".toList)).1 (0, 1, "    \n    x".toList)
      (by decide)).1,
   (span_blank_structure ("    \n\t \n ".toList)).2 (by decide)⟩

/-- A line outside every detected span is carried over verbatim into the
converter's output, shifted by two for each span that ended before it. -/
theorem convert_pos (content : List Char) (i : Nat)
    (hi : i < (splitNl content).length)
    (hnotin : ∀ sp ∈ detect_indented_code_blocks content,
      ¬(sp.1 ≤ i ∧ i ≤ sp.2.1)) :
    (splitNl (convert_to_fenced_blocks content))[i
        + 2 * ((detect_indented_code_blocks content).filter
            (fun sp => decide (sp.2.1 < i))).length]?
      = (splitNl content)[i]? := by
  by_cases h : detect_indented_code_blocks content = []
  · rw [h, convert_of_nil h]
    simp
  · rw [convert_lines h]
    have := rebuildFrom_pos (detect_spansOkFrom content) (Nat.zero_le i) hi hnotin
    simpa using this

/-! ### Claim C10 -/

/-- C10: the output has exactly `2 k` more newline-separated lines than the
input when `k` spans are detected; each span of `n` lines is replaced by
`n + 2` lines (fences around the unindented content); every line outside
all spans is carried over unchanged, shifted by two lines for each span
replaced before it. -/
theorem convert_line_accounting (content : List Char) :
    (splitNl (convert_to_fenced_blocks content)).length
      = (splitNl content).length
        + 2 * (detect_indented_code_blocks content).length ∧
    (∀ sp ∈ detect_indented_code_blocks content,
      (fencedOf sp.2.2).length = (sp.2.1 + 1 - sp.1) + 2) ∧
    (∀ i, i < (splitNl content).length →
      (∀ sp ∈ detect_indented_code_blocks content, ¬(sp.1 ≤ i ∧ i ≤ sp.2.1)) →
      (splitNl (convert_to_fenced_blocks content))[i
          + 2 * ((detect_indented_code_blocks content).filter
              (fun sp => decide (sp.2.1 < i))).length]?
        = (splitNl content)[i]?) := by
  have hok := detect_spansOkFrom content
  by_cases h : detect_indented_code_blocks content = []
  · rw [h, convert_of_nil h]
    refine ⟨by simp, by simp, ?_⟩
    intro i hi _
    simp
  · rw [convert_lines h]
    refine ⟨?_, ?_, ?_⟩
    · rw [rebuildFrom_length hok (Nat.zero_le _)]
      omega
    · intro sp hsp
      obtain ⟨_, _, _, hcount⟩ := spansOkFrom_mem hok sp hsp
      rw [fencedOf_length, splitNl_unindent_length, hcount]
    · intro i hi hnotin
      have := rebuildFrom_pos hok (Nat.zero_le i) hi hnotin
      simpa using this

/-- Witness for C10 at a concrete document with one span. -/
theorem convert_line_accounting_witness :
    (splitNl (convert_to_fenced_blocks ("# T\n\n    a = 1\n".toList))).length
      = (splitNl ("# T\n\n    a = 1\n".toList)).length
        + 2 * (detect_indented_code_blocks ("# T\n\n    a = 1\n".toList)).length ∧
    (splitNl (convert_to_fenced_blocks ("# T\n\n    a = 1\n".toList)))[0]?
      = (splitNl ("# T\n\n    a = 1\n".toList))[0]? :=
  ⟨(convert_line_accounting ("# T\n\n    a = 1\n".toList)).1,
   by
    have := (convert_line_accounting ("# T\n\n    a = 1\n".toList)).2.2 0
      (by decide) (by decide)
    simpa using this⟩

end MdConv

namespace MdConv

/-- Strict ordering of detected spans: the end of an earlier span lies
strictly before the start of a later one. -/
theorem detect_end_start_mono (content : List Char) :
    ∀ i j (hi : i < (detect_indented_code_blocks content).length)
      (hj : j < (detect_indented_code_blocks content).length), i < j →
      ((detect_indented_code_blocks content).get ⟨i, hi⟩).2.1
        < ((detect_indented_code_blocks content).get ⟨j, hj⟩).1 := by
  obtain ⟨hchain, hok⟩ := detect_facts content
  have hse : ∀ sp ∈ detect_indented_code_blocks content, sp.1 ≤ sp.2.1 :=
    fun sp hsp => (hok sp hsp).1
  have hget := List.chain'_iff_get.mp hchain
  intro i j hi hj hij
  induction j with
  | zero => omega
  | succ n ihn =>
    have hn : n < (detect_indented_code_blocks content).length := by omega
    by_cases hin : i = n
    · subst hin
      exact hget i (by omega)
    · have h1 := ihn hn (by omega)
      have h2 := hget n (by omega)
      have h3 := hse ((detect_indented_code_blocks content).get ⟨n, hn⟩)
        (List.get_mem _ _ _)
      omega

/-! ### Claim C7 -/

/-- C7: the detected spans are strictly increasing in start line, each has
`start ≤ end`, no two overlap (the end of an earlier span lies strictly
before the start of a later one), and no span touches a frontmatter line or
a line scanned with the fence state true. -/
theorem span_invariants (content : List Char) :
    (∀ i j (hi : i < (detect_indented_code_blocks content).length)
        (hj : j < (detect_indented_code_blocks content).length), i < j →
      ((detect_indented_code_blocks content).get ⟨i, hi⟩).1
          < ((detect_indented_code_blocks content).get ⟨j, hj⟩).1 ∧
      ((detect_indented_code_blocks content).get ⟨i, hi⟩).2.1
          < ((detect_indented_code_blocks content).get ⟨j, hj⟩).1) ∧
    (∀ sp ∈ detect_indented_code_blocks content, sp.1 ≤ sp.2.1) ∧
    (∀ sp ∈ detect_indented_code_blocks content, ∀ j, sp.1 ≤ j → j ≤ sp.2.1 →
      fmSkip (detect_frontmatter_boundaries content) j = false ∧
      fenceUpTo (detect_frontmatter_boundaries content) (splitNl content) j
        = false) := by
  obtain ⟨hchain, hok⟩ := detect_facts content
  have hse : ∀ sp ∈ detect_indented_code_blocks content, sp.1 ≤ sp.2.1 :=
    fun sp hsp => (hok sp hsp).1
  have hmono := detect_end_start_mono content
  refine ⟨?_, hse, ?_⟩
  · intro i j hi hj hij
    have h1 := hmono i j hi hj hij
    have h2 := hse ((detect_indented_code_blocks content).get ⟨i, hi⟩)
      (List.get_mem _ _ _)
    exact ⟨by omega, h1⟩
  · intro sp hsp j hj1 hj2
    have := (hok sp hsp).2.2.2.2.2 j hj1 hj2
    exact ⟨this.1, this.2.1⟩

/-- Witness for C7 on a document with two spans. -/
theorem span_invariants_witness :
    (((detect_indented_code_blocks ("    a\nx\n    b".toList)).get
        ⟨0, by decide⟩).1
      < ((detect_indented_code_blocks ("    a\nx\n    b".toList)).get
        ⟨1, by decide⟩).1) ∧
    fmSkip (detect_frontmatter_boundaries ("    a\nx\n    b".toList)) 0
      = false :=
  ⟨((span_invariants ("    a\nx\n    b".toList)).1 0 1
      (by decide) (by decide) (by decide)).1,
   ((span_invariants ("    a\nx\n    b".toList)).2.2
      (0, 0, "    a".toList)
      (by decide) 0 (by decide) (by decide)).1⟩

end MdConv

namespace MdConv

/-! ### Frontmatter characterization -/

theorem lineAt_zero (l0 : Line) (rest : List Line) : lineAt (l0 :: rest) 0 = l0 := rfl

theorem lineAt_succ (l0 : Line) (rest : List Line) (k : Nat) :
    lineAt (l0 :: rest) (k + 1) = lineAt rest k := rfl

theorem findClose_none_iff {delim : Line} : ∀ {ls : List Line} {i : Nat},
    findClose delim i ls = none ↔ ∀ l ∈ ls, strip l ≠ delim := by
  intro ls
  induction ls with
  | nil => intro i; simp [findClose]
  | cons l0 ls ih =>
    intro i
    simp only [findClose]
    by_cases h : strip l0 = delim
    · rw [if_pos h]
      simp [h]
    · rw [if_neg h, ih]
      constructor
      · intro hall l hl
        rcases List.mem_cons.mp hl with hl | hl
        · subst hl; exact h
        · exact hall l hl
      · intro hall l hl
        exact hall l (List.mem_cons.mpr (Or.inr hl))

theorem findClose_some_facts {delim : Line} : ∀ {ls : List Line} {i j : Nat},
    findClose delim i ls = some j →
    i ≤ j ∧ j - i < ls.length ∧
    (∃ l, ls[j - i]? = some l ∧ strip l = delim) ∧
    (∀ k l, k < j - i → ls[k]? = some l → strip l ≠ delim) := by
  intro ls
  induction ls with
  | nil => intro i j h; simp [findClose] at h
  | cons l0 ls ih =>
    intro i j h
    simp only [findClose] at h
    by_cases hd : strip l0 = delim
    · rw [if_pos hd] at h
      have hji : j = i := (Option.some.inj h).symm
      subst hji
      refine ⟨le_refl j, by simp, ⟨l0, by simp, hd⟩, ?_⟩
      intro k l hk
      omega
    · rw [if_neg hd] at h
      obtain ⟨h1, h2, h3, h4⟩ := ih h
      refine ⟨by omega, by simp only [List.length_cons]; omega, ?_, ?_⟩
      · obtain ⟨l, hl1, hl2⟩ := h3
        refine ⟨l, ?_, hl2⟩
        rw [show j - i = (j - (i + 1)) + 1 from by omega]
        simpa using hl1
      · intro k l hk hkl
        cases k with
        | zero =>
          have : l0 = l := by simpa using hkl
          subst this
          exact hd
        | succ k' =>
          refine h4 k' l (by omega) ?_
          simpa using hkl

/-- Facts implied by a detected frontmatter span: it starts at line 0, the
opening line strips to a delimiter, the end line is the first later line
stripping to the same delimiter. -/
theorem fm_some_facts {content : List Char} {p : Nat × Nat}
    (h : detect_frontmatter_boundaries content = some p) :
    p.1 = 0 ∧ 1 ≤ p.2 ∧ p.2 < (splitNl content).length ∧
    (strip (lineAt (splitNl content) 0) = tomlDelim ∨
      strip (lineAt (splitNl content) 0) = yamlDelim) ∧
    strip (lineAt (splitNl content) p.2) = strip (lineAt (splitNl content) 0) ∧
    (∀ k, 1 ≤ k → k < p.2 →
      strip (lineAt (splitNl content) k) ≠ strip (lineAt (splitNl content) 0)) := by
  unfold detect_frontmatter_boundaries at h
  rcases hs : splitNl content with _ | ⟨l0, rest⟩
  · exact absurd hs (splitNl_ne_nil content)
  rw [hs] at h
  dsimp only at h
  have main : ∀ delim : Line, strip l0 = delim →
      (findClose delim 1 rest).map (fun i => (0, i)) = some p →
      1 ≤ p.2 ∧ p.2 < (l0 :: rest).length ∧
      strip (lineAt (l0 :: rest) p.2) = strip (lineAt (l0 :: rest) 0) ∧
      (∀ k, 1 ≤ k → k < p.2 →
        strip (lineAt (l0 :: rest) k) ≠ strip (lineAt (l0 :: rest) 0)) := by
    intro delim hdelim hmap
    rcases Option.map_eq_some'.mp hmap with ⟨j, hj, hpj⟩
    obtain ⟨h1, h2, h3, h4⟩ := findClose_some_facts hj
    have hp2 : p.2 = j := by rw [← hpj]
    subst hp2
    refine ⟨h1, by simp only [List.length_cons]; omega, ?_, ?_⟩
    · obtain ⟨l, hl1, hl2⟩ := h3
      rw [lineAt_zero, hdelim,
        show p.2 = (p.2 - 1) + 1 from by omega, lineAt_succ]
      have hlA : lineAt rest (p.2 - 1) = l := by
        simp only [lineAt, List.getD_eq_getElem?_getD, hl1, Option.getD_some]
      rw [hlA]
      exact hl2
    · intro k hk1 hk2
      rw [lineAt_zero, hdelim, show k = (k - 1) + 1 from by omega, lineAt_succ]
      have hklen : k - 1 < rest.length := by omega
      have hlA : lineAt rest (k - 1) = rest[k - 1] := by
        simp only [lineAt, List.getD_eq_getElem?_getD,
          List.getElem?_eq_getElem hklen, Option.getD_some]
      rw [hlA]
      exact h4 (k - 1) _ (by omega) (List.getElem?_eq_getElem hklen)
  by_cases h1 : strip l0 = tomlDelim
  · rw [if_pos h1] at h
    have hm := main tomlDelim h1 h
    have hp1 : p.1 = 0 := by
      rcases Option.map_eq_some'.mp h with ⟨j, _, hpj⟩
      rw [← hpj]
    exact ⟨hp1, hm.1, hm.2.1, Or.inl (by rw [lineAt_zero]; exact h1), hm.2.2.1, hm.2.2.2⟩
  · rw [if_neg h1] at h
    by_cases h2 : strip l0 = yamlDelim
    · rw [if_pos h2] at h
      have hm := main yamlDelim h2 h
      have hp1 : p.1 = 0 := by
        rcases Option.map_eq_some'.mp h with ⟨j, _, hpj⟩
        rw [← hpj]
      exact ⟨hp1, hm.1, hm.2.1, Or.inr (by rw [lineAt_zero]; exact h2), hm.2.2.1, hm.2.2.2⟩
    · rw [if_neg h2] at h
      exact absurd h (by simp)

end MdConv

namespace MdConv

/-- Characterization of the no-frontmatter sentinel: returned exactly when
line 0 strips to neither delimiter, or no later line strips to the same
delimiter as line 0. -/
theorem fm_none_iff {content : List Char} :
    detect_frontmatter_boundaries content = none ↔
      ((strip (lineAt (splitNl content) 0) ≠ tomlDelim ∧
        strip (lineAt (splitNl content) 0) ≠ yamlDelim) ∨
       (∀ k, 1 ≤ k → k < (splitNl content).length →
         strip (lineAt (splitNl content) k) ≠ strip (lineAt (splitNl content) 0))) := by
  unfold detect_frontmatter_boundaries
  rcases hs : splitNl content with _ | ⟨l0, rest⟩
  · exact absurd hs (splitNl_ne_nil content)
  dsimp only
  rw [lineAt_zero]
  have hrestline : ∀ k, 1 ≤ k → k < (l0 :: rest).length →
      lineAt (l0 :: rest) k = lineAt rest (k - 1) := by
    intro k hk1 _
    rw [show k = (k - 1) + 1 from by omega, lineAt_succ, Nat.add_sub_cancel]
  constructor
  · intro h
    have hcase : ∀ delim : Line, strip l0 = delim →
        findClose delim 1 rest = none →
        ∀ k, 1 ≤ k → k < (l0 :: rest).length →
          strip (lineAt (l0 :: rest) k) ≠ strip l0 := by
      intro delim hdelim hnone k hk1 hk2 hcon
      have hklen : k - 1 < rest.length := by
        simp only [List.length_cons] at hk2
        omega
      have hlk := hrestline k hk1 hk2
      have hle : lineAt rest (k - 1) = rest[k - 1] := by
        rw [lineAt, List.getD_eq_getElem _ _ hklen]
      have hmem : lineAt rest (k - 1) ∈ rest := by
        rw [hle]
        exact List.getElem_mem hklen
      have hno := findClose_none_iff.mp hnone _ hmem
      rw [hlk] at hcon
      exact hno (by rw [hcon, hdelim])
    by_cases h1 : strip l0 = tomlDelim
    · rw [if_pos h1] at h
      have hnone : findClose tomlDelim 1 rest = none := by
        cases hfc : findClose tomlDelim 1 rest with
        | none => rfl
        | some j => rw [hfc] at h; exact absurd h (by simp)
      exact Or.inr (hcase tomlDelim h1 hnone)
    · rw [if_neg h1] at h
      by_cases h2 : strip l0 = yamlDelim
      · rw [if_pos h2] at h
        have hnone : findClose yamlDelim 1 rest = none := by
          cases hfc : findClose yamlDelim 1 rest with
          | none => rfl
          | some j => rw [hfc] at h; exact absurd h (by simp)
        exact Or.inr (hcase yamlDelim h2 hnone)
      · exact Or.inl ⟨h1, h2⟩
  · intro h
    have hcase : ∀ delim : Line, strip l0 = delim →
        (∀ k, 1 ≤ k → k < (l0 :: rest).length →
          strip (lineAt (l0 :: rest) k) ≠ strip l0) →
        findClose delim 1 rest = none := by
      intro delim hdelim hall
      rw [findClose_none_iff]
      intro l hl hcon
      obtain ⟨m, hm, hml⟩ := List.getElem_of_mem hl
      have hlk := hrestline (m + 1) (by omega)
        (by simp only [List.length_cons]; omega)
      have hlm : lineAt rest m = l := by
        rw [lineAt, List.getD_eq_getElem _ _ hm, hml]
      refine hall (m + 1) (by omega) (by simp only [List.length_cons]; omega) ?_
      rw [hlk, Nat.add_sub_cancel, hlm, hcon, hdelim]
    rcases h with ⟨h1, h2⟩ | h
    · rw [if_neg h1, if_neg h2]
    · by_cases h1 : strip l0 = tomlDelim
      · rw [if_pos h1, hcase tomlDelim h1 h]
        rfl
      · rw [if_neg h1]
        by_cases h2 : strip l0 = yamlDelim
        · rw [if_pos h2, hcase yamlDelim h2 h]
          rfl
        · rw [if_neg h2]

end MdConv

namespace MdConv

/-! ### Claim C8 -/

/-- C8 counterexample: a line 0 that is `" +++"` — not exactly `+++` — still
opens a frontmatter block, because the code strips the line before
comparing. -/
theorem fm_strip_counterexample :
    detect_frontmatter_boundaries (" +++\n+++".toList) = some (0, 1) ∧
    lineAt (splitNl (" +++\n+++".toList)) 0 ≠ "+++".toList ∧
    lineAt (splitNl (" +++\n+++".toList)) 0 ≠ "---".toList :=
  ⟨rfl, by decide, by decide⟩

/-- C8 amended: a frontmatter span is returned only if line 0 strips to
exactly `+++` or `---` and some later line strips to the same delimiter;
the span returned is `(0, i)` with `i` the first such closing line (the
content between is never re-scanned); in every other case — including an
opening delimiter with no closer — the `none` sentinel is returned, never
an error. -/
theorem fm_characterization (content : List Char) :
    (∀ p, detect_frontmatter_boundaries content = some p →
      p.1 = 0 ∧ 1 ≤ p.2 ∧ p.2 < (splitNl content).length ∧
      (strip (lineAt (splitNl content) 0) = tomlDelim ∨
        strip (lineAt (splitNl content) 0) = yamlDelim) ∧
      strip (lineAt (splitNl content) p.2) = strip (lineAt (splitNl content) 0) ∧
      (∀ k, 1 ≤ k → k < p.2 →
        strip (lineAt (splitNl content) k) ≠ strip (lineAt (splitNl content) 0))) ∧
    (detect_frontmatter_boundaries content = none ↔
      ((strip (lineAt (splitNl content) 0) ≠ tomlDelim ∧
        strip (lineAt (splitNl content) 0) ≠ yamlDelim) ∨
       (∀ k, 1 ≤ k → k < (splitNl content).length →
         strip (lineAt (splitNl content) k) ≠ strip (lineAt (splitNl content) 0)))) :=
  ⟨fun _ hp => fm_some_facts hp, fm_none_iff⟩

/-- Witness for C8's amended characterization: a proper frontmatter block,
and an opening delimiter with no closer. -/
theorem fm_characterization_witness :
    (detect_frontmatter_boundaries ("+++\na\n+++".toList) = some (0, 2) ∧
      2 < (splitNl ("+++\na\n+++".toList)).length) ∧
    ((strip (lineAt (splitNl ("+++\nno closer".toList)) 0) ≠ tomlDelim ∧
      strip (lineAt (splitNl ("+++\nno closer".toList)) 0) ≠ yamlDelim) ∨
     (∀ k, 1 ≤ k → k < (splitNl ("+++\nno closer".toList)).length →
       strip (lineAt (splitNl ("+++\nno closer".toList)) k)
         ≠ strip (lineAt (splitNl ("+++\nno closer".toList)) 0))) :=
  ⟨⟨rfl, ((fm_characterization ("+++\na\n+++".toList)).1 (0, 2) rfl).2.2.1⟩,
   (fm_characterization ("+++\nno closer".toList)).2.mp rfl⟩

/-! ### Claim C3 -/

/-- C3: every line of a detected frontmatter block appears byte-identical
at the same index in the converter's output, whatever its indentation. -/
theorem frontmatter_preserved (content : List Char) (e : Nat)
    (hfm : detect_frontmatter_boundaries content = some (0, e)) :
    ∀ i, i ≤ e →
      (splitNl (convert_to_fenced_blocks content))[i]?
        = (splitNl content)[i]? := by
  intro i hie
  have hfacts := fm_some_facts hfm
  have hi : i < (splitNl content).length := by
    have := hfacts.2.2.1
    simp only at this
    omega
  by_cases h : detect_indented_code_blocks content = []
  · rw [convert_of_nil h]
  · obtain ⟨_, hok⟩ := detect_facts content
    have hstart : ∀ sp ∈ detect_indented_code_blocks content, e < sp.1 := by
      intro sp hsp
      have hg := (hok sp hsp).2.2.2.2.2 sp.1 (le_refl _) (hok sp hsp).1
      have hfs : fmSkip (some (0, e)) sp.1 = false := by
        rw [← hfm]
        exact hg.1
      have hfs' : ¬(0 ≤ sp.1 ∧ sp.1 ≤ e) := of_decide_eq_false hfs
      by_contra hc
      push_neg at hc
      exact hfs' ⟨Nat.zero_le _, hc⟩
    have hnotin : ∀ sp ∈ detect_indented_code_blocks content,
        ¬(sp.1 ≤ i ∧ i ≤ sp.2.1) := by
      intro sp hsp hcon
      have := hstart sp hsp
      omega
    have hfilter : ((detect_indented_code_blocks content).filter
        (fun sp => decide (sp.2.1 < i))).length = 0 := by
      rw [List.length_eq_zero]
      refine List.filter_eq_nil_iff.mpr ?_
      intro sp hsp
      have h1 := hstart sp hsp
      have h2 := (hok sp hsp).1
      simp only [decide_eq_true_eq, not_lt]
      omega
    have hpos := rebuildFrom_pos (detect_spansOkFrom content)
      (Nat.zero_le i) hi hnotin
    rw [hfilter] at hpos
    rw [convert_lines h]
    simpa using hpos

/-- Witness for C3: a TOML frontmatter block followed by an indented code
block. -/
theorem frontmatter_preserved_witness :
    (splitNl (convert_to_fenced_blocks ("+++\na\n+++\n    c".toList)))[1]?
      = (splitNl ("+++\na\n+++\n    c".toList))[1]? :=
  frontmatter_preserved ("+++\na\n+++\n    c".toList) 2 rfl 1 (by omega)

end MdConv

namespace MdConv

/-! ### Claim C4 -/

/-- C4: a line scanned while the fence state is true (and which is not
itself a fence marker) belongs to no detected span and appears unaltered in
the output, at its index shifted by two for each span replaced before it —
even if the line begins with four spaces or tabs. -/
theorem fence_region_untouched (content : List Char) (i : Nat)
    (hi : i < (splitNl content).length)
    (hf : fenceUpTo (detect_frontmatter_boundaries content) (splitNl content) i
      = true)
    (hnm : isFence (lineAt (splitNl content) i) = false) :
    (∀ sp ∈ detect_indented_code_blocks content, ¬(sp.1 ≤ i ∧ i ≤ sp.2.1)) ∧
    (splitNl (convert_to_fenced_blocks content))[i
        + 2 * ((detect_indented_code_blocks content).filter
            (fun sp => decide (sp.2.1 < i))).length]?
      = (splitNl content)[i]? := by
  obtain ⟨_, hok⟩ := detect_facts content
  have hnotin : ∀ sp ∈ detect_indented_code_blocks content,
      ¬(sp.1 ≤ i ∧ i ≤ sp.2.1) := by
    intro sp hsp hcon
    have hg := (hok sp hsp).2.2.2.2.2 i hcon.1 hcon.2
    rw [hg.2.1] at hf
    exact absurd hf (by simp)
  refine ⟨hnotin, ?_⟩
  exact convert_pos content i hi hnotin

/-- Witness for C4: an indented line inside a pre-existing fenced block. -/
theorem fence_region_untouched_witness :
    (∀ sp ∈ detect_indented_code_blocks ("```\n    x\n```".toList),
      ¬(sp.1 ≤ 1 ∧ 1 ≤ sp.2.1)) ∧
    (splitNl (convert_to_fenced_blocks ("```\n    x\n```".toList)))[1
        + 2 * ((detect_indented_code_blocks ("```\n    x\n```".toList)).filter
            (fun sp => decide (sp.2.1 < 1))).length]?
      = (splitNl ("```\n    x\n```".toList))[1]? :=
  fence_region_untouched ("```\n    x\n```".toList) 1 (by decide) (by decide)
    (by decide)

/-! ### Claim C6 -/

/-- C6: when a fence-marker line is reached while a block is being
accumulated (outside frontmatter), the step toggles the fence state and
discards the accumulator, and no span of the final result covers the
buffered lines: every detected span ends before the accumulation start or
begins after the fence line. -/
theorem fence_discard (content : List Char) (i s : Nat)
    (hi : i ≤ (splitNl content).length)
    (hcs : (scanUpTo (detect_frontmatter_boundaries content) (splitNl content)
      i).curStart = some s)
    (hfm : fmSkip (detect_frontmatter_boundaries content) i = false)
    (hfc : isFence (lineAt (splitNl content) i) = true) :
    scanStep (detect_frontmatter_boundaries content) i
        (lineAt (splitNl content) i)
        (scanUpTo (detect_frontmatter_boundaries content) (splitNl content) i)
      = { scanUpTo (detect_frontmatter_boundaries content) (splitNl content) i
            with
          inFence := !(scanUpTo (detect_frontmatter_boundaries content)
            (splitNl content) i).inFence,
          curStart := none, curLines := [] } ∧
    ∀ sp ∈ detect_indented_code_blocks content, sp.2.1 < s ∨ i < sp.1 := by
  have hfm0 : ∀ a b, detect_frontmatter_boundaries content = some (a, b) → a = 0 :=
    fun a b hab => fm_fst_zero content (a, b) hab
  have hinv := Inv_upTo hfm0 i hi
  refine ⟨scanStep_fence hfm hfc, ?_⟩
  have hlt : i < (splitNl content).length := by
    rcases Nat.lt_or_ge i (splitNl content).length with h | h
    · exact h
    · exfalso
      have hla : lineAt (splitNl content) i = [] := by
        rw [lineAt, List.getD_eq_default]
        omega
      rw [hla] at hfc
      exact absurd hfc (by decide)
  obtain ⟨hsi, _, _, _, hends, _⟩ := hinv.cur_some s hcs
  intro sp hsp
  have hsplit : (splitNl content)
      = (splitNl content).take i ++ (lineAt (splitNl content) i
          :: (splitNl content).drop (i + 1)) := by
    conv_lhs => rw [← List.take_append_drop i (splitNl content)]
    congr 1
    rw [List.drop_eq_getElem_cons hlt]
    congr 1
    rw [lineAt, List.getD_eq_getElem _ _ hlt]
  have hdetect : detect_indented_code_blocks content
      = (endScan (scanFrom (detect_frontmatter_boundaries content) (i + 1)
          ((splitNl content).drop (i + 1))
          (scanStep (detect_frontmatter_boundaries content) i
            (lineAt (splitNl content) i)
            (scanUpTo (detect_frontmatter_boundaries content)
              (splitNl content) i)))).blocks := by
    show (endScan (scanFrom _ 0 (splitNl content) initState)).blocks = _
    conv_lhs => rw [hsplit]
    rw [scanFrom_append, scanFrom_cons, List.length_take,
      Nat.min_eq_left (Nat.le_of_lt hlt), Nat.zero_add]
    rfl
  rw [hdetect] at hsp
  set st' := scanStep (detect_frontmatter_boundaries content) i
    (lineAt (splitNl content) i)
    (scanUpTo (detect_frontmatter_boundaries content) (splitNl content) i)
    with hst'
  have hst'cs : st'.curStart = none := by
    rw [hst', scanStep_fence hfm hfc]
  have hfut := @scanFrom_future (detect_frontmatter_boundaries content)
    ((splitNl content).drop (i + 1)) (i + 1) st'
    (by intro s' hs'; rw [hst'cs] at hs'; exact absurd hs' (by simp))
  have hend := @endScan_future (scanFrom (detect_frontmatter_boundaries content)
      (i + 1) ((splitNl content).drop (i + 1)) st')
    (i + 1 + ((splitNl content).drop (i + 1)).length)
  rcases hend sp hsp with hsp' | hsp'
  · rcases hfut.2.2 sp hsp' with hsp'' | hsp''
    · left
      have : st'.blocks = (scanUpTo (detect_frontmatter_boundaries content)
          (splitNl content) i).blocks := by
        rw [hst', scanStep_fence hfm hfc]
      rw [this] at hsp''
      exact hends sp hsp''
    · right
      rw [lowB_none hst'cs] at hsp''
      omega
  · right
    have hlow : i + 1 ≤ lowB (i + 1 + ((splitNl content).drop (i + 1)).length)
        (scanFrom (detect_frontmatter_boundaries content) (i + 1)
          ((splitNl content).drop (i + 1)) st') := by
      have := hfut.2.1
      rw [lowB_none hst'cs] at this
      exact this
    omega

end MdConv

namespace MdConv

/-- Witness for C6: an accumulating block interrupted by a fence line; the
only detected span of the document lies entirely before the discarded
accumulation, as the instantiated disjunction shows. -/
theorem fence_discard_witness : (1 : Nat) < 3 ∨ (4 : Nat) < 1 :=
  (fence_discard ("x\n    a\nx\n    b\n```".toList) 4 3 (by decide) rfl rfl
    rfl).2 (1, 1, "    a".toList) (by decide)

end MdConv

namespace MdConv

/-! ### Infrastructure for idempotence: frontmatter preservation -/

theorem findClose_intro {delim : Line} : ∀ {ls : List Line} {i j : Nat},
    i ≤ j → j - i < ls.length →
    (∀ l, ls[j - i]? = some l → strip l = delim) →
    (∀ k l, k < j - i → ls[k]? = some l → strip l ≠ delim) →
    findClose delim i ls = some j := by
  intro ls
  induction ls with
  | nil =>
    intro i j _ h2 _ _
    simp at h2
  | cons l0 ls ih =>
    intro i j h1 h2 h3 h4
    by_cases hij : j = i
    · subst hij
      have := h3 l0 (by simp)
      simp only [findClose, if_pos this]
    · have hlt : 0 < j - i := by omega
      have hne : strip l0 ≠ delim := h4 0 l0 hlt (by simp)
      simp only [findClose, if_neg hne]
      refine ih (by omega) ?_ ?_ ?_
      · simp only [List.length_cons] at h2
        omega
      · intro l hl
        refine h3 l ?_
        rw [show j - i = (j - (i + 1)) + 1 from by omega]
        simpa using hl
      · intro k l hk hkl
        refine h4 (k + 1) l (by omega) ?_
        simpa using hkl

/-- Introduction rule for frontmatter detection: line 0 strips to a
delimiter and line `e` is the first later line stripping to that same
delimiter. -/
theorem fm_intro {content : List Char} {e : Nat}
    (hlen : e < (splitNl content).length) (he1 : 1 ≤ e)
    (hdelim : strip (lineAt (splitNl content) 0) = tomlDelim ∨
      strip (lineAt (splitNl content) 0) = yamlDelim)
    (hclose : strip (lineAt (splitNl content) e)
      = strip (lineAt (splitNl content) 0))
    (hfirst : ∀ k, 1 ≤ k → k < e →
      strip (lineAt (splitNl content) k) ≠ strip (lineAt (splitNl content) 0)) :
    detect_frontmatter_boundaries content = some (0, e) := by
  unfold detect_frontmatter_boundaries
  rcases hs : splitNl content with _ | ⟨l0, rest⟩
  · exact absurd hs (splitNl_ne_nil content)
  rw [hs] at hlen hdelim hclose hfirst
  dsimp only
  simp only [List.length_cons] at hlen
  have hat : ∀ k, 1 ≤ k → lineAt (l0 :: rest) k = lineAt rest (k - 1) := by
    intro k hk1
    rw [show k = (k - 1) + 1 from by omega, lineAt_succ, Nat.add_sub_cancel]
  have hfc : ∀ delim : Line, strip l0 = delim →
      findClose delim 1 rest = some e := by
    intro delim hd
    refine findClose_intro he1 (by omega) ?_ ?_
    · intro l hl
      have hv : lineAt rest (e - 1) = l := by
        rw [lineAt, List.getD_eq_getElem?_getD, hl]
        rfl
      rw [← hv, ← hat e he1, hclose, lineAt_zero, hd]
    · intro k l hk hkl
      have hv : lineAt rest k = l := by
        rw [lineAt, List.getD_eq_getElem?_getD, hkl]
        rfl
      intro hcon
      refine hfirst (k + 1) (by omega) (by omega) ?_
      rw [hat (k + 1) (by omega), Nat.add_sub_cancel, hv, hcon, lineAt_zero, hd]
  rw [lineAt_zero] at hdelim
  rcases hdelim with hd | hd
  · rw [if_pos hd, hfc tomlDelim hd]
    rfl
  · have hne : strip l0 ≠ tomlDelim := by
      rw [hd]
      decide
    rw [if_neg hne, if_pos hd, hfc yamlDelim hd]
    rfl

theorem take_agree_lineAt {ls1 ls2 : List Line} {t k : Nat}
    (h : ls1.take t = ls2.take t) (hk : k < t) :
    lineAt ls1 k = lineAt ls2 k := by
  have h1 : ls1[k]? = ls2[k]? := by
    have e1 : (ls1.take t)[k]? = ls1[k]? := by
      rw [List.getElem?_take, if_pos hk]
    have e2 : (ls2.take t)[k]? = ls2[k]? := by
      rw [List.getElem?_take, if_pos hk]
    rw [← e1, ← e2, h]
  rw [lineAt, lineAt, List.getD_eq_getElem?_getD, List.getD_eq_getElem?_getD, h1]

/-- A rebuild whose first span lies strictly beyond `i` starts with line `i`
verbatim. -/
theorem rebuildFrom_head_verbatim {lines : List Line} {spans : List Span}
    {i : Nat} (hi : i < lines.length)
    (hfirst : ∀ sp ∈ spans.head?, i < sp.1) :
    rebuildFrom lines i spans = lineAt lines i :: rebuildFrom lines (i + 1) spans := by
  have hdrop : lines.drop i = lineAt lines i :: lines.drop (i + 1) := by
    rw [List.drop_eq_getElem_cons hi]
    congr 1
    rw [lineAt, List.getD_eq_getElem _ _ hi]
  cases spans with
  | nil =>
    rw [rebuildFrom_nil, rebuildFrom_nil, hdrop]
  | cons sp rest =>
    have hsp : i < sp.1 := hfirst sp (by simp)
    rw [rebuildFrom_cons, rebuildFrom_cons, hdrop,
      show sp.1 - i = (sp.1 - (i + 1)) + 1 from by omega, List.take_succ_cons,
      List.cons_append]

theorem spansOkFrom_raise {lines : List Line} {spans : List Span} {t : Nat}
    (hok : SpansOkFrom lines 0 spans) (hfirst : ∀ sp ∈ spans.head?, t ≤ sp.1) :
    SpansOkFrom lines t spans := by
  cases spans with
  | nil => trivial
  | cons sp rest =>
    obtain ⟨_, h2, h3, h4, h4c, h5⟩ := hok
    exact ⟨hfirst sp (by simp), h2, h3, h4, h4c, h5⟩

theorem seg_mem_exists {lines : List Line} {a b : Nat} {l : Line}
    (h : l ∈ seg lines a b) :
    ∃ j, a ≤ j ∧ j < b ∧ j < lines.length ∧ l = lineAt lines j := by
  obtain ⟨m, hm, hml⟩ := List.getElem_of_mem h
  have hlen : (seg lines a b).length ≤ b - a := by
    simp only [seg, List.length_take]
    omega
  have hlen2 : (seg lines a b).length ≤ lines.length - a := by
    simp only [seg, List.length_take, List.length_drop]
    omega
  have hq : (seg lines a b)[m]? = lines[a + m]? := seg_getElem? (by omega)
  rw [List.getElem?_eq_getElem hm] at hq
  have ham : a + m < lines.length := by omega
  rw [List.getElem?_eq_getElem ham] at hq
  refine ⟨a + m, by omega, by omega, ham, ?_⟩
  rw [lineAt, List.getD_eq_getElem _ _ ham, ← Option.some.inj hq, hml]

/-- Source classification of the lines of a rebuild: each is a fence marker,
a verbatim original line at index at least `off`, or the unindentation of an
original line at index at least `off`. -/
theorem rebuildFrom_mem {lines : List Line} (hnl : ∀ l ∈ lines, '\n' ∉ l) :
    ∀ {spans : List Span} {off : Nat}, SpansOkFrom lines off spans →
    ∀ l ∈ rebuildFrom lines off spans,
      l = fenceMark ∨
      (∃ j, off ≤ j ∧ j < lines.length ∧
        (l = lineAt lines j ∨ l = unindentLine (lineAt lines j))) := by
  intro spans
  induction spans with
  | nil =>
    intro off _ l hl
    rw [rebuildFrom_nil] at hl
    obtain ⟨m, hm, hml⟩ := List.getElem_of_mem hl
    have hq : (lines.drop off)[m]? = lines[off + m]? := List.getElem?_drop _ _ _
    rw [List.getElem?_eq_getElem hm] at hq
    have hom : off + m < lines.length := by
      have := hm
      simp only [List.length_drop] at this
      omega
    rw [List.getElem?_eq_getElem hom] at hq
    refine Or.inr ⟨off + m, by omega, hom, Or.inl ?_⟩
    rw [lineAt, List.getD_eq_getElem _ _ hom, ← Option.some.inj hq, hml]
  | cons sp rest ih =>
    intro off hok l hl
    obtain ⟨h1, h2, h3, h4, h4c, h5⟩ := hok
    rw [rebuildFrom_cons] at hl
    rcases List.mem_append.mp hl with hl | hl
    · have hl' : l ∈ lines.drop off := List.mem_of_mem_take hl
      obtain ⟨m, hm, hml⟩ := List.getElem_of_mem hl'
      have hq : (lines.drop off)[m]? = lines[off + m]? := List.getElem?_drop _ _ _
      rw [List.getElem?_eq_getElem hm] at hq
      have hom : off + m < lines.length := by
        have := hm
        simp only [List.length_drop] at this
        omega
      rw [List.getElem?_eq_getElem hom] at hq
      refine Or.inr ⟨off + m, by omega, hom, Or.inl ?_⟩
      rw [lineAt, List.getD_eq_getElem _ _ hom, ← Option.some.inj hq, hml]
    rcases List.mem_append.mp hl with hl | hl
    · simp only [fencedOf, List.mem_cons, List.mem_append, List.not_mem_nil,
        or_false] at hl
      rcases hl with hl | hl | hl
      · exact Or.inl hl
      · rw [splitNl_unindent] at hl
        obtain ⟨l', hl'1, hl'2⟩ := List.mem_map.mp hl
        have hsplit : splitNl sp.2.2 = seg lines sp.1 (sp.2.1 + 1) := by
          rw [h4c]
          exact splitNl_joinNl (seg_ne_nil (by omega) (by omega))
            (fun x hx => hnl x (mem_seg hx))
        rw [hsplit] at hl'1
        obtain ⟨j, hj1, hj2, hj3, hj4⟩ := seg_mem_exists hl'1
        refine Or.inr ⟨j, by omega, hj3, Or.inr ?_⟩
        rw [← hl'2, hj4]
      · exact Or.inl hl
    · have := ih h5 l hl
      rcases this with h | ⟨j, hj1, hj2, hj3⟩
      · exact Or.inl h
      · exact Or.inr ⟨j, by omega, hj2, hj3⟩

end MdConv

namespace MdConv

theorem lineAt_mem {ls : List Line} {j : Nat} (h : j < ls.length) :
    lineAt ls j ∈ ls := by
  rw [lineAt, List.getD_eq_getElem _ _ h]
  exact List.getElem_mem h

/-- The detected spans all start after the frontmatter range. -/
theorem spans_start_after_fm {content : List Char} {e : Nat}
    (hfm : detect_frontmatter_boundaries content = some (0, e)) :
    ∀ sp ∈ detect_indented_code_blocks content, e < sp.1 := by
  obtain ⟨_, hok⟩ := detect_facts content
  intro sp hsp
  have hg := (hok sp hsp).2.2.2.2.2 sp.1 (le_refl _) (hok sp hsp).1
  have hfs : fmSkip (some (0, e)) sp.1 = false := by
    rw [← hfm]
    exact hg.1
  have hfs' : ¬(0 ≤ sp.1 ∧ sp.1 ≤ e) := of_decide_eq_false hfs
  by_contra hc
  push_neg at hc
  exact hfs' ⟨Nat.zero_le _, hc⟩

/-- The converter does not change the detected frontmatter boundaries. -/
theorem fm_preserved (content : List Char) :
    detect_frontmatter_boundaries (convert_to_fenced_blocks content)
      = detect_frontmatter_boundaries content := by
  by_cases h : detect_indented_code_blocks content = []
  · rw [convert_of_nil h]
  have hok := detect_spansOkFrom content
  have hout : splitNl (convert_to_fenced_blocks content)
      = rebuildFrom (splitNl content) 0 (detect_indented_code_blocks content) :=
    convert_lines h
  have hnl : ∀ l ∈ splitNl content, '\n' ∉ l :=
    fun l hl => not_nl_of_mem_splitNl hl
  cases hfm : detect_frontmatter_boundaries content with
  | some p =>
    obtain ⟨p1, p2⟩ := p
    have hp1 : p1 = 0 := fm_fst_zero content (p1, p2) hfm
    subst hp1
    obtain ⟨_, he1, helen, hdelim, hclose, hfirst⟩ := fm_some_facts hfm
    have he1' : 1 ≤ p2 := he1
    have helen' : p2 < (splitNl content).length := helen
    have hclose' : strip (lineAt (splitNl content) p2)
        = strip (lineAt (splitNl content) 0) := hclose
    have hfirst' : ∀ k, 1 ≤ k → k < p2 →
        strip (lineAt (splitNl content) k)
          ≠ strip (lineAt (splitNl content) 0) := hfirst
    have hstart := spans_start_after_fm hfm
    have hhead : ∀ sp ∈ (detect_indented_code_blocks content).head?,
        p2 + 1 ≤ sp.1 := by
      intro sp hsp
      have hmem : sp ∈ detect_indented_code_blocks content :=
        List.mem_of_mem_head? hsp
      have := hstart sp hmem
      omega
    have htake := rebuildFrom_take hok (Nat.zero_le _) hhead
    simp only [Nat.sub_zero, List.drop_zero] at htake
    rw [← hout] at htake
    have hagree : ∀ k, k ≤ p2 →
        lineAt (splitNl (convert_to_fenced_blocks content)) k
          = lineAt (splitNl content) k :=
      fun k hk => take_agree_lineAt htake (by omega)
    have hlen2 : p2 < (splitNl (convert_to_fenced_blocks content)).length := by
      rw [hout, rebuildFrom_length hok (Nat.zero_le _)]
      omega
    refine fm_intro hlen2 he1' ?_ ?_ ?_
    · rw [hagree 0 (by omega)]
      exact hdelim
    · rw [hagree p2 (le_refl _), hagree 0 (by omega)]
      exact hclose'
    · intro k hk1 hk2
      rw [hagree k (by omega), hagree 0 (by omega)]
      exact hfirst' k hk1 hk2
  | none =>
    rw [fm_none_iff]
    rcases hsp0 : detect_indented_code_blocks content with _ | ⟨sp0, rest0⟩
    · exact absurd hsp0 h
    by_cases hz : sp0.1 = 0
    · left
      have h0 : lineAt (splitNl (convert_to_fenced_blocks content)) 0
          = fenceMark := by
        rw [hout, hsp0, rebuildFrom_cons, hz]
        simp only [Nat.sub_zero, List.take_zero, List.nil_append, fencedOf]
        rfl
      rw [h0]
      constructor
      · decide
      · decide
    · have hhead1 : ∀ sp ∈ (detect_indented_code_blocks content).head?,
          1 ≤ sp.1 := by
        rw [hsp0]
        intro sp hsp
        simp only [List.head?_cons, Option.mem_def, Option.some.injEq] at hsp
        subst hsp
        omega
      have htake1 := rebuildFrom_take hok (Nat.zero_le _) hhead1
      simp only [Nat.sub_zero, List.drop_zero] at htake1
      rw [← hout] at htake1
      have h00 : lineAt (splitNl (convert_to_fenced_blocks content)) 0
          = lineAt (splitNl content) 0 :=
        take_agree_lineAt htake1 (by omega)
      by_cases hd : strip (lineAt (splitNl content) 0) = tomlDelim ∨
          strip (lineAt (splitNl content) 0) = yamlDelim
      · have hlines2 : ∀ k, 1 ≤ k → k < (splitNl content).length →
            strip (lineAt (splitNl content) k)
              ≠ strip (lineAt (splitNl content) 0) := by
          rcases fm_none_iff.mp hfm with ⟨ha, hb⟩ | h2
          · rcases hd with hd | hd
            · exact absurd hd ha
            · exact absurd hd hb
          · exact h2
        right
        intro k hk1 hk2
        rw [h00]
        have hgt0 : ∀ sp ∈ (detect_indented_code_blocks content).head?,
            0 < sp.1 := by
          intro sp hsp
          have := hhead1 sp hsp
          omega
        have hreb : rebuildFrom (splitNl content) 0
            (detect_indented_code_blocks content)
            = lineAt (splitNl content) 0
              :: rebuildFrom (splitNl content) 1
                (detect_indented_code_blocks content) :=
          rebuildFrom_head_verbatim (splitNl_length_pos content) hgt0
        have hmem : lineAt (splitNl (convert_to_fenced_blocks content)) k
            ∈ rebuildFrom (splitNl content) 1
              (detect_indented_code_blocks content) := by
          rw [hout, hreb, show k = (k - 1) + 1 from by omega, lineAt_succ]
          apply lineAt_mem
          rw [hout, hreb] at hk2
          simp only [List.length_cons] at hk2
          omega
        have hclass := rebuildFrom_mem hnl (spansOkFrom_raise hok hhead1)
          _ hmem
        rcases hclass with hcl | ⟨j, hj1, hj2, hj3 | hj3⟩
        · rw [hcl]
          rcases hd with hd | hd <;> rw [hd] <;> decide
        · rw [hj3]
          exact hlines2 j hj1 hj2
        · rw [hj3, strip_unindentLine]
          exact hlines2 j hj1 hj2
      · left
        push_neg at hd
        rw [h00]
        exact hd

end MdConv

namespace MdConv

/-! ### Infrastructure for idempotence: trajectory bounds -/

theorem scanStep_cs_cases {fm : Option (Nat × Nat)} {i : Nat} {l : Line}
    {st : ScanState} :
    ∀ s, (scanStep fm i l st).curStart = some s →
      st.curStart = some s ∨ s = i := by
  intro s hs
  unfold scanStep at hs
  split at hs
  · exact Or.inl hs
  split at hs
  · simp at hs
  split at hs
  · exact Or.inl hs
  split at hs
  · split at hs
    · right
      have : some i = some s := hs
      exact (Option.some.inj this).symm
    · exact Or.inl hs
  · cases hcs' : st.curStart with
    | none =>
      rw [finalizeBlock_none hcs', hcs'] at hs
      exact absurd hs (by simp)
    | some s' =>
      by_cases hdtb : dropTrailingBlanks st.curLines = []
      · rw [finalizeBlock_some_nil hcs' hdtb] at hs
        simp at hs
      · rw [finalizeBlock_some_emit hcs' hdtb] at hs
        simp at hs

theorem scanFrom_cs_lb {fm : Option (Nat × Nat)} (ys : List Line) :
    ∀ {i : Nat} {st : ScanState} (s : Nat),
    (scanFrom fm i ys st).curStart = some s →
      st.curStart = some s ∨ i ≤ s := by
  induction ys with
  | nil => intro i st s hs; exact Or.inl hs
  | cons l ls ih =>
    intro i st s hs
    rw [scanFrom_cons] at hs
    rcases ih s hs with h | h
    · rcases scanStep_cs_cases s h with h' | h'
      · exact Or.inl h'
      · right; omega
    · right; omega

theorem scanStep_blocks_start {fm : Option (Nat × Nat)} {i : Nat} {l : Line}
    {st : ScanState} {a : Nat} (hcs : st.curStart = some a) :
    ∀ sp ∈ (scanStep fm i l st).blocks, sp ∈ st.blocks ∨ sp.1 = a := by
  intro sp hsp
  unfold scanStep at hsp
  split at hsp
  · exact Or.inl hsp
  split at hsp
  · exact Or.inl hsp
  split at hsp
  · exact Or.inl hsp
  split at hsp
  · split at hsp
    · exact Or.inl hsp
    · exact Or.inl hsp
  · by_cases hdtb : dropTrailingBlanks st.curLines = []
    · rw [finalizeBlock_some_nil hcs hdtb] at hsp
      exact Or.inl hsp
    · rw [finalizeBlock_some_emit hcs hdtb] at hsp
      simp only [List.mem_append, List.mem_singleton] at hsp
      rcases hsp with hsp | hsp
      · exact Or.inl hsp
      · right
        rw [hsp]

theorem scanStep_cs_of_some {fm : Option (Nat × Nat)} {i : Nat} {l : Line}
    {st : ScanState} {a : Nat} (hcs : st.curStart = some a) :
    (scanStep fm i l st).curStart = some a ∨
    (scanStep fm i l st).curStart = none := by
  by_cases h1 : fmSkip fm i = true
  · rw [scanStep_fm h1]
    exact Or.inl hcs
  have h1' : fmSkip fm i = false := by simpa using h1
  by_cases h2 : isFence l = true
  · rw [scanStep_fence h1' h2]
    exact Or.inr rfl
  have h2' : isFence l = false := by simpa using h2
  by_cases h3 : st.inFence = true
  · rw [scanStep_inFence h1' h2' h3]
    exact Or.inl hcs
  have h3' : st.inFence = false := by simpa using h3
  by_cases h4 : (isIndentStart l || (blank l && st.curStart.isSome)) = true
  · have hor : isIndentStart l = true ∨ blank l = true := by
      rcases Bool.or_eq_true_iff.mp h4 with h | h
      · exact Or.inl h
      · exact Or.inr (Bool.and_eq_true_iff.mp h).1
    rw [scanStep_extend h1' h2' h3' hcs hor]
    exact Or.inl hcs
  · have h4i : isIndentStart l = false := by
      cases hii : isIndentStart l
      · rfl
      · exact absurd (by simp [hii]) h4
    have h4b : blank l = false ∨ st.curStart = none := by
      cases hbl : blank l
      · exact Or.inl rfl
      · cases hcs2 : st.curStart
        · exact Or.inr rfl
        · exact absurd (by simp [hbl, hcs2]) h4
    rw [scanStep_noQual h1' h2' h3' h4i h4b]
    by_cases hdtb : dropTrailingBlanks st.curLines = []
    · rw [finalizeBlock_some_nil hcs hdtb]
      exact Or.inr rfl
    · rw [finalizeBlock_some_emit hcs hdtb]
      exact Or.inr rfl

theorem scanFrom_future2 {fm : Option (Nat × Nat)} (ys : List Line) :
    ∀ {i : Nat} {st : ScanState} {a : Nat}, st.curStart = some a →
    ∀ sp ∈ (scanFrom fm i ys st).blocks,
      sp ∈ st.blocks ∨ sp.1 = a ∨ i ≤ sp.1 := by
  induction ys with
  | nil => intro i st a _ sp hsp; exact Or.inl hsp
  | cons l ls ih =>
    intro i st a hcs sp hsp
    rw [scanFrom_cons] at hsp
    rcases @scanStep_cs_of_some fm i l _ _ hcs with hstep | hstep
    · rcases ih hstep sp hsp with h | h | h
      · rcases scanStep_blocks_start hcs sp h with h' | h'
        · exact Or.inl h'
        · exact Or.inr (Or.inl h')
      · exact Or.inr (Or.inl h)
      · exact Or.inr (Or.inr (by omega))
    · have hfut := @scanFrom_future fm ls (i + 1) (scanStep fm i l st)
        (by intro s hs; rw [hstep] at hs; exact absurd hs (by simp))
      rcases hfut.2.2 sp hsp with h | h
      · rcases scanStep_blocks_start hcs sp h with h' | h'
        · exact Or.inl h'
        · exact Or.inr (Or.inl h')
      · rw [lowB_none hstep] at h
        exact Or.inr (Or.inr (by omega))

theorem endScan_blocks_start {st : ScanState} :
    ∀ sp ∈ (endScan st).blocks,
      sp ∈ st.blocks ∨ ∃ s, st.curStart = some s ∧ sp.1 = s := by
  unfold endScan
  split
  · cases hcs : st.curStart with
    | none => rw [finalizeBlock_none hcs]; exact fun sp hsp => Or.inl hsp
    | some s =>
      by_cases hdtb : dropTrailingBlanks st.curLines = []
      · rw [finalizeBlock_some_nil hcs hdtb]
        exact fun sp hsp => Or.inl hsp
      · rw [finalizeBlock_some_emit hcs hdtb]
        intro sp hsp
        simp only [List.mem_append, List.mem_singleton] at hsp
        rcases hsp with hsp | hsp
        · exact Or.inl hsp
        · exact Or.inr ⟨s, rfl, by rw [hsp]⟩
  · exact fun sp hsp => Or.inl hsp

/-- Decomposition of the scan at an intermediate index. -/
theorem detect_decomp (content : List Char) (i : Nat)
    (hi : i ≤ (splitNl content).length) :
    detect_indented_code_blocks content
      = (endScan (scanFrom (detect_frontmatter_boundaries content) i
          ((splitNl content).drop i)
          (scanUpTo (detect_frontmatter_boundaries content)
            (splitNl content) i))).blocks := by
  show (endScan (scanFrom _ 0 (splitNl content) initState)).blocks = _
  conv_lhs => rw [← List.take_append_drop i (splitNl content)]
  rw [scanFrom_append, List.length_take, Nat.min_eq_left hi, Nat.zero_add]
  rfl

/-- The blocks emitted so far are a prefix of the final span list. -/
theorem blocks_isPre (content : List Char) (i : Nat)
    (hi : i ≤ (splitNl content).length) :
    ∃ rest, detect_indented_code_blocks content
      = (scanUpTo (detect_frontmatter_boundaries content)
          (splitNl content) i).blocks ++ rest := by
  rw [detect_decomp content i hi]
  obtain ⟨n1, h1⟩ := scanFrom_blocks_mono (detect_frontmatter_boundaries content)
    ((splitNl content).drop i) i
    (scanUpTo (detect_frontmatter_boundaries content) (splitNl content) i)
  obtain ⟨n2, h2⟩ := endScan_blocks_mono
    (scanFrom (detect_frontmatter_boundaries content) i
      ((splitNl content).drop i)
      (scanUpTo (detect_frontmatter_boundaries content) (splitNl content) i))
  exact ⟨n1 ++ n2, by rw [h2, h1, List.append_assoc]⟩

theorem blocks_take (content : List Char) (i : Nat)
    (hi : i ≤ (splitNl content).length) :
    (scanUpTo (detect_frontmatter_boundaries content) (splitNl content) i).blocks
      = (detect_indented_code_blocks content).take
          (scanUpTo (detect_frontmatter_boundaries content)
            (splitNl content) i).blocks.length := by
  obtain ⟨rest, h⟩ := blocks_isPre content i hi
  rw [h, List.take_left]

/-- Future spans from a state with no open accumulator start at or after
the current index. -/
theorem traj_none (content : List Char) (i : Nat)
    (hi : i ≤ (splitNl content).length)
    (hcs : (scanUpTo (detect_frontmatter_boundaries content)
      (splitNl content) i).curStart = none) :
    ∀ sp ∈ detect_indented_code_blocks content,
      sp ∉ (scanUpTo (detect_frontmatter_boundaries content)
        (splitNl content) i).blocks → i ≤ sp.1 := by
  intro sp hsp hnot
  rw [detect_decomp content i hi] at hsp
  rcases endScan_blocks_start sp hsp with hsp' | ⟨s, hs, hstart⟩
  · have hfut := @scanFrom_future (detect_frontmatter_boundaries content)
      ((splitNl content).drop i) i
      (scanUpTo (detect_frontmatter_boundaries content) (splitNl content) i)
      (by intro s hs; rw [hcs] at hs; exact absurd hs (by simp))
    rcases hfut.2.2 sp hsp' with h | h
    · exact absurd h hnot
    · rw [lowB_none hcs] at h
      exact h
  · rcases scanFrom_cs_lb _ s hs with h | h
    · rw [hcs] at h
      exact absurd h (by simp)
    · rw [hstart]
      exact h

/-- Future spans from a state with an open accumulator at `a` either start
at `a` or at or after the current index. -/
theorem traj_some (content : List Char) (i a : Nat)
    (hi : i ≤ (splitNl content).length)
    (hcs : (scanUpTo (detect_frontmatter_boundaries content)
      (splitNl content) i).curStart = some a) :
    ∀ sp ∈ detect_indented_code_blocks content,
      sp ∉ (scanUpTo (detect_frontmatter_boundaries content)
        (splitNl content) i).blocks → sp.1 = a ∨ i ≤ sp.1 := by
  intro sp hsp hnot
  rw [detect_decomp content i hi] at hsp
  rcases endScan_blocks_start sp hsp with hsp' | ⟨s, hs, hstart⟩
  · rcases scanFrom_future2 ((splitNl content).drop i) hcs sp hsp' with h | h | h
    · exact absurd h hnot
    · exact Or.inl h
    · exact Or.inr h
  · rcases scanFrom_cs_lb _ s hs with h | h
    · rw [hcs] at h
      rw [hstart, Option.some.inj h]
      exact Or.inl rfl
    · rw [hstart]
      exact Or.inr h

/-- A span at index `m` of the result is not among the first `k` spans, for
`k` at most `m`. -/
theorem spans_get_not_mem_take (content : List Char) {k m : Nat} {sp : Span}
    (hk : (detect_indented_code_blocks content)[m]? = some sp) (hkm : k ≤ m) :
    sp ∉ (detect_indented_code_blocks content).take k := by
  intro hmem
  have hklen : m < (detect_indented_code_blocks content).length := by
    by_contra hc
    rw [List.getElem?_eq_none (by omega)] at hk
    exact absurd hk (by simp)
  obtain ⟨j, hj, hjl⟩ := List.getElem_of_mem hmem
  have hjlen : j < k := by
    have := hj
    simp only [List.length_take] at this
    omega
  have hq : ((detect_indented_code_blocks content).take k)[j]?
      = (detect_indented_code_blocks content)[j]? := by
    rw [List.getElem?_take, if_pos hjlen]
  rw [List.getElem?_eq_getElem hj,
    List.getElem?_eq_getElem (show j < (detect_indented_code_blocks content).length
      from by omega)] at hq
  have hjl' : (detect_indented_code_blocks content)[j] = sp := by
    rw [← Option.some.inj hq, hjl]
  have hmono := detect_end_start_mono content j m (by omega) hklen (by omega)
  obtain ⟨_, hok⟩ := detect_facts content
  have hsp1 : sp.1 ≤ sp.2.1 := by
    refine (hok sp ?_).1
    exact List.getElem?_mem hk
  rw [List.get_eq_getElem, List.get_eq_getElem, hjl'] at hmono
  rw [List.getElem?_eq_getElem hklen] at hk
  rw [Option.some.inj hk] at hmono
  omega

end MdConv

namespace MdConv

/-! ### Infrastructure for idempotence: positions in the rebuilt output -/

/-- The lines of the converter's output, as an immutable rebuild. -/
def outLines (content : List Char) : List Line :=
  rebuildFrom (splitNl content) 0 (detect_indented_code_blocks content)

theorem outLines_length (content : List Char) :
    (outLines content).length = (splitNl content).length
      + 2 * (detect_indented_code_blocks content).length := by
  rw [outLines, rebuildFrom_length (detect_spansOkFrom content) (Nat.zero_le _)]
  omega

theorem lineAt_of_some {ls : List Line} {q : Nat} {v : Line} (h : ls[q]? = some v) :
    lineAt ls q = v := by
  rw [lineAt, List.getD_eq_getElem?_getD, h]
  rfl

theorem lineAt_seg {lines : List Line} {a b j : Nat} (hj : j < b - a) :
    lineAt (seg lines a b) j = lineAt lines (a + j) := by
  rw [lineAt, lineAt, List.getD_eq_getElem?_getD, List.getD_eq_getElem?_getD,
    seg_getElem? hj]

theorem dtb_append_blanks {ys : List Line} (hys : ∀ l ∈ ys, blank l = true) :
    ∀ xs, dropTrailingBlanks (xs ++ ys) = dropTrailingBlanks xs := by
  induction ys using List.reverseRecOn with
  | nil => intro xs; rw [List.append_nil]
  | append_singleton ys y ih =>
    intro xs
    rw [← List.append_assoc, dtb_concat_blank (hys y (by simp)) (xs ++ ys)]
    exact ih (fun l hl => hys l (by simp [hl])) xs

theorem fmSkip_mono (content : List Char) {x y : Nat} (hxy : x ≤ y)
    (hx : fmSkip (detect_frontmatter_boundaries content) x = false) :
    fmSkip (detect_frontmatter_boundaries content) y = false := by
  cases hfm : detect_frontmatter_boundaries content with
  | none => rfl
  | some p =>
    obtain ⟨p1, p2⟩ := p
    have hz : p1 = 0 := fm_fst_zero content (p1, p2) hfm
    subst hz
    rw [hfm] at hx
    have hx' : decide (0 ≤ x ∧ x ≤ p2) = false := hx
    have hnx := of_decide_eq_false hx'
    show decide (0 ≤ y ∧ y ≤ p2) = false
    refine decide_eq_false ?_
    intro hy
    exact hnx ⟨Nat.zero_le _, by omega⟩

theorem scanUpTo_getStep {fm : Option (Nat × Nat)} {ol : List Line} {q : Nat}
    {v : Line} (hq : ol[q]? = some v) :
    scanUpTo fm ol (q + 1) = scanStep fm q v (scanUpTo fm ol q) := by
  have hlt : q < ol.length := by
    by_contra hc
    rw [List.getElem?_eq_none (by omega)] at hq
    exact absurd hq (by simp)
  rw [scanUpTo_succ hlt, lineAt_of_some hq]

theorem span_get_mem (content : List Char) {j : Nat}
    (hj : j < (detect_indented_code_blocks content).length) :
    (detect_indented_code_blocks content)[j] ∈ detect_indented_code_blocks content :=
  List.getElem_mem hj

theorem detect_mono2 (content : List Char) {p q : Nat}
    (hp : p < (detect_indented_code_blocks content).length)
    (hq : q < (detect_indented_code_blocks content).length) (hpq : p < q) :
    (detect_indented_code_blocks content)[p].2.1
      < (detect_indented_code_blocks content)[q].1 := by
  have := detect_end_start_mono content p q hp hq hpq
  rwa [List.get_eq_getElem, List.get_eq_getElem] at this

theorem span_get_le (content : List Char) {j : Nat}
    (hj : j < (detect_indented_code_blocks content).length) :
    (detect_indented_code_blocks content)[j].1
      ≤ (detect_indented_code_blocks content)[j].2.1 :=
  ((detect_facts content).2 _ (span_get_mem content hj)).1

theorem span_get_ok (content : List Char) {j : Nat}
    (hj : j < (detect_indented_code_blocks content).length) :
    SpanOk (detect_frontmatter_boundaries content) (splitNl content)
      (detect_indented_code_blocks content)[j] :=
  (detect_facts content).2 _ (span_get_mem content hj)

theorem filter_ends_take {α : Type} (p : α → Bool) :
    ∀ (l : List α) (k : Nat), k ≤ l.length →
    (∀ j (hj : j < l.length), j < k → p l[j] = true) →
    (∀ j (hj : j < l.length), k ≤ j → p l[j] = false) →
    l.filter p = l.take k := by
  intro l
  induction l with
  | nil =>
    intro k hk _ _
    simp
  | cons x xs ih =>
    intro k hk h1 h2
    cases k with
    | zero =>
      rw [List.take_zero]
      refine List.filter_eq_nil_iff.mpr ?_
      intro a ha
      obtain ⟨j, hj, hja⟩ := List.getElem_of_mem ha
      rw [← hja]
      simp [h2 j hj (Nat.zero_le _)]
    | succ m =>
      have hx : p x = true := by simpa using h1 0 (by simp) (by omega)
      rw [List.take_succ_cons, List.filter_cons_of_pos hx]
      congr 1
      refine ih m (by simpa using hk) ?_ ?_
      · intro j hj hjm
        have := h1 (j + 1) (by simpa using Nat.succ_lt_succ hj) (by omega)
        simpa using this
      · intro j hj hmj
        have := h2 (j + 1) (by simpa using Nat.succ_lt_succ hj) (by omega)
        simpa using this

/-- A line lying outside every span, with exactly `k` spans ending before it,
is copied verbatim into the output at offset `2 k`. -/
theorem out_verbatim (content : List Char) {i k : Nat}
    (hi : i < (splitNl content).length)
    (hk : k ≤ (detect_indented_code_blocks content).length)
    (h1 : ∀ j (hj : j < (detect_indented_code_blocks content).length),
      j < k → (detect_indented_code_blocks content)[j].2.1 < i)
    (h2 : ∀ j (hj : j < (detect_indented_code_blocks content).length),
      k ≤ j → i < (detect_indented_code_blocks content)[j].1) :
    (outLines content)[i + 2 * k]? = some (lineAt (splitNl content) i) := by
  have hout : ∀ sp ∈ detect_indented_code_blocks content,
      ¬(sp.1 ≤ i ∧ i ≤ sp.2.1) := by
    intro sp hsp hcon
    obtain ⟨j, hj, hjs⟩ := List.getElem_of_mem hsp
    by_cases hjk : j < k
    · have := h1 j hj hjk
      rw [hjs] at this
      omega
    · have := h2 j hj (by omega)
      rw [hjs] at this
      omega
  have hfil : (detect_indented_code_blocks content).filter
      (fun sp => decide (sp.2.1 < i))
        = (detect_indented_code_blocks content).take k := by
    refine filter_ends_take _ _ k hk ?_ ?_
    · intro j hj hjk
      simpa using h1 j hj hjk
    · intro j hj hkj
      have hx := h2 j hj hkj
      have hy := span_get_le content hj
      simp only [decide_eq_false_iff_not]
      omega
  have hpos := rebuildFrom_pos (detect_spansOkFrom content) (Nat.zero_le i) hi hout
  rw [hfil, List.length_take, Nat.min_eq_left hk, Nat.sub_zero] at hpos
  rw [outLines, hpos, List.getElem?_eq_getElem hi]
  rw [lineAt]
  rw [List.getD_eq_getElem _ [] hi]

/-- The spans already emitted by the scanner all end before the current
index. -/
theorem ends_before (content : List Char) {i : Nat}
    (hi : i ≤ (splitNl content).length) :
    ∀ j (hj : j < (detect_indented_code_blocks content).length),
      j < (scanUpTo (detect_frontmatter_boundaries content)
          (splitNl content) i).blocks.length →
      (detect_indented_code_blocks content)[j].2.1 < i := by
  intro j hj hjk
  have hinv := Inv_upTo (fun a b hab => fm_fst_zero content (a, b) hab) i hi
  have htake := blocks_take content i hi
  have hq : ((detect_indented_code_blocks content).take
      (scanUpTo (detect_frontmatter_boundaries content)
        (splitNl content) i).blocks.length)[j]?
      = some (detect_indented_code_blocks content)[j] := by
    rw [List.getElem?_take, if_pos hjk, List.getElem?_eq_getElem hj]
  have hmem := List.getElem?_mem hq
  rw [← htake] at hmem
  exact hinv.blk_lt _ hmem

/-- Spans not yet emitted start at or after the current index when no block
is being accumulated. -/
theorem starts_ge_none (content : List Char) {m : Nat}
    (hm : m ≤ (splitNl content).length)
    (hcs : (scanUpTo (detect_frontmatter_boundaries content)
      (splitNl content) m).curStart = none) :
    ∀ j (hj : j < (detect_indented_code_blocks content).length),
      (scanUpTo (detect_frontmatter_boundaries content)
        (splitNl content) m).blocks.length ≤ j →
      m ≤ (detect_indented_code_blocks content)[j].1 := by
  intro j hj hkj
  have htake := blocks_take content m hm
  have hnm : (detect_indented_code_blocks content)[j]
      ∉ (scanUpTo (detect_frontmatter_boundaries content)
        (splitNl content) m).blocks := by
    rw [htake]
    exact spans_get_not_mem_take content (List.getElem?_eq_getElem hj) hkj
  exact traj_none content m hm hcs _ (span_get_mem content hj) hnm

/-- Spans not yet emitted start at the accumulator start or at or after the
current index when a block is being accumulated. -/
theorem starts_ge_some (content : List Char) {m a : Nat}
    (hm : m ≤ (splitNl content).length)
    (hcs : (scanUpTo (detect_frontmatter_boundaries content)
      (splitNl content) m).curStart = some a) :
    ∀ j (hj : j < (detect_indented_code_blocks content).length),
      (scanUpTo (detect_frontmatter_boundaries content)
        (splitNl content) m).blocks.length ≤ j →
      (detect_indented_code_blocks content)[j].1 = a ∨
        m ≤ (detect_indented_code_blocks content)[j].1 := by
  intro j hj hkj
  have htake := blocks_take content m hm
  have hnm : (detect_indented_code_blocks content)[j]
      ∉ (scanUpTo (detect_frontmatter_boundaries content)
        (splitNl content) m).blocks := by
    rw [htake]
    exact spans_get_not_mem_take content (List.getElem?_eq_getElem hj) hkj
  exact traj_some content m a hm hcs _ (span_get_mem content hj) hnm

theorem take_succ_getElem {α : Type} {l : List α} {k : Nat} (hk : k < l.length) :
    l.take (k + 1) = l.take k ++ [l[k]] := by
  rw [List.take_succ, List.getElem?_eq_getElem hk]
  rfl

end MdConv

namespace MdConv

/-- Positions of the fenced replacement of the `k`-th span inside a rebuild:
the opening fence line, the unindented body lines, and the closing fence
line. -/
theorem rebuildFrom_span_pos {lines : List Line} (hnl : ∀ l ∈ lines, '\n' ∉ l) :
    ∀ {spans : List Span} {off k : Nat} {sp : Span},
    SpansOkFrom lines off spans → spans[k]? = some sp →
    (rebuildFrom lines off spans)[sp.1 - off + 2 * k]? = some fenceMark ∧
    (∀ j, sp.1 ≤ j → j ≤ sp.2.1 →
      (rebuildFrom lines off spans)[j - off + 2 * k + 1]?
        = some (unindentLine (lineAt lines j))) ∧
    (rebuildFrom lines off spans)[sp.2.1 - off + 2 * k + 2]? = some fenceMark := by
  intro spans
  induction spans with
  | nil =>
    intro off k sp _ hk
    exact absurd hk (by simp)
  | cons sp0 rest ih =>
    intro off k sp hok hk
    obtain ⟨h1, h2, h3, h4, h4c, h5⟩ := hok
    have hchunklen : ((lines.drop off).take (sp0.1 - off)).length = sp0.1 - off := by
      simp only [List.length_take, List.length_drop]
      omega
    have hflen : (fencedOf sp0.2.2).length = (sp0.2.1 + 1 - sp0.1) + 2 := by
      rw [fencedOf_length, splitNl_unindent_length, h4]
    have hblen : (splitNl (unindent_code sp0.2.2)).length = sp0.2.1 + 1 - sp0.1 := by
      rw [splitNl_unindent_length, h4]
    have hbody : splitNl (unindent_code sp0.2.2)
        = (seg lines sp0.1 (sp0.2.1 + 1)).map unindentLine := by
      rw [splitNl_unindent, h4c, splitNl_joinNl (seg_ne_nil (by omega) (by omega))
        (fun l hl => hnl l (mem_seg hl))]
    cases k with
    | zero =>
      have hsp : sp0 = sp := by simpa using hk
      subst hsp
      simp only [Nat.mul_zero, Nat.add_zero]
      refine ⟨?_, ?_, ?_⟩
      · rw [rebuildFrom_cons, List.getElem?_append_right hchunklen.le,
          hchunklen, Nat.sub_self,
          List.getElem?_append_left (by rw [hflen]; omega)]
        simp [fencedOf]
      · intro j hj1 hj2
        rw [rebuildFrom_cons, List.getElem?_append_right
            (by rw [hchunklen]; omega),
          hchunklen,
          show j - off + 1 - (sp0.1 - off) = (j - sp0.1) + 1 from by omega,
          List.getElem?_append_left (by rw [hflen]; omega)]
        show (fenceMark :: (splitNl (unindent_code sp0.2.2) ++ [fenceMark]))[(j - sp0.1) + 1]?
          = some (unindentLine (lineAt lines j))
        rw [List.getElem?_cons_succ,
          List.getElem?_append_left (by rw [hblen]; omega),
          hbody, List.getElem?_map, seg_getElem? (by omega),
          show sp0.1 + (j - sp0.1) = j from by omega,
          List.getElem?_eq_getElem (show j < lines.length from by omega)]
        simp only [Option.map_some']
        rw [lineAt, List.getD_eq_getElem _ [] (show j < lines.length from by omega)]
      · rw [rebuildFrom_cons, List.getElem?_append_right
            (by rw [hchunklen]; omega),
          hchunklen,
          show sp0.2.1 - off + 2 - (sp0.1 - off) = (sp0.2.1 - sp0.1 + 1) + 1 from by omega,
          List.getElem?_append_left (by rw [hflen]; omega)]
        show (fenceMark :: (splitNl (unindent_code sp0.2.2) ++ [fenceMark]))[(sp0.2.1 - sp0.1 + 1) + 1]?
          = some fenceMark
        rw [List.getElem?_cons_succ,
          List.getElem?_append_right (by rw [hblen]; omega),
          hblen,
          show sp0.2.1 - sp0.1 + 1 - (sp0.2.1 + 1 - sp0.1) = 0 from by omega]
        rfl
    | succ m =>
      have hk' : rest[m]? = some sp := by simpa using hk
      have hrest := spansOkFrom_mem h5 sp (List.getElem?_mem hk')
      have hsple : sp0.2.1 + 1 ≤ sp.1 := hrest.1
      have hstep : ∀ M : Nat, (sp0.2.1 + 1 - off) + 2 ≤ M →
          (rebuildFrom lines off (sp0 :: rest))[M]?
            = (rebuildFrom lines (sp0.2.1 + 1) rest)[M - ((sp0.2.1 + 1 - off) + 2)]? := by
        intro M hM
        rw [rebuildFrom_cons, List.getElem?_append_right
            (by rw [hchunklen]; omega),
          hchunklen, List.getElem?_append_right (by rw [hflen]; omega),
          hflen]
        congr 1
        omega
      obtain ⟨ihs, ihb, ihe⟩ := ih h5 hk'
      refine ⟨?_, ?_, ?_⟩
      · rw [hstep _ (by omega),
          show sp.1 - off + 2 * (m + 1) - ((sp0.2.1 + 1 - off) + 2)
            = sp.1 - (sp0.2.1 + 1) + 2 * m from by omega]
        exact ihs
      · intro j hj1 hj2
        rw [hstep _ (by omega),
          show j - off + 2 * (m + 1) + 1 - ((sp0.2.1 + 1 - off) + 2)
            = j - (sp0.2.1 + 1) + 2 * m + 1 from by omega]
        exact ihb j hj1 hj2
      · rw [hstep _ (by omega),
          show sp.2.1 - off + 2 * (m + 1) + 2 - ((sp0.2.1 + 1 - off) + 2)
            = sp.2.1 - (sp0.2.1 + 1) + 2 * m + 2 from by omega]
        exact ihe

/-- Specialization of `rebuildFrom_span_pos` to the converter's output. -/
theorem out_span_pos (content : List Char) {k : Nat} {sp : Span}
    (hk : (detect_indented_code_blocks content)[k]? = some sp) :
    (outLines content)[sp.1 + 2 * k]? = some fenceMark ∧
    (∀ j, sp.1 ≤ j → j ≤ sp.2.1 →
      (outLines content)[j + 2 * k + 1]?
        = some (unindentLine (lineAt (splitNl content) j))) ∧
    (outLines content)[sp.2.1 + 2 * k + 2]? = some fenceMark := by
  have h := rebuildFrom_span_pos (fun l hl => not_nl_of_mem_splitNl hl)
    (detect_spansOkFrom content) hk
  simpa only [Nat.sub_zero, outLines] using h

end MdConv

namespace MdConv

theorem getElem?_some_lt {α : Type} {l : List α} {n : Nat} {x : α}
    (h : l[n]? = some x) : n < l.length := by
  by_contra hc
  rw [List.getElem?_eq_none (by omega)] at h
  exact absurd h (by simp)

/-- End-of-document case of `blank_tail`: if the scan finishes with an open
accumulator whose emitted span is already fixed, every accumulated line past
the span's end is blank. -/
theorem blank_tail_eof (content : List Char) {a e : Nat} {c : List Char}
    (hcs : (scanUpTo (detect_frontmatter_boundaries content)
      (splitNl content) (splitNl content).length).curStart = some a)
    (hk : (detect_indented_code_blocks content)[
      (scanUpTo (detect_frontmatter_boundaries content)
        (splitNl content) (splitNl content).length).blocks.length]? = some (a, e, c)) :
    ∀ j, e < j → j < (splitNl content).length →
      blank (lineAt (splitNl content) j) = true := by
  intro j hj1 hj2
  have hinv := Inv_upTo (fun x y hxy => fm_fst_zero content (x, y) hxy)
    (splitNl content).length (le_refl _)
  obtain ⟨hai, hcl, hind, hgood, hends2, hnf⟩ := hinv.cur_some a hcs
  have hdet := detect_eq_scan content
  have hcond : ((scanUpTo (detect_frontmatter_boundaries content)
      (splitNl content) (splitNl content).length).curStart.isSome
      && !(scanUpTo (detect_frontmatter_boundaries content)
        (splitNl content) (splitNl content).length).inFence) = true := by
    rw [hcs, hnf]
    rfl
  rw [endScan, if_pos hcond] at hdet
  by_cases hdtb : dropTrailingBlanks (scanUpTo (detect_frontmatter_boundaries content)
      (splitNl content) (splitNl content).length).curLines = []
  · rw [finalizeBlock_some_nil hcs hdtb] at hdet
    have htake := blocks_take content (splitNl content).length (le_refl _)
    have hlen := congrArg List.length (hdet.trans htake)
    rw [List.length_take] at hlen
    have hSk : (detect_indented_code_blocks content).length
        ≤ (scanUpTo (detect_frontmatter_boundaries content)
          (splitNl content) (splitNl content).length).blocks.length := by
      omega
    rw [List.getElem?_eq_none hSk] at hk
    exact absurd hk (by simp)
  · have hdet2 : detect_indented_code_blocks content
        = (scanUpTo (detect_frontmatter_boundaries content)
            (splitNl content) (splitNl content).length).blocks
          ++ [(a, a + (dropTrailingBlanks (scanUpTo (detect_frontmatter_boundaries content)
                (splitNl content) (splitNl content).length).curLines).length - 1,
              joinNl (dropTrailingBlanks (scanUpTo (detect_frontmatter_boundaries content)
                (splitNl content) (splitNl content).length).curLines))] := by
      rw [hdet, finalizeBlock_some_emit hcs hdtb]
    have htake := blocks_take content (splitNl content).length (le_refl _)
    have hblen : (scanUpTo (detect_frontmatter_boundaries content)
        (splitNl content) (splitNl content).length).blocks.length
        ≤ (detect_indented_code_blocks content).length := by
      have := congrArg List.length htake
      rw [List.length_take] at this
      omega
    have hkv : (detect_indented_code_blocks content)[
        (scanUpTo (detect_frontmatter_boundaries content)
          (splitNl content) (splitNl content).length).blocks.length]?
        = some (a, a + (dropTrailingBlanks (scanUpTo (detect_frontmatter_boundaries content)
              (splitNl content) (splitNl content).length).curLines).length - 1,
            joinNl (dropTrailingBlanks (scanUpTo (detect_frontmatter_boundaries content)
              (splitNl content) (splitNl content).length).curLines)) := by
      rw [hdet2, List.getElem?_append_right (le_refl _), Nat.sub_self]
      rfl
    rw [hk] at hkv
    have he : e = a + (dropTrailingBlanks (scanUpTo (detect_frontmatter_boundaries content)
        (splitNl content) (splitNl content).length).curLines).length - 1 :=
      congrArg (fun p => p.2.1) (Option.some.inj hkv)
    have hLpos : 0 < (dropTrailingBlanks (scanUpTo (detect_frontmatter_boundaries content)
        (splitNl content) (splitNl content).length).curLines).length := by
      rcases Nat.eq_zero_or_pos (dropTrailingBlanks (scanUpTo (detect_frontmatter_boundaries content)
          (splitNl content) (splitNl content).length).curLines).length with h | h
      · exact absurd (List.length_eq_zero.mp h) hdtb
      · exact h
    have hdL := dtb_length_le (scanUpTo (detect_frontmatter_boundaries content)
      (splitNl content) (splitNl content).length).curLines
    rw [hcl] at hdL
    rw [seg_length hai.le (le_refl _)] at hdL
    have hlen2 : j - a < (scanUpTo (detect_frontmatter_boundaries content)
        (splitNl content) (splitNl content).length).curLines.length := by
      rw [hcl, seg_length hai.le (le_refl _)]
      omega
    have hblank := @dtb_dropped ((scanUpTo (detect_frontmatter_boundaries content)
      (splitNl content) (splitNl content).length).curLines) (j - a) (by omega) hlen2
    rw [hcl, lineAt_seg (by omega), show a + (j - a) = j from by omega] at hblank
    exact hblank

end MdConv

namespace MdConv

/-- While a block accumulated from line `a` is destined to be emitted as the
span `(a, e, c)`, every line scanned after index `e` is blank. -/
theorem blank_tail (content : List Char) :
    ∀ (m : Nat) {i a e : Nat} {c : List Char},
      (splitNl content).length ≤ i + m → i ≤ (splitNl content).length →
      (scanUpTo (detect_frontmatter_boundaries content)
        (splitNl content) i).curStart = some a →
      (detect_indented_code_blocks content)[
        (scanUpTo (detect_frontmatter_boundaries content)
          (splitNl content) i).blocks.length]? = some (a, e, c) →
      ∀ j, e < j → j < i → blank (lineAt (splitNl content) j) = true := by
  intro m
  induction m with
  | zero =>
    intro i a e c hm hi hcs hk
    have hin : i = (splitNl content).length := by omega
    subst hin
    exact blank_tail_eof content hcs hk
  | succ m ih =>
    intro i a e c hm hi hcs hk
    by_cases hin : i = (splitNl content).length
    · subst hin
      exact blank_tail_eof content hcs hk
    have hilt : i < (splitNl content).length := by omega
    have hinv := Inv_upTo (fun x y hxy => fm_fst_zero content (x, y) hxy) i hi
    obtain ⟨hai, hcl, hind, hgood, hends2, hnf⟩ := hinv.cur_some a hcs
    have hfmi : fmSkip (detect_frontmatter_boundaries content) i = false :=
      fmSkip_mono content hai.le (hgood a (le_refl a) hai).1
    have hklen := getElem?_some_lt hk
    have hkval : (detect_indented_code_blocks content)[
        (scanUpTo (detect_frontmatter_boundaries content)
          (splitNl content) i).blocks.length] = (a, e, c) := by
      have := hk
      rwa [List.getElem?_eq_getElem hklen, Option.some_inj] at this
    by_cases hfence : isFence (lineAt (splitNl content) i) = true
    · -- a fence here would discard the accumulator, contradicting the
      -- destined span
      have hstep : scanUpTo (detect_frontmatter_boundaries content)
          (splitNl content) (i + 1)
          = { scanUpTo (detect_frontmatter_boundaries content)
                (splitNl content) i with
              inFence := !(scanUpTo (detect_frontmatter_boundaries content)
                (splitNl content) i).inFence,
              curStart := none, curLines := [] } := by
        rw [scanUpTo_succ hilt, scanStep_fence hfmi hfence]
      have hge := @starts_ge_none content (i + 1) (by omega)
        (by rw [hstep]) ((scanUpTo (detect_frontmatter_boundaries content)
          (splitNl content) i).blocks.length) hklen (by rw [hstep])
      rw [hkval] at hge
      omega
    have hfence' : isFence (lineAt (splitNl content) i) = false := by
      simpa using hfence
    by_cases hqual : isIndentStart (lineAt (splitNl content) i) = true
        ∨ blank (lineAt (splitNl content) i) = true
    · -- the line extends the accumulator
      have hstep : scanUpTo (detect_frontmatter_boundaries content)
          (splitNl content) (i + 1)
          = { scanUpTo (detect_frontmatter_boundaries content)
                (splitNl content) i with
              curLines := (scanUpTo (detect_frontmatter_boundaries content)
                (splitNl content) i).curLines ++ [lineAt (splitNl content) i] } := by
        rw [scanUpTo_succ hilt, scanStep_extend hfmi hfence' hnf hcs hqual]
      have hrec := @ih (i + 1) a e c (by omega) (by omega) (by rw [hstep]; exact hcs)
        (by rw [hstep]; exact hk)
      intro j hj1 hj2
      exact hrec j hj1 (by omega)
    · -- the line closes the accumulator; the emitted block is the destined
      -- span, which fixes the trailing blanks
      have hnind : isIndentStart (lineAt (splitNl content) i) = false := by
        rcases Bool.eq_false_or_eq_true (isIndentStart (lineAt (splitNl content) i))
          with h | h
        · exact absurd (Or.inl h) hqual
        · exact h
      have hnbl : blank (lineAt (splitNl content) i) = false := by
        rcases Bool.eq_false_or_eq_true (blank (lineAt (splitNl content) i))
          with h | h
        · exact absurd (Or.inr h) hqual
        · exact h
      have hstep : scanUpTo (detect_frontmatter_boundaries content)
          (splitNl content) (i + 1)
          = finalizeBlock (scanUpTo (detect_frontmatter_boundaries content)
              (splitNl content) i) := by
        rw [scanUpTo_succ hilt, scanStep_noQual hfmi hfence' hnf hnind (Or.inl hnbl)]
      by_cases hdtb : dropTrailingBlanks (scanUpTo (detect_frontmatter_boundaries content)
          (splitNl content) i).curLines = []
      · -- no emission at all would leave the destined span unreachable
        have hge := @starts_ge_none content (i + 1) (by omega)
          (by rw [hstep, finalizeBlock_some_nil hcs hdtb])
          ((scanUpTo (detect_frontmatter_boundaries content)
            (splitNl content) i).blocks.length) hklen
          (by rw [hstep, finalizeBlock_some_nil hcs hdtb])
        rw [hkval] at hge
        omega
      · -- the block emitted here is the destined span, whose end fixes the
        -- length of the trimmed content
        have hstep2 : scanUpTo (detect_frontmatter_boundaries content)
            (splitNl content) (i + 1)
            = { scanUpTo (detect_frontmatter_boundaries content)
                  (splitNl content) i with
                blocks := (scanUpTo (detect_frontmatter_boundaries content)
                    (splitNl content) i).blocks
                  ++ [(a, a + (dropTrailingBlanks (scanUpTo (detect_frontmatter_boundaries content)
                        (splitNl content) i).curLines).length - 1,
                      joinNl (dropTrailingBlanks (scanUpTo (detect_frontmatter_boundaries content)
                        (splitNl content) i).curLines))],
                curStart := none, curLines := [] } := by
          rw [hstep, finalizeBlock_some_emit hcs hdtb]
        have htake2 := blocks_take content (i + 1) (by omega)
        rw [hstep2] at htake2
        have htake3 : (scanUpTo (detect_frontmatter_boundaries content)
              (splitNl content) i).blocks
              ++ [(a, a + (dropTrailingBlanks (scanUpTo (detect_frontmatter_boundaries content)
                    (splitNl content) i).curLines).length - 1,
                  joinNl (dropTrailingBlanks (scanUpTo (detect_frontmatter_boundaries content)
                    (splitNl content) i).curLines))]
            = (detect_indented_code_blocks content).take
                ((scanUpTo (detect_frontmatter_boundaries content)
                    (splitNl content) i).blocks
                  ++ [(a, a + (dropTrailingBlanks (scanUpTo (detect_frontmatter_boundaries content)
                        (splitNl content) i).curLines).length - 1,
                      joinNl (dropTrailingBlanks (scanUpTo (detect_frontmatter_boundaries content)
                        (splitNl content) i).curLines))]).length := htake2
        have hlen2 : ((scanUpTo (detect_frontmatter_boundaries content)
              (splitNl content) i).blocks
              ++ [(a, a + (dropTrailingBlanks (scanUpTo (detect_frontmatter_boundaries content)
                    (splitNl content) i).curLines).length - 1,
                  joinNl (dropTrailingBlanks (scanUpTo (detect_frontmatter_boundaries content)
                    (splitNl content) i).curLines))]).length
            = (scanUpTo (detect_frontmatter_boundaries content)
                (splitNl content) i).blocks.length + 1 := by
          simp
        rw [hlen2] at htake3
        have h0 : ((scanUpTo (detect_frontmatter_boundaries content)
              (splitNl content) i).blocks
              ++ [(a, a + (dropTrailingBlanks (scanUpTo (detect_frontmatter_boundaries content)
                    (splitNl content) i).curLines).length - 1,
                  joinNl (dropTrailingBlanks (scanUpTo (detect_frontmatter_boundaries content)
                    (splitNl content) i).curLines))])[
            (scanUpTo (detect_frontmatter_boundaries content)
              (splitNl content) i).blocks.length]?
            = some (a, a + (dropTrailingBlanks (scanUpTo (detect_frontmatter_boundaries content)
                  (splitNl content) i).curLines).length - 1,
                joinNl (dropTrailingBlanks (scanUpTo (detect_frontmatter_boundaries content)
                  (splitNl content) i).curLines)) := by
          rw [List.getElem?_append_right (le_refl _), Nat.sub_self]
          rfl
        have hkk : (scanUpTo (detect_frontmatter_boundaries content)
            (splitNl content) i).blocks.length
            < (scanUpTo (detect_frontmatter_boundaries content)
              (splitNl content) i).blocks.length + 1 := by omega
        rw [htake3, List.getElem?_take, if_pos hkk] at h0
        have hee := Option.some.inj (hk.symm.trans h0)
        have he : e = a + (dropTrailingBlanks (scanUpTo (detect_frontmatter_boundaries content)
            (splitNl content) i).curLines).length - 1 :=
          congrArg (fun p => p.2.1) hee
        intro j hj1 hj2
        have hLpos : 0 < (dropTrailingBlanks (scanUpTo (detect_frontmatter_boundaries content)
            (splitNl content) i).curLines).length := by
          rcases Nat.eq_zero_or_pos (dropTrailingBlanks (scanUpTo (detect_frontmatter_boundaries content)
              (splitNl content) i).curLines).length with h | h
          · exact absurd (List.length_eq_zero.mp h) hdtb
          · exact h
        have hlen3 : j - a < (scanUpTo (detect_frontmatter_boundaries content)
            (splitNl content) i).curLines.length := by
          rw [hcl, seg_length hai.le hi]
          omega
        have hdL := dtb_length_le (scanUpTo (detect_frontmatter_boundaries content)
          (splitNl content) i).curLines
        rw [hcl, seg_length hai.le hi] at hdL
        have hblank := @dtb_dropped ((scanUpTo (detect_frontmatter_boundaries content)
          (splitNl content) i).curLines) (j - a) (by omega) hlen3
        rw [hcl, lineAt_seg (by omega), show a + (j - a) = j from by omega] at hblank
        exact hblank

end MdConv

namespace MdConv

theorem getElem?_lineAt {ls : List Line} {q : Nat} (h : q < ls.length) :
    ls[q]? = some (lineAt ls q) := by
  rw [List.getElem?_eq_getElem h, lineAt, List.getD_eq_getElem _ [] h]

theorem scan_step_fm {fm : Option (Nat × Nat)} {ol : List Line} {q : Nat}
    {v : Line} {os : ScanState} (hq : ol[q]? = some v)
    (hos : scanUpTo fm ol q = os) (h1 : fmSkip fm q = true) :
    scanUpTo fm ol (q + 1) = os := by
  rw [scanUpTo_getStep hq, hos, scanStep_fm h1]

theorem scan_step_fence {fm : Option (Nat × Nat)} {ol : List Line} {q : Nat}
    {v : Line} {os : ScanState} (hq : ol[q]? = some v)
    (hos : scanUpTo fm ol q = os) (h1 : fmSkip fm q = false)
    (h2 : isFence v = true) :
    scanUpTo fm ol (q + 1) = ⟨os.blocks, none, [], !os.inFence⟩ := by
  rw [scanUpTo_getStep hq, hos, scanStep_fence h1 h2]

theorem scan_step_inFence {fm : Option (Nat × Nat)} {ol : List Line} {q : Nat}
    {v : Line} {os : ScanState} (hq : ol[q]? = some v)
    (hos : scanUpTo fm ol q = os) (h1 : fmSkip fm q = false)
    (h2 : isFence v = false) (h3 : os.inFence = true) :
    scanUpTo fm ol (q + 1) = os := by
  rw [scanUpTo_getStep hq, hos, scanStep_inFence h1 h2 h3]

theorem scan_step_open {fm : Option (Nat × Nat)} {ol : List Line} {q : Nat}
    {v : Line} {os : ScanState} (hq : ol[q]? = some v)
    (hos : scanUpTo fm ol q = os) (h1 : fmSkip fm q = false)
    (h2 : isFence v = false) (h3 : os.inFence = false)
    (h4 : os.curStart = none) (h5 : isIndentStart v = true) :
    scanUpTo fm ol (q + 1) = ⟨os.blocks, some q, [v], os.inFence⟩ := by
  rw [scanUpTo_getStep hq, hos, scanStep_startBlock h1 h2 h3 h4 h5]

theorem scan_step_extend {fm : Option (Nat × Nat)} {ol : List Line} {q : Nat}
    {v : Line} {os : ScanState} {s : Nat} (hq : ol[q]? = some v)
    (hos : scanUpTo fm ol q = os) (h1 : fmSkip fm q = false)
    (h2 : isFence v = false) (h3 : os.inFence = false)
    (h4 : os.curStart = some s)
    (h5 : isIndentStart v = true ∨ blank v = true) :
    scanUpTo fm ol (q + 1)
      = ⟨os.blocks, os.curStart, os.curLines ++ [v], os.inFence⟩ := by
  rw [scanUpTo_getStep hq, hos, scanStep_extend h1 h2 h3 h4 h5]

theorem scan_step_final_none {fm : Option (Nat × Nat)} {ol : List Line} {q : Nat}
    {v : Line} {os : ScanState} (hq : ol[q]? = some v)
    (hos : scanUpTo fm ol q = os) (h1 : fmSkip fm q = false)
    (h2 : isFence v = false) (h3 : os.inFence = false)
    (h4 : os.curStart = none) (h5 : isIndentStart v = false) :
    scanUpTo fm ol (q + 1) = os := by
  rw [scanUpTo_getStep hq, hos, scanStep_noQual h1 h2 h3 h5 (Or.inr h4),
    finalizeBlock_none h4]

theorem scan_step_final_nil {fm : Option (Nat × Nat)} {ol : List Line} {q : Nat}
    {v : Line} {os : ScanState} {s : Nat} (hq : ol[q]? = some v)
    (hos : scanUpTo fm ol q = os) (h1 : fmSkip fm q = false)
    (h2 : isFence v = false) (h3 : os.inFence = false)
    (h4 : os.curStart = some s) (h5 : isIndentStart v = false)
    (h6 : blank v = false) (h7 : dropTrailingBlanks os.curLines = []) :
    scanUpTo fm ol (q + 1) = ⟨os.blocks, none, [], os.inFence⟩ := by
  rw [scanUpTo_getStep hq, hos, scanStep_noQual h1 h2 h3 h5 (Or.inl h6),
    finalizeBlock_some_nil h4 h7]

theorem scan_step_final_emit {fm : Option (Nat × Nat)} {ol : List Line} {q : Nat}
    {v : Line} {os : ScanState} {s : Nat} (hq : ol[q]? = some v)
    (hos : scanUpTo fm ol q = os) (h1 : fmSkip fm q = false)
    (h2 : isFence v = false) (h3 : os.inFence = false)
    (h4 : os.curStart = some s) (h5 : isIndentStart v = false)
    (h6 : blank v = false) (h7 : dropTrailingBlanks os.curLines ≠ []) :
    scanUpTo fm ol (q + 1)
      = ⟨os.blocks ++ [(s, s + (dropTrailingBlanks os.curLines).length - 1,
            joinNl (dropTrailingBlanks os.curLines))], none, [], os.inFence⟩ := by
  rw [scanUpTo_getStep hq, hos, scanStep_noQual h1 h2 h3 h5 (Or.inl h6),
    finalizeBlock_some_emit h4 h7]

end MdConv

namespace MdConv

/-- Lockstep simulation invariant between the scan of the input document and
the scan of the converter's output, stated just before input line `i` is
examined.  The four disjuncts are: synchronized outside any block; inside
the fenced replacement of the block being accumulated; past the end of the
span being accumulated (trailing blanks); and accumulating a block that will
never be emitted. -/
def SimInv (content : List Char) (i : Nat) : Prop :=
  ((scanUpTo (detect_frontmatter_boundaries content)
      (splitNl content) i).curStart = none ∧
    scanUpTo (detect_frontmatter_boundaries content) (outLines content)
        (i + 2 * (scanUpTo (detect_frontmatter_boundaries content)
          (splitNl content) i).blocks.length)
      = ⟨[], none, [],
          (scanUpTo (detect_frontmatter_boundaries content)
            (splitNl content) i).inFence⟩)
  ∨ (∃ a e c, (scanUpTo (detect_frontmatter_boundaries content)
        (splitNl content) i).curStart = some a ∧
      (detect_indented_code_blocks content)[
        (scanUpTo (detect_frontmatter_boundaries content)
          (splitNl content) i).blocks.length]? = some (a, e, c) ∧
      i ≤ e + 1 ∧
      scanUpTo (detect_frontmatter_boundaries content) (outLines content)
          (i + 2 * (scanUpTo (detect_frontmatter_boundaries content)
            (splitNl content) i).blocks.length + 1)
        = ⟨[], none, [], true⟩)
  ∨ (∃ a e c, (scanUpTo (detect_frontmatter_boundaries content)
        (splitNl content) i).curStart = some a ∧
      (detect_indented_code_blocks content)[
        (scanUpTo (detect_frontmatter_boundaries content)
          (splitNl content) i).blocks.length]? = some (a, e, c) ∧
      e + 1 < i ∧
      (scanUpTo (detect_frontmatter_boundaries content) (outLines content)
          (i + 2 * (scanUpTo (detect_frontmatter_boundaries content)
            (splitNl content) i).blocks.length + 2)
        = ⟨[], none, [], false⟩ ∨
       ∃ t, e < t ∧ t < i ∧
         scanUpTo (detect_frontmatter_boundaries content) (outLines content)
             (i + 2 * (scanUpTo (detect_frontmatter_boundaries content)
               (splitNl content) i).blocks.length + 2)
           = ⟨[], some (t + 2 * (scanUpTo (detect_frontmatter_boundaries content)
                 (splitNl content) i).blocks.length + 2),
               seg (splitNl content) t i, false⟩))
  ∨ (∃ a, (scanUpTo (detect_frontmatter_boundaries content)
        (splitNl content) i).curStart = some a ∧
      (∀ sp : Span, (detect_indented_code_blocks content)[
          (scanUpTo (detect_frontmatter_boundaries content)
            (splitNl content) i).blocks.length]? = some sp → sp.1 ≠ a) ∧
      scanUpTo (detect_frontmatter_boundaries content) (outLines content)
          (i + 2 * (scanUpTo (detect_frontmatter_boundaries content)
            (splitNl content) i).blocks.length)
        = ⟨[], some (a + 2 * (scanUpTo (detect_frontmatter_boundaries content)
              (splitNl content) i).blocks.length),
            (scanUpTo (detect_frontmatter_boundaries content)
              (splitNl content) i).curLines, false⟩)

theorem simInv_zero (content : List Char) : SimInv content 0 := by
  unfold SimInv
  left
  exact ⟨rfl, rfl⟩

theorem arith_shift1 (i : Nat) : ∀ x : Nat, i + 1 + 2 * x = i + 2 * x + 1 :=
  fun x => by omega

theorem arith_shift2 (i : Nat) : ∀ x : Nat, i + 1 + 2 * x + 1 = i + 2 * x + 2 :=
  fun x => by omega

theorem arith_shift3 (i : Nat) : ∀ x : Nat, i + 1 + 2 * x + 2 = i + 2 * x + 3 :=
  fun x => by omega

end MdConv

namespace MdConv

/-- Opening an accumulator on a line that is not the start of any remaining
span enters the doomed phase of the simulation. -/
theorem step_sync_open_doomed (content : List Char) (i : Nat)
    (hi : i < (splitNl content).length)
    (hcs : (scanUpTo (detect_frontmatter_boundaries content)
      (splitNl content) i).curStart = none)
    (hout : scanUpTo (detect_frontmatter_boundaries content) (outLines content)
        (i + 2 * (scanUpTo (detect_frontmatter_boundaries content)
          (splitNl content) i).blocks.length)
      = ⟨[], none, [], false⟩)
    (hfmi' : fmSkip (detect_frontmatter_boundaries content) i = false)
    (hfence' : isFence (lineAt (splitNl content) i) = false)
    (hifc' : (scanUpTo (detect_frontmatter_boundaries content)
      (splitNl content) i).inFence = false)
    (h4 : isIndentStart (lineAt (splitNl content) i) = true)
    (hdoomi : ∀ j (hj : j < (detect_indented_code_blocks content).length),
      (scanUpTo (detect_frontmatter_boundaries content)
        (splitNl content) i).blocks.length ≤ j →
      (detect_indented_code_blocks content)[j].1 ≠ i) :
    SimInv content (i + 1) := by
  have hkleS : (scanUpTo (detect_frontmatter_boundaries content)
      (splitNl content) i).blocks.length
      ≤ (detect_indented_code_blocks content).length := by
    have h := congrArg List.length (blocks_take content i (Nat.le_of_lt hi))
    rw [List.length_take] at h
    omega
  have hlq := getElem?_lineAt hi
  have h2 : ∀ j (hj : j < (detect_indented_code_blocks content).length),
      (scanUpTo (detect_frontmatter_boundaries content)
        (splitNl content) i).blocks.length ≤ j →
      i < (detect_indented_code_blocks content)[j].1 := by
    intro j hj hkj
    have hge := starts_ge_none content (Nat.le_of_lt hi) hcs j hj hkj
    have hne := hdoomi j hj hkj
    omega
  have hq := out_verbatim content hi hkleS
    (ends_before content (Nat.le_of_lt hi)) h2
  have hstep := scan_step_open hlq rfl hfmi' hfence' hifc' hcs h4
  have hfmq : fmSkip (detect_frontmatter_boundaries content)
      (i + 2 * (scanUpTo (detect_frontmatter_boundaries content)
        (splitNl content) i).blocks.length) = false :=
    fmSkip_mono content (by omega) hfmi'
  have hostep := scan_step_open hq hout hfmq hfence' rfl rfl h4
  unfold SimInv
  right; right; right
  refine ⟨i, ?_, ?_, ?_⟩
  · rw [hstep]
  · intro sp hsp
    rw [hstep] at hsp
    have hsp' : (detect_indented_code_blocks content)[
        (scanUpTo (detect_frontmatter_boundaries content)
          (splitNl content) i).blocks.length]? = some sp := hsp
    have hj := getElem?_some_lt hsp'
    have hval : (detect_indented_code_blocks content)[
        (scanUpTo (detect_frontmatter_boundaries content)
          (splitNl content) i).blocks.length] = sp := by
      have h := hsp'
      rwa [List.getElem?_eq_getElem hj, Option.some_inj] at h
    have hne := hdoomi _ hj (le_refl _)
    rw [hval] at hne
    exact hne
  · have hkk : (scanUpTo (detect_frontmatter_boundaries content)
        (splitNl content) (i + 1)).blocks.length
        = (scanUpTo (detect_frontmatter_boundaries content)
          (splitNl content) i).blocks.length := by
      rw [hstep]
    have hcl2 : (scanUpTo (detect_frontmatter_boundaries content)
        (splitNl content) (i + 1)).curLines = [lineAt (splitNl content) i] := by
      rw [hstep]
    rw [hkk, hcl2, arith_shift1 i]
    exact hostep

end MdConv

namespace MdConv

/-- Simulation step out of the synchronized phase. -/
theorem step_sync (content : List Char) (i : Nat)
    (hi : i < (splitNl content).length)
    (hcs : (scanUpTo (detect_frontmatter_boundaries content)
      (splitNl content) i).curStart = none)
    (hout : scanUpTo (detect_frontmatter_boundaries content) (outLines content)
        (i + 2 * (scanUpTo (detect_frontmatter_boundaries content)
          (splitNl content) i).blocks.length)
      = ⟨[], none, [],
          (scanUpTo (detect_frontmatter_boundaries content)
            (splitNl content) i).inFence⟩) :
    SimInv content (i + 1) := by
  have hfm0 : ∀ x y, detect_frontmatter_boundaries content = some (x, y) → x = 0 :=
    fun x y hxy => fm_fst_zero content (x, y) hxy
  have hinv := @Inv_upTo (detect_frontmatter_boundaries content) (splitNl content)
    hfm0 i (Nat.le_of_lt hi)
  have hkleS : (scanUpTo (detect_frontmatter_boundaries content)
      (splitNl content) i).blocks.length
      ≤ (detect_indented_code_blocks content).length := by
    have h := congrArg List.length (blocks_take content i (Nat.le_of_lt hi))
    rw [List.length_take] at h
    omega
  have hlq := getElem?_lineAt hi
  by_cases hfmi : fmSkip (detect_frontmatter_boundaries content) i = true
  · -- frontmatter line: every span starts strictly later and no block has
    -- been emitted yet
    have hstart_gt : ∀ j (hj : j < (detect_indented_code_blocks content).length),
        i < (detect_indented_code_blocks content)[j].1 := by
      intro j hj
      have hok := span_get_ok content hj
      have hgood := hok.2.2.2.2.2 (detect_indented_code_blocks content)[j].1
        (le_refl _) hok.1
      cases hfm : detect_frontmatter_boundaries content with
      | none =>
        rw [hfm] at hfmi
        exact absurd hfmi (by simp [fmSkip])
      | some p =>
        obtain ⟨p1, p2⟩ := p
        have hz : p1 = 0 := hfm0 p1 p2 hfm
        subst hz
        rw [hfm] at hfmi
        have hib : 0 ≤ i ∧ i ≤ p2 := of_decide_eq_true hfmi
        have hb := hgood.1
        rw [hfm] at hb
        have hb2 : ¬(0 ≤ (detect_indented_code_blocks content)[j].1
            ∧ (detect_indented_code_blocks content)[j].1 ≤ p2) :=
          of_decide_eq_false hb
        push_neg at hb2
        have hb3 := hb2 (Nat.zero_le _)
        omega
    have hk0 : (scanUpTo (detect_frontmatter_boundaries content)
        (splitNl content) i).blocks.length = 0 := by
      by_contra hk0
      have h0S : 0 < (detect_indented_code_blocks content).length := by omega
      have hend := ends_before content (Nat.le_of_lt hi) 0 h0S (by omega)
      have hgt := hstart_gt 0 h0S
      have hse := span_get_le content h0S
      omega
    have hstep := scan_step_fm hlq rfl hfmi
    rw [hk0] at hout
    have hq : (outLines content)[i + 2 * 0]? = some (lineAt (splitNl content) i) :=
      out_verbatim content hi (Nat.zero_le _)
        (fun j hj hj0 => absurd hj0 (by omega))
        (fun j hj _ => hstart_gt j hj)
    have hfmq : fmSkip (detect_frontmatter_boundaries content) (i + 2 * 0) = true :=
      hfmi
    have hostep := scan_step_fm hq hout hfmq
    unfold SimInv
    left
    refine ⟨?_, ?_⟩
    · rw [hstep]
      exact hcs
    · have hkk : (scanUpTo (detect_frontmatter_boundaries content)
          (splitNl content) (i + 1)).blocks.length = 0 := by
        rw [hstep]
        exact hk0
      rw [hkk, hstep, arith_shift1 i]
      exact hostep
  · have hfmi' : fmSkip (detect_frontmatter_boundaries content) i = false := by
      simpa using hfmi
    have hfmq : fmSkip (detect_frontmatter_boundaries content)
        (i + 2 * (scanUpTo (detect_frontmatter_boundaries content)
          (splitNl content) i).blocks.length) = false :=
      fmSkip_mono content (by omega) hfmi'
    by_cases hfence : isFence (lineAt (splitNl content) i) = true
    · -- fence line: both scans toggle the fence state
      have h2 : ∀ j (hj : j < (detect_indented_code_blocks content).length),
          (scanUpTo (detect_frontmatter_boundaries content)
            (splitNl content) i).blocks.length ≤ j →
          i < (detect_indented_code_blocks content)[j].1 := by
        intro j hj hkj
        have hge := starts_ge_none content (Nat.le_of_lt hi) hcs j hj hkj
        rcases Nat.lt_or_ge i (detect_indented_code_blocks content)[j].1 with h | h
        · exact h
        · have heq : (detect_indented_code_blocks content)[j].1 = i := by omega
          have hok := span_get_ok content hj
          have hgood := hok.2.2.2.2.2 (detect_indented_code_blocks content)[j].1
            (le_refl _) hok.1
          rw [heq] at hgood
          have hcontra := hgood.2.2.1
          rw [hfence] at hcontra
          exact absurd hcontra (by simp)
      have hq := out_verbatim content hi hkleS
        (ends_before content (Nat.le_of_lt hi)) h2
      have hstep := scan_step_fence hlq rfl hfmi' hfence
      have hostep := scan_step_fence hq hout hfmq hfence
      unfold SimInv
      left
      have hkk : (scanUpTo (detect_frontmatter_boundaries content)
          (splitNl content) (i + 1)).blocks.length
          = (scanUpTo (detect_frontmatter_boundaries content)
            (splitNl content) i).blocks.length := by
        rw [hstep]
      refine ⟨?_, ?_⟩
      · rw [hstep]
      · rw [hkk, hstep, arith_shift1 i]
        exact hostep
    · have hfence' : isFence (lineAt (splitNl content) i) = false := by
        simpa using hfence
      by_cases hifc : (scanUpTo (detect_frontmatter_boundaries content)
          (splitNl content) i).inFence = true
      · -- inside a pre-existing fenced block: both scans skip the line
        have h2 : ∀ j (hj : j < (detect_indented_code_blocks content).length),
            (scanUpTo (detect_frontmatter_boundaries content)
              (splitNl content) i).blocks.length ≤ j →
            i < (detect_indented_code_blocks content)[j].1 := by
          intro j hj hkj
          have hge := starts_ge_none content (Nat.le_of_lt hi) hcs j hj hkj
          rcases Nat.lt_or_ge i (detect_indented_code_blocks content)[j].1 with h | h
          · exact h
          · have heq : (detect_indented_code_blocks content)[j].1 = i := by omega
            have hok := span_get_ok content hj
            have hgood := hok.2.2.2.2.2 (detect_indented_code_blocks content)[j].1
              (le_refl _) hok.1
            rw [heq] at hgood
            have hfe := hinv.fence_eq
            rw [hgood.2.1] at hfe
            rw [hifc] at hfe
            exact absurd hfe (by simp)
        have hq := out_verbatim content hi hkleS
          (ends_before content (Nat.le_of_lt hi)) h2
        have hstep := scan_step_inFence hlq rfl hfmi' hfence' hifc
        rw [hifc] at hout
        have hostep := scan_step_inFence hq hout hfmq hfence' rfl
        unfold SimInv
        left
        have hkk : (scanUpTo (detect_frontmatter_boundaries content)
            (splitNl content) (i + 1)).blocks.length
            = (scanUpTo (detect_frontmatter_boundaries content)
              (splitNl content) i).blocks.length := by
          rw [hstep]
        refine ⟨?_, ?_⟩
        · rw [hstep]
          exact hcs
        · rw [hkk, hstep, hifc, arith_shift1 i]
          exact hostep
      · have hifc' : (scanUpTo (detect_frontmatter_boundaries content)
            (splitNl content) i).inFence = false := by
          simpa using hifc
        rw [hifc'] at hout
        by_cases h4 : isIndentStart (lineAt (splitNl content) i) = true
        · -- the line opens an accumulator
          rcases hksp : (detect_indented_code_blocks content)[
              (scanUpTo (detect_frontmatter_boundaries content)
                (splitNl content) i).blocks.length]? with _ | sp
          · -- no remaining span: the accumulator is doomed
            refine step_sync_open_doomed content i hi hcs hout hfmi' hfence'
              hifc' h4 ?_
            intro j hj hkj
            have hSle : (detect_indented_code_blocks content).length
                ≤ (scanUpTo (detect_frontmatter_boundaries content)
                  (splitNl content) i).blocks.length := by
              by_contra hc
              rw [List.getElem?_eq_getElem (by omega)] at hksp
              exact absurd hksp (by simp)
            omega
          · obtain ⟨a', e, c⟩ := sp
            by_cases hspi : a' = i
            · -- the accumulator starts the next span: enter the fenced phase
              rw [hspi] at hksp
              have hj := getElem?_some_lt hksp
              have hval : (detect_indented_code_blocks content)[
                  (scanUpTo (detect_frontmatter_boundaries content)
                    (splitNl content) i).blocks.length] = (i, e, c) := by
                have h := hksp
                rwa [List.getElem?_eq_getElem hj, Option.some_inj] at h
              have hok := span_get_ok content hj
              rw [hval] at hok
              have hie : i ≤ e := hok.1
              have hstep := scan_step_open hlq rfl hfmi' hfence' hifc' hcs h4
              have hq1 : (outLines content)[i + 2 * (scanUpTo
                  (detect_frontmatter_boundaries content)
                  (splitNl content) i).blocks.length]? = some fenceMark :=
                (out_span_pos content hksp).1
              have hostep1 : scanUpTo (detect_frontmatter_boundaries content)
                  (outLines content)
                  (i + 2 * (scanUpTo (detect_frontmatter_boundaries content)
                    (splitNl content) i).blocks.length + 1)
                  = ⟨[], none, [], true⟩ :=
                scan_step_fence hq1 hout hfmq (by decide)
              have hq2 : (outLines content)[i + 2 * (scanUpTo
                  (detect_frontmatter_boundaries content)
                  (splitNl content) i).blocks.length + 1]?
                  = some (unindentLine (lineAt (splitNl content) i)) :=
                (out_span_pos content hksp).2.1 i (Nat.le_refl i) hie
              have hfmq2 : fmSkip (detect_frontmatter_boundaries content)
                  (i + 2 * (scanUpTo (detect_frontmatter_boundaries content)
                    (splitNl content) i).blocks.length + 1) = false :=
                fmSkip_mono content (by omega) hfmi'
              have hfence2 : isFence (unindentLine (lineAt (splitNl content) i))
                  = false := by
                rw [isFence_unindentLine]
                exact hfence'
              have hostep2 := scan_step_inFence hq2 hostep1 hfmq2 hfence2 rfl
              unfold SimInv
              right; left
              have hkk : (scanUpTo (detect_frontmatter_boundaries content)
                  (splitNl content) (i + 1)).blocks.length
                  = (scanUpTo (detect_frontmatter_boundaries content)
                    (splitNl content) i).blocks.length := by
                rw [hstep]
              refine ⟨i, e, c, ?_, ?_, ?_, ?_⟩
              · rw [hstep]
              · rw [hkk]
                exact hksp
              · omega
              · rw [hkk, arith_shift2 i]
                exact hostep2
            · -- the accumulator cannot match the next span: doomed
              refine step_sync_open_doomed content i hi hcs hout hfmi' hfence'
                hifc' h4 ?_
              intro j hj hkj
              rcases Nat.eq_or_lt_of_le hkj with hkeq | hklt
              · have hval : (detect_indented_code_blocks content)[j] = (a', e, c) := by
                  have h := hksp
                  rw [hkeq] at h
                  rwa [List.getElem?_eq_getElem hj, Option.some_inj] at h
                rw [hval]
                exact hspi
              · have hjlen := getElem?_some_lt hksp
                have hmono := detect_mono2 content hjlen hj hklt
                have hgelen := starts_ge_none content (Nat.le_of_lt hi) hcs _
                  hjlen (le_refl _)
                have hle := span_get_le content hjlen
                intro hcon
                omega
        · -- the line does not qualify: the no-op finalize on both sides
          have h4' : isIndentStart (lineAt (splitNl content) i) = false := by
            simpa using h4
          have h2 : ∀ j (hj : j < (detect_indented_code_blocks content).length),
              (scanUpTo (detect_frontmatter_boundaries content)
                (splitNl content) i).blocks.length ≤ j →
              i < (detect_indented_code_blocks content)[j].1 := by
            intro j hj hkj
            have hge := starts_ge_none content (Nat.le_of_lt hi) hcs j hj hkj
            rcases Nat.lt_or_ge i (detect_indented_code_blocks content)[j].1 with h | h
            · exact h
            · have heq : (detect_indented_code_blocks content)[j].1 = i := by omega
              have hok := span_get_ok content hj
              have hind := hok.2.2.2.1
              rw [heq] at hind
              rw [h4'] at hind
              exact absurd hind (by simp)
          have hq := out_verbatim content hi hkleS
            (ends_before content (Nat.le_of_lt hi)) h2
          have hstep := scan_step_final_none hlq rfl hfmi' hfence' hifc' hcs h4'
          have hostep := scan_step_final_none hq hout hfmq hfence' rfl rfl h4'
          unfold SimInv
          left
          have hkk : (scanUpTo (detect_frontmatter_boundaries content)
              (splitNl content) (i + 1)).blocks.length
              = (scanUpTo (detect_frontmatter_boundaries content)
                (splitNl content) i).blocks.length := by
            rw [hstep]
          refine ⟨?_, ?_⟩
          · rw [hstep]
            exact hcs
          · rw [hkk, hstep, hifc', arith_shift1 i]
            exact hostep

end MdConv

namespace MdConv

/-- Simulation step out of the accumulating (fenced-replacement) phase. -/
theorem step_acc (content : List Char) (i a e : Nat) (c : List Char)
    (hi : i < (splitNl content).length)
    (hcs : (scanUpTo (detect_frontmatter_boundaries content)
      (splitNl content) i).curStart = some a)
    (hk : (detect_indented_code_blocks content)[
      (scanUpTo (detect_frontmatter_boundaries content)
        (splitNl content) i).blocks.length]? = some (a, e, c))
    (hie : i ≤ e + 1)
    (hout : scanUpTo (detect_frontmatter_boundaries content) (outLines content)
        (i + 2 * (scanUpTo (detect_frontmatter_boundaries content)
          (splitNl content) i).blocks.length + 1)
      = ⟨[], none, [], true⟩) :
    SimInv content (i + 1) := by
  have hfm0 : ∀ x y, detect_frontmatter_boundaries content = some (x, y) → x = 0 :=
    fun x y hxy => fm_fst_zero content (x, y) hxy
  have hinv := @Inv_upTo (detect_frontmatter_boundaries content) (splitNl content)
    hfm0 i (Nat.le_of_lt hi)
  have hlq := getElem?_lineAt hi
  obtain ⟨hai, hcl, hind, hgood, hends2, hnf⟩ := hinv.cur_some a hcs
  have hfmi' : fmSkip (detect_frontmatter_boundaries content) i = false :=
    fmSkip_mono content hai.le (hgood a (le_refl a) hai).1
  have hklen := getElem?_some_lt hk
  have hval : (detect_indented_code_blocks content)[
      (scanUpTo (detect_frontmatter_boundaries content)
        (splitNl content) i).blocks.length] = (a, e, c) := by
    have h := hk
    rwa [List.getElem?_eq_getElem hklen, Option.some_inj] at h
  have hok := span_get_ok content hklen
  rw [hval] at hok
  have hae : a ≤ e := hok.1
  have heS : e < (splitNl content).length := hok.2.1
  have hcontent : c = joinNl (seg (splitNl content) a (e + 1)) := hok.2.2.1
  have hnbe : blank (lineAt (splitNl content) e) = false := hok.2.2.2.2.1
  have hgoods : ∀ j, a ≤ j → j ≤ e →
      GoodLine (detect_frontmatter_boundaries content) (splitNl content) j :=
    hok.2.2.2.2.2
  by_cases hie2 : i ≤ e
  · -- interior of the span: input extends, output skips the body line
    have hgoodi := hgoods i hai.le hie2
    have hstep := scan_step_extend hlq rfl hfmi' hgoodi.2.2.1 hnf hcs hgoodi.2.2.2
    have hq2 : (outLines content)[i + 2 * (scanUpTo
        (detect_frontmatter_boundaries content)
        (splitNl content) i).blocks.length + 1]?
        = some (unindentLine (lineAt (splitNl content) i)) :=
      (out_span_pos content hk).2.1 i hai.le hie2
    have hfmq2 : fmSkip (detect_frontmatter_boundaries content)
        (i + 2 * (scanUpTo (detect_frontmatter_boundaries content)
          (splitNl content) i).blocks.length + 1) = false :=
      fmSkip_mono content (by omega) hfmi'
    have hfence2 : isFence (unindentLine (lineAt (splitNl content) i)) = false := by
      rw [isFence_unindentLine]
      exact hgoodi.2.2.1
    have hostep := scan_step_inFence hq2 hout hfmq2 hfence2 rfl
    unfold SimInv
    right; left
    have hkk : (scanUpTo (detect_frontmatter_boundaries content)
        (splitNl content) (i + 1)).blocks.length
        = (scanUpTo (detect_frontmatter_boundaries content)
          (splitNl content) i).blocks.length := by
      rw [hstep]
    refine ⟨a, e, c, ?_, ?_, ?_, ?_⟩
    · rw [hstep]
      exact hcs
    · rw [hkk]
      exact hk
    · omega
    · rw [hkk, arith_shift2 i]
      exact hostep
  · -- the line just past the span's end
    have hie3 : i = e + 1 := by omega
    have hfmqA : fmSkip (detect_frontmatter_boundaries content)
        (i + 2 * (scanUpTo (detect_frontmatter_boundaries content)
          (splitNl content) i).blocks.length + 1) = false :=
      fmSkip_mono content (by omega) hfmi'
    have hfmqB : fmSkip (detect_frontmatter_boundaries content)
        (i + 2 * (scanUpTo (detect_frontmatter_boundaries content)
          (splitNl content) i).blocks.length + 2) = false :=
      fmSkip_mono content (by omega) hfmi'
    have hqc : (outLines content)[i + 2 * (scanUpTo
        (detect_frontmatter_boundaries content)
        (splitNl content) i).blocks.length + 1]? = some fenceMark := by
      rw [show i + 2 * (scanUpTo (detect_frontmatter_boundaries content)
          (splitNl content) i).blocks.length + 1
        = e + 2 * (scanUpTo (detect_frontmatter_boundaries content)
          (splitNl content) i).blocks.length + 2 from by omega]
      exact (out_span_pos content hk).2.2
    have hostepA : scanUpTo (detect_frontmatter_boundaries content)
        (outLines content)
        (i + 2 * (scanUpTo (detect_frontmatter_boundaries content)
          (splitNl content) i).blocks.length + 2)
        = ⟨[], none, [], false⟩ :=
      scan_step_fence hqc hout hfmqA (by decide)
    by_cases hfence2 : isFence (lineAt (splitNl content) i) = true
    · -- a fence here would discard the accumulator and lose the span
      have hstep := scan_step_fence hlq rfl hfmi' hfence2
      have hge := @starts_ge_none content (i + 1) (by omega) (by rw [hstep]) _
        hklen (by rw [hstep])
      rw [hval] at hge
      have hge2 : i + 1 ≤ a := hge
      exact absurd hge2 (by omega)
    have hfenceF : isFence (lineAt (splitNl content) i) = false := by
      simpa using hfence2
    by_cases hqual : isIndentStart (lineAt (splitNl content) i) = true
        ∨ blank (lineAt (splitNl content) i) = true
    · -- a qualifying line: the input keeps accumulating trailing lines
      have hstep := scan_step_extend hlq rfl hfmi' hfenceF hnf hcs hqual
      have hkk : (scanUpTo (detect_frontmatter_boundaries content)
          (splitNl content) (i + 1)).blocks.length
          = (scanUpTo (detect_frontmatter_boundaries content)
            (splitNl content) i).blocks.length := by
        rw [hstep]
      have h1 : ∀ j (hj : j < (detect_indented_code_blocks content).length),
          j < (scanUpTo (detect_frontmatter_boundaries content)
            (splitNl content) i).blocks.length + 1 →
          (detect_indented_code_blocks content)[j].2.1 < i := by
        intro j hj hjk
        rcases Nat.lt_or_ge j ((scanUpTo (detect_frontmatter_boundaries content)
            (splitNl content) i).blocks.length) with h | h
        · exact ends_before content (Nat.le_of_lt hi) j hj h
        · have hkq : (detect_indented_code_blocks content)[j]? = some (a, e, c) := by
            rw [show j = (scanUpTo (detect_frontmatter_boundaries content)
              (splitNl content) i).blocks.length from by omega]
            exact hk
          have hvj : (detect_indented_code_blocks content)[j] = (a, e, c) := by
            rwa [List.getElem?_eq_getElem hj, Option.some_inj] at hkq
          rw [hvj]
          show e < i
          omega
      have h2 : ∀ j (hj : j < (detect_indented_code_blocks content).length),
          (scanUpTo (detect_frontmatter_boundaries content)
            (splitNl content) i).blocks.length + 1 ≤ j →
          i < (detect_indented_code_blocks content)[j].1 := by
        intro j hj hkj
        have hsome := @starts_ge_some content (i + 1) a (by omega)
          (by rw [hstep]; exact hcs) j hj
          (by rw [hstep]; exact Nat.le_of_succ_le hkj)
        have hmono := detect_mono2 content hklen hj (by omega)
        rw [hval] at hmono
        have hmono2 : e < (detect_indented_code_blocks content)[j].1 := hmono
        rcases hsome with h | h
        · omega
        · omega
      have hq := out_verbatim content hi hklen h1 h2
      have hq' : (outLines content)[i + 2 * (scanUpTo
          (detect_frontmatter_boundaries content)
          (splitNl content) i).blocks.length + 2]?
          = some (lineAt (splitNl content) i) := by
        rw [show i + 2 * (scanUpTo (detect_frontmatter_boundaries content)
            (splitNl content) i).blocks.length + 2
          = i + 2 * ((scanUpTo (detect_frontmatter_boundaries content)
            (splitNl content) i).blocks.length + 1) from by omega]
        exact hq
      have hseg : seg (splitNl content) i (i + 1) = [lineAt (splitNl content) i] := by
        rw [seg_snoc (le_refl i) hi, seg_self]
        rfl
      by_cases hral : isIndentStart (lineAt (splitNl content) i) = true
      · -- the output opens a (blank-only) accumulator
        have hostepB := scan_step_open hq' hostepA hfmqB hfenceF rfl rfl hral
        unfold SimInv
        right; right; left
        refine ⟨a, e, c, ?_, ?_, ?_, Or.inr ⟨i, ?_, ?_, ?_⟩⟩
        · rw [hstep]
          exact hcs
        · rw [hkk]
          exact hk
        · omega
        · omega
        · omega
        · rw [hkk, arith_shift3 i, hseg]
          exact hostepB
      · -- the output ignores the blank line
        have hral' : isIndentStart (lineAt (splitNl content) i) = false := by
          simpa using hral
        have hostepB := scan_step_final_none hq' hostepA hfmqB hfenceF rfl rfl hral'
        unfold SimInv
        right; right; left
        refine ⟨a, e, c, ?_, ?_, ?_, Or.inl ?_⟩
        · rw [hstep]
          exact hcs
        · rw [hkk]
          exact hk
        · omega
        · rw [hkk, arith_shift3 i]
          exact hostepB
    · -- a non-qualifying line: the input emits exactly the destined span
      have hnind : isIndentStart (lineAt (splitNl content) i) = false := by
        rcases Bool.eq_false_or_eq_true (isIndentStart (lineAt (splitNl content) i))
          with h | h
        · exact absurd (Or.inl h) hqual
        · exact h
      have hnbl : blank (lineAt (splitNl content) i) = false := by
        rcases Bool.eq_false_or_eq_true (blank (lineAt (splitNl content) i))
          with h | h
        · exact absurd (Or.inr h) hqual
        · exact h
      have hseg1 : (scanUpTo (detect_frontmatter_boundaries content)
          (splitNl content) i).curLines
          = seg (splitNl content) a e ++ [lineAt (splitNl content) e] := by
        rw [hcl, hie3, seg_snoc hae heS]
      have hdtbeq : dropTrailingBlanks (scanUpTo (detect_frontmatter_boundaries content)
          (splitNl content) i).curLines
          = (scanUpTo (detect_frontmatter_boundaries content)
            (splitNl content) i).curLines := by
        rw [hseg1]
        exact dtb_concat_nonblank hnbe _
      have hdtbne : dropTrailingBlanks (scanUpTo (detect_frontmatter_boundaries content)
          (splitNl content) i).curLines ≠ [] := by
        rw [hdtbeq, hseg1]
        simp
      have hstep := scan_step_final_emit hlq rfl hfmi' hfenceF hnf hcs hnind
        hnbl hdtbne
      have hemit : ((a, a + (dropTrailingBlanks (scanUpTo
            (detect_frontmatter_boundaries content)
            (splitNl content) i).curLines).length - 1,
          joinNl (dropTrailingBlanks (scanUpTo (detect_frontmatter_boundaries content)
            (splitNl content) i).curLines)) : Span) = (a, e, c) := by
        rw [hdtbeq, hcl, hie3, seg_length (by omega) (by omega),
          show a + (e + 1 - a) - 1 = e from by omega, ← hcontent]
      have hstep2 : scanUpTo (detect_frontmatter_boundaries content)
          (splitNl content) (i + 1)
          = ⟨(scanUpTo (detect_frontmatter_boundaries content)
              (splitNl content) i).blocks ++ [(a, e, c)], none, [],
            (scanUpTo (detect_frontmatter_boundaries content)
              (splitNl content) i).inFence⟩ := by
        rw [hstep, hemit]
      have hkk1 : (scanUpTo (detect_frontmatter_boundaries content)
          (splitNl content) (i + 1)).blocks.length
          = (scanUpTo (detect_frontmatter_boundaries content)
            (splitNl content) i).blocks.length + 1 := by
        rw [hstep2]
        simp
      have h1 : ∀ j (hj : j < (detect_indented_code_blocks content).length),
          j < (scanUpTo (detect_frontmatter_boundaries content)
            (splitNl content) i).blocks.length + 1 →
          (detect_indented_code_blocks content)[j].2.1 < i := by
        intro j hj hjk
        rcases Nat.lt_or_ge j ((scanUpTo (detect_frontmatter_boundaries content)
            (splitNl content) i).blocks.length) with h | h
        · exact ends_before content (Nat.le_of_lt hi) j hj h
        · have hkq : (detect_indented_code_blocks content)[j]? = some (a, e, c) := by
            rw [show j = (scanUpTo (detect_frontmatter_boundaries content)
              (splitNl content) i).blocks.length from by omega]
            exact hk
          have hvj : (detect_indented_code_blocks content)[j] = (a, e, c) := by
            rwa [List.getElem?_eq_getElem hj, Option.some_inj] at hkq
          rw [hvj]
          show e < i
          omega
      have h2 : ∀ j (hj : j < (detect_indented_code_blocks content).length),
          (scanUpTo (detect_frontmatter_boundaries content)
            (splitNl content) i).blocks.length + 1 ≤ j →
          i < (detect_indented_code_blocks content)[j].1 := by
        intro j hj hkj
        have hge := @starts_ge_none content (i + 1) (by omega) (by rw [hstep2]) j hj
          (by rw [hkk1]; exact hkj)
        omega
      have hq := out_verbatim content hi hklen h1 h2
      have hq' : (outLines content)[i + 2 * (scanUpTo
          (detect_frontmatter_boundaries content)
          (splitNl content) i).blocks.length + 2]?
          = some (lineAt (splitNl content) i) := by
        rw [show i + 2 * (scanUpTo (detect_frontmatter_boundaries content)
            (splitNl content) i).blocks.length + 2
          = i + 2 * ((scanUpTo (detect_frontmatter_boundaries content)
            (splitNl content) i).blocks.length + 1) from by omega]
        exact hq
      have hostepB := scan_step_final_none hq' hostepA hfmqB hfenceF rfl rfl hnind
      unfold SimInv
      left
      refine ⟨?_, ?_⟩
      · rw [hstep2]
      · rw [hkk1, hstep2, hnf,
          show i + 1 + 2 * ((scanUpTo (detect_frontmatter_boundaries content)
              (splitNl content) i).blocks.length + 1)
            = i + 2 * (scanUpTo (detect_frontmatter_boundaries content)
              (splitNl content) i).blocks.length + 3 from by omega]
        exact hostepB

end MdConv

namespace MdConv

theorem seg_append {lines : List Line} {a b c : Nat} (hab : a ≤ b) (hbc : b ≤ c) :
    seg lines a c = seg lines a b ++ seg lines b c := by
  have h1 : c - a = (b - a) + (c - b) := by omega
  rw [seg, h1, List.take_add]
  congr 1
  rw [List.drop_drop]
  congr 2
  omega

/-- Simulation step out of the trailing-blanks phase. -/
theorem step_trailing (content : List Char) (i a e : Nat) (c : List Char)
    (hi : i < (splitNl content).length)
    (hcs : (scanUpTo (detect_frontmatter_boundaries content)
      (splitNl content) i).curStart = some a)
    (hk : (detect_indented_code_blocks content)[
      (scanUpTo (detect_frontmatter_boundaries content)
        (splitNl content) i).blocks.length]? = some (a, e, c))
    (hei : e + 1 < i)
    (hout : scanUpTo (detect_frontmatter_boundaries content) (outLines content)
          (i + 2 * (scanUpTo (detect_frontmatter_boundaries content)
            (splitNl content) i).blocks.length + 2)
        = ⟨[], none, [], false⟩ ∨
      ∃ t, e < t ∧ t < i ∧
        scanUpTo (detect_frontmatter_boundaries content) (outLines content)
            (i + 2 * (scanUpTo (detect_frontmatter_boundaries content)
              (splitNl content) i).blocks.length + 2)
          = ⟨[], some (t + 2 * (scanUpTo (detect_frontmatter_boundaries content)
                (splitNl content) i).blocks.length + 2),
              seg (splitNl content) t i, false⟩) :
    SimInv content (i + 1) := by
  have hfm0 : ∀ x y, detect_frontmatter_boundaries content = some (x, y) → x = 0 :=
    fun x y hxy => fm_fst_zero content (x, y) hxy
  have hinv := @Inv_upTo (detect_frontmatter_boundaries content) (splitNl content)
    hfm0 i (Nat.le_of_lt hi)
  have hlq := getElem?_lineAt hi
  obtain ⟨hai, hcl, hind, hgood, hends2, hnf⟩ := hinv.cur_some a hcs
  have hfmi' : fmSkip (detect_frontmatter_boundaries content) i = false :=
    fmSkip_mono content hai.le (hgood a (le_refl a) hai).1
  have hklen := getElem?_some_lt hk
  have hval : (detect_indented_code_blocks content)[
      (scanUpTo (detect_frontmatter_boundaries content)
        (splitNl content) i).blocks.length] = (a, e, c) := by
    have h := hk
    rwa [List.getElem?_eq_getElem hklen, Option.some_inj] at h
  have hok := span_get_ok content hklen
  rw [hval] at hok
  have hae : a ≤ e := hok.1
  have heS : e < (splitNl content).length := hok.2.1
  have hcontent : c = joinNl (seg (splitNl content) a (e + 1)) := hok.2.2.1
  have hnbe : blank (lineAt (splitNl content) e) = false := hok.2.2.2.2.1
  have hblanks := blank_tail content ((splitNl content).length - i)
    (by omega) (Nat.le_of_lt hi) hcs hk
  have hfmqB : fmSkip (detect_frontmatter_boundaries content)
      (i + 2 * (scanUpTo (detect_frontmatter_boundaries content)
        (splitNl content) i).blocks.length + 2) = false :=
    fmSkip_mono content (by omega) hfmi'
  by_cases hfence2 : isFence (lineAt (splitNl content) i) = true
  · -- a fence here would discard the accumulator and lose the span
    have hstep := scan_step_fence hlq rfl hfmi' hfence2
    have hge := @starts_ge_none content (i + 1) (by omega) (by rw [hstep]) _
      hklen (by rw [hstep])
    rw [hval] at hge
    have hge2 : i + 1 ≤ a := hge
    exact absurd hge2 (by omega)
  have hfenceF : isFence (lineAt (splitNl content) i) = false := by
    simpa using hfence2
  by_cases hqual : isIndentStart (lineAt (splitNl content) i) = true
      ∨ blank (lineAt (splitNl content) i) = true
  · -- a qualifying line: the input keeps accumulating trailing lines
    have hstep := scan_step_extend hlq rfl hfmi' hfenceF hnf hcs hqual
    have hkk : (scanUpTo (detect_frontmatter_boundaries content)
        (splitNl content) (i + 1)).blocks.length
        = (scanUpTo (detect_frontmatter_boundaries content)
          (splitNl content) i).blocks.length := by
      rw [hstep]
    have h1 : ∀ j (hj : j < (detect_indented_code_blocks content).length),
        j < (scanUpTo (detect_frontmatter_boundaries content)
          (splitNl content) i).blocks.length + 1 →
        (detect_indented_code_blocks content)[j].2.1 < i := by
      intro j hj hjk
      rcases Nat.lt_or_ge j ((scanUpTo (detect_frontmatter_boundaries content)
          (splitNl content) i).blocks.length) with h | h
      · exact ends_before content (Nat.le_of_lt hi) j hj h
      · have hkq : (detect_indented_code_blocks content)[j]? = some (a, e, c) := by
          rw [show j = (scanUpTo (detect_frontmatter_boundaries content)
            (splitNl content) i).blocks.length from by omega]
          exact hk
        have hvj : (detect_indented_code_blocks content)[j] = (a, e, c) := by
          rwa [List.getElem?_eq_getElem hj, Option.some_inj] at hkq
        rw [hvj]
        show e < i
        omega
    have h2 : ∀ j (hj : j < (detect_indented_code_blocks content).length),
        (scanUpTo (detect_frontmatter_boundaries content)
          (splitNl content) i).blocks.length + 1 ≤ j →
        i < (detect_indented_code_blocks content)[j].1 := by
      intro j hj hkj
      have hsome := @starts_ge_some content (i + 1) a (by omega)
        (by rw [hstep]; exact hcs) j hj
        (by rw [hstep]; exact Nat.le_of_succ_le hkj)
      have hmono := detect_mono2 content hklen hj (by omega)
      rw [hval] at hmono
      have hmono2 : e < (detect_indented_code_blocks content)[j].1 := hmono
      rcases hsome with h | h
      · omega
      · omega
    have hq := out_verbatim content hi hklen h1 h2
    have hq' : (outLines content)[i + 2 * (scanUpTo
        (detect_frontmatter_boundaries content)
        (splitNl content) i).blocks.length + 2]?
        = some (lineAt (splitNl content) i) := by
      rw [show i + 2 * (scanUpTo (detect_frontmatter_boundaries content)
          (splitNl content) i).blocks.length + 2
        = i + 2 * ((scanUpTo (detect_frontmatter_boundaries content)
          (splitNl content) i).blocks.length + 1) from by omega]
      exact hq
    have hseg : seg (splitNl content) i (i + 1) = [lineAt (splitNl content) i] := by
      rw [seg_snoc (le_refl i) hi, seg_self]
      rfl
    rcases hout with houtd | ⟨t, het, hti, houts⟩
    · -- output has no open accumulator
      by_cases hral : isIndentStart (lineAt (splitNl content) i) = true
      · have hostepB := scan_step_open hq' houtd hfmqB hfenceF rfl rfl hral
        unfold SimInv
        right; right; left
        refine ⟨a, e, c, ?_, ?_, ?_, Or.inr ⟨i, ?_, ?_, ?_⟩⟩
        · rw [hstep]
          exact hcs
        · rw [hkk]
          exact hk
        · omega
        · omega
        · omega
        · rw [hkk, arith_shift3 i, hseg]
          exact hostepB
      · have hral' : isIndentStart (lineAt (splitNl content) i) = false := by
          simpa using hral
        have hostepB := scan_step_final_none hq' houtd hfmqB hfenceF rfl rfl hral'
        unfold SimInv
        right; right; left
        refine ⟨a, e, c, ?_, ?_, ?_, Or.inl ?_⟩
        · rw [hstep]
          exact hcs
        · rw [hkk]
          exact hk
        · omega
        · rw [hkk, arith_shift3 i]
          exact hostepB
    · -- output extends its blank accumulator
      have hostepB := scan_step_extend hq' houts hfmqB hfenceF rfl rfl hqual
      have hostepB2 : scanUpTo (detect_frontmatter_boundaries content)
          (outLines content)
          (i + 2 * (scanUpTo (detect_frontmatter_boundaries content)
            (splitNl content) i).blocks.length + 2 + 1)
          = ⟨[], some (t + 2 * (scanUpTo (detect_frontmatter_boundaries content)
                (splitNl content) i).blocks.length + 2),
              seg (splitNl content) t (i + 1), false⟩ := by
        rw [seg_snoc (Nat.le_of_lt hti) hi]
        exact hostepB
      unfold SimInv
      right; right; left
      refine ⟨a, e, c, ?_, ?_, ?_, Or.inr ⟨t, ?_, ?_, ?_⟩⟩
      · rw [hstep]
        exact hcs
      · rw [hkk]
        exact hk
      · omega
      · omega
      · omega
      · rw [hkk, arith_shift3 i]
        exact hostepB2
  · -- a non-qualifying line: the input emits the destined span and the
    -- output's accumulator (if any) trims to nothing
    have hnind : isIndentStart (lineAt (splitNl content) i) = false := by
      rcases Bool.eq_false_or_eq_true (isIndentStart (lineAt (splitNl content) i))
        with h | h
      · exact absurd (Or.inl h) hqual
      · exact h
    have hnbl : blank (lineAt (splitNl content) i) = false := by
      rcases Bool.eq_false_or_eq_true (blank (lineAt (splitNl content) i))
        with h | h
      · exact absurd (Or.inr h) hqual
      · exact h
    have hsplit : seg (splitNl content) a i
        = seg (splitNl content) a (e + 1) ++ seg (splitNl content) (e + 1) i :=
      seg_append (by omega) (by omega)
    have htailblank : ∀ l ∈ seg (splitNl content) (e + 1) i, blank l = true := by
      intro l hl
      obtain ⟨j, hj1, hj2, hj3, hj4⟩ := seg_mem_exists hl
      rw [hj4]
      exact hblanks j (by omega) hj2
    have hsegsnoc : seg (splitNl content) a (e + 1)
        = seg (splitNl content) a e ++ [lineAt (splitNl content) e] :=
      seg_snoc hae heS
    have hdtbeq : dropTrailingBlanks (scanUpTo (detect_frontmatter_boundaries content)
        (splitNl content) i).curLines = seg (splitNl content) a (e + 1) := by
      rw [hcl, hsplit, dtb_append_blanks htailblank, hsegsnoc]
      exact dtb_concat_nonblank hnbe _
    have hdtbne : dropTrailingBlanks (scanUpTo (detect_frontmatter_boundaries content)
        (splitNl content) i).curLines ≠ [] := by
      rw [hdtbeq]
      exact seg_ne_nil (by omega) (by omega)
    have hstep := scan_step_final_emit hlq rfl hfmi' hfenceF hnf hcs hnind
      hnbl hdtbne
    have hemit : ((a, a + (dropTrailingBlanks (scanUpTo
          (detect_frontmatter_boundaries content)
          (splitNl content) i).curLines).length - 1,
        joinNl (dropTrailingBlanks (scanUpTo (detect_frontmatter_boundaries content)
          (splitNl content) i).curLines)) : Span) = (a, e, c) := by
      rw [hdtbeq, seg_length (by omega) (by omega),
        show a + (e + 1 - a) - 1 = e from by omega, ← hcontent]
    have hstep2 : scanUpTo (detect_frontmatter_boundaries content)
        (splitNl content) (i + 1)
        = ⟨(scanUpTo (detect_frontmatter_boundaries content)
            (splitNl content) i).blocks ++ [(a, e, c)], none, [],
          (scanUpTo (detect_frontmatter_boundaries content)
            (splitNl content) i).inFence⟩ := by
      rw [hstep, hemit]
    have hkk1 : (scanUpTo (detect_frontmatter_boundaries content)
        (splitNl content) (i + 1)).blocks.length
        = (scanUpTo (detect_frontmatter_boundaries content)
          (splitNl content) i).blocks.length + 1 := by
      rw [hstep2]
      simp
    have h1 : ∀ j (hj : j < (detect_indented_code_blocks content).length),
        j < (scanUpTo (detect_frontmatter_boundaries content)
          (splitNl content) i).blocks.length + 1 →
        (detect_indented_code_blocks content)[j].2.1 < i := by
      intro j hj hjk
      rcases Nat.lt_or_ge j ((scanUpTo (detect_frontmatter_boundaries content)
          (splitNl content) i).blocks.length) with h | h
      · exact ends_before content (Nat.le_of_lt hi) j hj h
      · have hkq : (detect_indented_code_blocks content)[j]? = some (a, e, c) := by
          rw [show j = (scanUpTo (detect_frontmatter_boundaries content)
            (splitNl content) i).blocks.length from by omega]
          exact hk
        have hvj : (detect_indented_code_blocks content)[j] = (a, e, c) := by
          rwa [List.getElem?_eq_getElem hj, Option.some_inj] at hkq
        rw [hvj]
        show e < i
        omega
    have h2 : ∀ j (hj : j < (detect_indented_code_blocks content).length),
        (scanUpTo (detect_frontmatter_boundaries content)
          (splitNl content) i).blocks.length + 1 ≤ j →
        i < (detect_indented_code_blocks content)[j].1 := by
      intro j hj hkj
      have hge := @starts_ge_none content (i + 1) (by omega) (by rw [hstep2]) j hj
        (by rw [hkk1]; exact hkj)
      omega
    have hq := out_verbatim content hi hklen h1 h2
    have hq' : (outLines content)[i + 2 * (scanUpTo
        (detect_frontmatter_boundaries content)
        (splitNl content) i).blocks.length + 2]?
        = some (lineAt (splitNl content) i) := by
      rw [show i + 2 * (scanUpTo (detect_frontmatter_boundaries content)
          (splitNl content) i).blocks.length + 2
        = i + 2 * ((scanUpTo (detect_frontmatter_boundaries content)
          (splitNl content) i).blocks.length + 1) from by omega]
      exact hq
    rcases hout with houtd | ⟨t, het, hti, houts⟩
    · have hostepB := scan_step_final_none hq' houtd hfmqB hfenceF rfl rfl hnind
      unfold SimInv
      left
      refine ⟨?_, ?_⟩
      · rw [hstep2]
      · rw [hkk1, hstep2, hnf,
          show i + 1 + 2 * ((scanUpTo (detect_frontmatter_boundaries content)
              (splitNl content) i).blocks.length + 1)
            = i + 2 * (scanUpTo (detect_frontmatter_boundaries content)
              (splitNl content) i).blocks.length + 3 from by omega]
        exact hostepB
    · have hdtbnil : dropTrailingBlanks (seg (splitNl content) t i) = [] := by
        rw [dtb_eq_nil_iff]
        intro l hl
        obtain ⟨j, hj1, hj2, hj3, hj4⟩ := seg_mem_exists hl
        rw [hj4]
        exact hblanks j (by omega) hj2
      have hostepB := scan_step_final_nil hq' houts hfmqB hfenceF rfl rfl hnind
        hnbl hdtbnil
      unfold SimInv
      left
      refine ⟨?_, ?_⟩
      · rw [hstep2]
      · rw [hkk1, hstep2, hnf,
          show i + 1 + 2 * ((scanUpTo (detect_frontmatter_boundaries content)
              (splitNl content) i).blocks.length + 1)
            = i + 2 * (scanUpTo (detect_frontmatter_boundaries content)
              (splitNl content) i).blocks.length + 3 from by omega]
        exact hostepB

end MdConv

namespace MdConv

/-- Simulation step out of the doomed-accumulator phase. -/
theorem step_doomed (content : List Char) (i a : Nat)
    (hi : i < (splitNl content).length)
    (hcs : (scanUpTo (detect_frontmatter_boundaries content)
      (splitNl content) i).curStart = some a)
    (hdoom : ∀ sp : Span, (detect_indented_code_blocks content)[
        (scanUpTo (detect_frontmatter_boundaries content)
          (splitNl content) i).blocks.length]? = some sp → sp.1 ≠ a)
    (hout : scanUpTo (detect_frontmatter_boundaries content) (outLines content)
        (i + 2 * (scanUpTo (detect_frontmatter_boundaries content)
          (splitNl content) i).blocks.length)
      = ⟨[], some (a + 2 * (scanUpTo (detect_frontmatter_boundaries content)
            (splitNl content) i).blocks.length),
          (scanUpTo (detect_frontmatter_boundaries content)
            (splitNl content) i).curLines, false⟩) :
    SimInv content (i + 1) := by
  have hfm0 : ∀ x y, detect_frontmatter_boundaries content = some (x, y) → x = 0 :=
    fun x y hxy => fm_fst_zero content (x, y) hxy
  have hinv := @Inv_upTo (detect_frontmatter_boundaries content) (splitNl content)
    hfm0 i (Nat.le_of_lt hi)
  have hkleS : (scanUpTo (detect_frontmatter_boundaries content)
      (splitNl content) i).blocks.length
      ≤ (detect_indented_code_blocks content).length := by
    have h := congrArg List.length (blocks_take content i (Nat.le_of_lt hi))
    rw [List.length_take] at h
    omega
  have hlq := getElem?_lineAt hi
  obtain ⟨hai, hcl, hind, hgood, hends2, hnf⟩ := hinv.cur_some a hcs
  have hfmi' : fmSkip (detect_frontmatter_boundaries content) i = false :=
    fmSkip_mono content hai.le (hgood a (le_refl a) hai).1
  have hfmq : fmSkip (detect_frontmatter_boundaries content)
      (i + 2 * (scanUpTo (detect_frontmatter_boundaries content)
        (splitNl content) i).blocks.length) = false :=
    fmSkip_mono content (by omega) hfmi'
  by_cases hfence2 : isFence (lineAt (splitNl content) i) = true
  · -- fence line: both accumulators are discarded and the scans resync
    have hstep := scan_step_fence hlq rfl hfmi' hfence2
    have h2 : ∀ j (hj : j < (detect_indented_code_blocks content).length),
        (scanUpTo (detect_frontmatter_boundaries content)
          (splitNl content) i).blocks.length ≤ j →
        i < (detect_indented_code_blocks content)[j].1 := by
      intro j hj hkj
      have hge := @starts_ge_none content (i + 1) (by omega) (by rw [hstep]) j hj
        (by rw [hstep]; exact hkj)
      omega
    have hq := out_verbatim content hi hkleS
      (ends_before content (Nat.le_of_lt hi)) h2
    have hostep := scan_step_fence hq hout hfmq hfence2
    unfold SimInv
    left
    have hkk : (scanUpTo (detect_frontmatter_boundaries content)
        (splitNl content) (i + 1)).blocks.length
        = (scanUpTo (detect_frontmatter_boundaries content)
          (splitNl content) i).blocks.length := by
      rw [hstep]
    refine ⟨?_, ?_⟩
    · rw [hstep]
    · rw [hkk, hstep, hnf, arith_shift1 i]
      exact hostep
  have hfenceF : isFence (lineAt (splitNl content) i) = false := by
    simpa using hfence2
  by_cases hqual : isIndentStart (lineAt (splitNl content) i) = true
      ∨ blank (lineAt (splitNl content) i) = true
  · -- both accumulators extend
    have hstep := scan_step_extend hlq rfl hfmi' hfenceF hnf hcs hqual
    have h2 : ∀ j (hj : j < (detect_indented_code_blocks content).length),
        (scanUpTo (detect_frontmatter_boundaries content)
          (splitNl content) i).blocks.length ≤ j →
        i < (detect_indented_code_blocks content)[j].1 := by
      intro j hj hkj
      have hgej := @starts_ge_some content (i + 1) a (by omega)
        (by rw [hstep]; exact hcs) j hj (by rw [hstep]; exact hkj)
      rcases hgej with h | h
      · exfalso
        rcases Nat.eq_or_lt_of_le hkj with heq | hlt
        · have hkq : (detect_indented_code_blocks content)[
              (scanUpTo (detect_frontmatter_boundaries content)
                (splitNl content) i).blocks.length]?
              = some (detect_indented_code_blocks content)[j] := by
            rw [heq]
            exact List.getElem?_eq_getElem hj
          exact hdoom _ hkq h
        · have hlenS : (scanUpTo (detect_frontmatter_boundaries content)
              (splitNl content) i).blocks.length
              < (detect_indented_code_blocks content).length := by omega
          have hkls : (detect_indented_code_blocks content)[
              (scanUpTo (detect_frontmatter_boundaries content)
                (splitNl content) i).blocks.length]?
              = some ((detect_indented_code_blocks content)[
                (scanUpTo (detect_frontmatter_boundaries content)
                  (splitNl content) i).blocks.length]) :=
            List.getElem?_eq_getElem hlenS
          have hglen := @starts_ge_some content (i + 1) a (by omega)
            (by rw [hstep]; exact hcs) _ hlenS (by rw [hstep])
          have hmono := detect_mono2 content hlenS hj hlt
          have hle := span_get_le content hlenS
          rcases hglen with h2 | h2
          · exact hdoom _ hkls h2
          · omega
      · omega
    have hq := out_verbatim content hi hkleS
      (ends_before content (Nat.le_of_lt hi)) h2
    have hostep := scan_step_extend hq hout hfmq hfenceF rfl rfl hqual
    unfold SimInv
    right; right; right
    have hkk : (scanUpTo (detect_frontmatter_boundaries content)
        (splitNl content) (i + 1)).blocks.length
        = (scanUpTo (detect_frontmatter_boundaries content)
          (splitNl content) i).blocks.length := by
      rw [hstep]
    have hcl2 : (scanUpTo (detect_frontmatter_boundaries content)
        (splitNl content) (i + 1)).curLines
        = (scanUpTo (detect_frontmatter_boundaries content)
          (splitNl content) i).curLines ++ [lineAt (splitNl content) i] := by
      rw [hstep]
    refine ⟨a, ?_, ?_, ?_⟩
    · rw [hstep]
      exact hcs
    · intro sp hsp
      rw [hstep] at hsp
      have hsp' : (detect_indented_code_blocks content)[
          (scanUpTo (detect_frontmatter_boundaries content)
            (splitNl content) i).blocks.length]? = some sp := hsp
      exact hdoom sp hsp'
    · rw [hkk, hcl2, arith_shift1 i]
      exact hostep
  · -- non-qualifying line: the doomed accumulator must trim to nothing
    have hnind : isIndentStart (lineAt (splitNl content) i) = false := by
      rcases Bool.eq_false_or_eq_true (isIndentStart (lineAt (splitNl content) i))
        with h | h
      · exact absurd (Or.inl h) hqual
      · exact h
    have hnbl : blank (lineAt (splitNl content) i) = false := by
      rcases Bool.eq_false_or_eq_true (blank (lineAt (splitNl content) i))
        with h | h
      · exact absurd (Or.inr h) hqual
      · exact h
    by_cases hdtb : dropTrailingBlanks (scanUpTo (detect_frontmatter_boundaries content)
        (splitNl content) i).curLines = []
    · have hstep := scan_step_final_nil hlq rfl hfmi' hfenceF hnf hcs hnind
        hnbl hdtb
      have h2 : ∀ j (hj : j < (detect_indented_code_blocks content).length),
          (scanUpTo (detect_frontmatter_boundaries content)
            (splitNl content) i).blocks.length ≤ j →
          i < (detect_indented_code_blocks content)[j].1 := by
        intro j hj hkj
        have hge := @starts_ge_none content (i + 1) (by omega) (by rw [hstep]) j hj
          (by rw [hstep]; exact hkj)
        omega
      have hq := out_verbatim content hi hkleS
        (ends_before content (Nat.le_of_lt hi)) h2
      have hostep := scan_step_final_nil hq hout hfmq hfenceF rfl rfl hnind
        hnbl hdtb
      unfold SimInv
      left
      have hkk : (scanUpTo (detect_frontmatter_boundaries content)
          (splitNl content) (i + 1)).blocks.length
          = (scanUpTo (detect_frontmatter_boundaries content)
            (splitNl content) i).blocks.length := by
        rw [hstep]
      refine ⟨?_, ?_⟩
      · rw [hstep]
      · rw [hkk, hstep, hnf, arith_shift1 i]
        exact hostep
    · -- an emission here would contradict the doomed status
      exfalso
      have hstepE := scan_step_final_emit hlq rfl hfmi' hfenceF hnf hcs hnind
        hnbl hdtb
      have htake2 := blocks_take content (i + 1) (by omega)
      rw [hstepE] at htake2
      have htake3 : (scanUpTo (detect_frontmatter_boundaries content)
            (splitNl content) i).blocks
            ++ [(a, a + (dropTrailingBlanks (scanUpTo (detect_frontmatter_boundaries content)
                  (splitNl content) i).curLines).length - 1,
                joinNl (dropTrailingBlanks (scanUpTo (detect_frontmatter_boundaries content)
                  (splitNl content) i).curLines))]
          = (detect_indented_code_blocks content).take
              ((scanUpTo (detect_frontmatter_boundaries content)
                  (splitNl content) i).blocks
                ++ [(a, a + (dropTrailingBlanks (scanUpTo (detect_frontmatter_boundaries content)
                      (splitNl content) i).curLines).length - 1,
                    joinNl (dropTrailingBlanks (scanUpTo (detect_frontmatter_boundaries content)
                      (splitNl content) i).curLines))]).length := htake2
      have hlen2 : ((scanUpTo (detect_frontmatter_boundaries content)
            (splitNl content) i).blocks
            ++ [(a, a + (dropTrailingBlanks (scanUpTo (detect_frontmatter_boundaries content)
                  (splitNl content) i).curLines).length - 1,
                joinNl (dropTrailingBlanks (scanUpTo (detect_frontmatter_boundaries content)
                  (splitNl content) i).curLines))]).length
          = (scanUpTo (detect_frontmatter_boundaries content)
              (splitNl content) i).blocks.length + 1 := by
        simp
      rw [hlen2] at htake3
      have h0 : ((scanUpTo (detect_frontmatter_boundaries content)
            (splitNl content) i).blocks
            ++ [(a, a + (dropTrailingBlanks (scanUpTo (detect_frontmatter_boundaries content)
                  (splitNl content) i).curLines).length - 1,
                joinNl (dropTrailingBlanks (scanUpTo (detect_frontmatter_boundaries content)
                  (splitNl content) i).curLines))])[
          (scanUpTo (detect_frontmatter_boundaries content)
            (splitNl content) i).blocks.length]?
          = some (a, a + (dropTrailingBlanks (scanUpTo (detect_frontmatter_boundaries content)
                (splitNl content) i).curLines).length - 1,
              joinNl (dropTrailingBlanks (scanUpTo (detect_frontmatter_boundaries content)
                (splitNl content) i).curLines)) := by
        rw [List.getElem?_append_right (le_refl _), Nat.sub_self]
        rfl
      have hkk2 : (scanUpTo (detect_frontmatter_boundaries content)
          (splitNl content) i).blocks.length
          < (scanUpTo (detect_frontmatter_boundaries content)
            (splitNl content) i).blocks.length + 1 := by omega
      rw [htake3, List.getElem?_take, if_pos hkk2] at h0
      exact (hdoom _ h0) rfl

end MdConv

namespace MdConv

/-- The lockstep invariant holds at every stage of the scan. -/
theorem simInv_all (content : List Char) :
    ∀ i, i ≤ (splitNl content).length → SimInv content i := by
  intro i
  induction i with
  | zero => intro _; exact simInv_zero content
  | succ m ih =>
    intro hm
    have hs := ih (by omega)
    have hmlt : m < (splitNl content).length := by omega
    unfold SimInv at hs
    rcases hs with ⟨hcs, hout⟩ | ⟨a, e, c, hcs, hk, hie, hout⟩
      | ⟨a, e, c, hcs, hk, hei, hout⟩ | ⟨a, hcs, hdoom, hout⟩
    · exact step_sync content m hmlt hcs hout
    · exact step_acc content m a e c hmlt hcs hk hie hout
    · exact step_trailing content m a e c hmlt hcs hk hei hout
    · exact step_doomed content m a hmlt hcs hdoom hout

theorem endScan_none_blocks {st : ScanState} (h : st.curStart = none)
    (hb : st.blocks = []) : (endScan st).blocks = [] := by
  rw [endScan, if_neg (by rw [h]; simp)]
  exact hb

theorem endScan_nil_blocks {st : ScanState} {s : Nat} (h : st.curStart = some s)
    (hdtb : dropTrailingBlanks st.curLines = []) (hb : st.blocks = []) :
    (endScan st).blocks = [] := by
  rw [endScan]
  by_cases hf : st.inFence = true
  · rw [if_neg (by rw [h, hf]; simp)]
    exact hb
  · have hf' : st.inFence = false := by simpa using hf
    rw [if_pos (by rw [h, hf']; rfl), finalizeBlock_some_nil h hdtb]
    exact hb

/-- The converter's output contains no indented code blocks. -/
theorem detect_out_nil (content : List Char)
    (hne : detect_indented_code_blocks content ≠ []) :
    detect_indented_code_blocks (convert_to_fenced_blocks content) = [] := by
  have hol : splitNl (convert_to_fenced_blocks content) = outLines content :=
    convert_lines hne
  have holen := outLines_length content
  have hsim := simInv_all content (splitNl content).length (le_refl _)
  have hfm0 : ∀ x y, detect_frontmatter_boundaries content = some (x, y) → x = 0 :=
    fun x y hxy => fm_fst_zero content (x, y) hxy
  have hinv := @Inv_upTo (detect_frontmatter_boundaries content) (splitNl content)
    hfm0 (splitNl content).length (le_refl _)
  rw [detect_eq_scan (convert_to_fenced_blocks content), fm_preserved content, hol]
  unfold SimInv at hsim
  rcases hsim with ⟨hcs, hout⟩ | ⟨a, e, c, hcs, hk, hie, hout⟩
    | ⟨a, e, c, hcs, hk, hei, hout⟩ | ⟨a, hcs, hdoom, hout⟩
  · -- synchronized at end of input: no emission on either side
    have hdet := detect_eq_scan content
    rw [endScan, if_neg (by rw [hcs]; simp)] at hdet
    have hS := congrArg List.length hdet
    rw [holen, hS, hout]
    exact endScan_none_blocks rfl rfl
  · -- accumulating at end of input: the input emits the destined span and
    -- the output still has to swallow the closing fence
    obtain ⟨hai, hcl, hind, hgood, hends2, hnf⟩ := hinv.cur_some a hcs
    have hklen := getElem?_some_lt hk
    have hval : (detect_indented_code_blocks content)[
        (scanUpTo (detect_frontmatter_boundaries content)
          (splitNl content) (splitNl content).length).blocks.length] = (a, e, c) := by
      have h := hk
      rwa [List.getElem?_eq_getElem hklen, Option.some_inj] at h
    have hok := span_get_ok content hklen
    rw [hval] at hok
    have hae : a ≤ e := hok.1
    have heS : e < (splitNl content).length := hok.2.1
    have hcontent : c = joinNl (seg (splitNl content) a (e + 1)) := hok.2.2.1
    have hnbe : blank (lineAt (splitNl content) e) = false := hok.2.2.2.2.1
    have hne1 : (splitNl content).length = e + 1 := by omega
    have hcond : ((scanUpTo (detect_frontmatter_boundaries content)
        (splitNl content) (splitNl content).length).curStart.isSome
        && !(scanUpTo (detect_frontmatter_boundaries content)
          (splitNl content) (splitNl content).length).inFence) = true := by
      rw [hcs, hnf]
      rfl
    have hdet := detect_eq_scan content
    rw [endScan, if_pos hcond] at hdet
    have hseg1 : (scanUpTo (detect_frontmatter_boundaries content)
        (splitNl content) (splitNl content).length).curLines
        = seg (splitNl content) a e ++ [lineAt (splitNl content) e] := by
      rw [hcl, hne1, seg_snoc hae heS]
    have hdtbeq : dropTrailingBlanks (scanUpTo (detect_frontmatter_boundaries content)
        (splitNl content) (splitNl content).length).curLines
        = (scanUpTo (detect_frontmatter_boundaries content)
          (splitNl content) (splitNl content).length).curLines := by
      rw [hseg1]
      exact dtb_concat_nonblank hnbe _
    have hdtbne : dropTrailingBlanks (scanUpTo (detect_frontmatter_boundaries content)
        (splitNl content) (splitNl content).length).curLines ≠ [] := by
      rw [hdtbeq, hseg1]
      simp
    rw [finalizeBlock_some_emit hcs hdtbne] at hdet
    have hdet2 : detect_indented_code_blocks content
        = (scanUpTo (detect_frontmatter_boundaries content)
            (splitNl content) (splitNl content).length).blocks
          ++ [(a, a + (dropTrailingBlanks (scanUpTo (detect_frontmatter_boundaries content)
                (splitNl content) (splitNl content).length).curLines).length - 1,
              joinNl (dropTrailingBlanks (scanUpTo (detect_frontmatter_boundaries content)
                (splitNl content) (splitNl content).length).curLines))] := hdet
    have hemit : ((a, a + (dropTrailingBlanks (scanUpTo
          (detect_frontmatter_boundaries content)
          (splitNl content) (splitNl content).length).curLines).length - 1,
        joinNl (dropTrailingBlanks (scanUpTo (detect_frontmatter_boundaries content)
          (splitNl content) (splitNl content).length).curLines)) : Span)
        = (a, e, c) := by
      rw [hdtbeq, hcl, hne1, seg_length (by omega) (by omega),
        show a + (e + 1 - a) - 1 = e from by omega, ← hcontent]
    rw [hemit] at hdet2
    have hS : (detect_indented_code_blocks content).length
        = (scanUpTo (detect_frontmatter_boundaries content)
          (splitNl content) (splitNl content).length).blocks.length + 1 := by
      rw [hdet2]
      simp
    have hfmn : fmSkip (detect_frontmatter_boundaries content) a = false :=
      (hgood a (le_refl a) hai).1
    have hfmq : fmSkip (detect_frontmatter_boundaries content)
        ((splitNl content).length + 2 * (scanUpTo (detect_frontmatter_boundaries content)
          (splitNl content) (splitNl content).length).blocks.length + 1) = false :=
      fmSkip_mono content (by omega) hfmn
    have hqc : (outLines content)[(splitNl content).length
        + 2 * (scanUpTo (detect_frontmatter_boundaries content)
          (splitNl content) (splitNl content).length).blocks.length + 1]?
        = some fenceMark := by
      rw [show (splitNl content).length + 2 * (scanUpTo
          (detect_frontmatter_boundaries content)
          (splitNl content) (splitNl content).length).blocks.length + 1
        = e + 2 * (scanUpTo (detect_frontmatter_boundaries content)
          (splitNl content) (splitNl content).length).blocks.length + 2 from by omega]
      exact (out_span_pos content hk).2.2
    have hostep : scanUpTo (detect_frontmatter_boundaries content) (outLines content)
        ((splitNl content).length + 2 * (scanUpTo (detect_frontmatter_boundaries content)
          (splitNl content) (splitNl content).length).blocks.length + 1 + 1)
        = ⟨[], none, [], false⟩ :=
      scan_step_fence hqc hout hfmq (by decide)
    rw [holen, hS,
      show (splitNl content).length + 2 * ((scanUpTo (detect_frontmatter_boundaries content)
          (splitNl content) (splitNl content).length).blocks.length + 1)
        = (splitNl content).length + 2 * (scanUpTo (detect_frontmatter_boundaries content)
          (splitNl content) (splitNl content).length).blocks.length + 1 + 1 from by omega,
      hostep]
    exact endScan_none_blocks rfl rfl
  · -- trailing blanks at end of input: the input emits the destined span;
    -- any open accumulator of the output trims to nothing
    obtain ⟨hai, hcl, hind, hgood, hends2, hnf⟩ := hinv.cur_some a hcs
    have hklen := getElem?_some_lt hk
    have hval : (detect_indented_code_blocks content)[
        (scanUpTo (detect_frontmatter_boundaries content)
          (splitNl content) (splitNl content).length).blocks.length] = (a, e, c) := by
      have h := hk
      rwa [List.getElem?_eq_getElem hklen, Option.some_inj] at h
    have hok := span_get_ok content hklen
    rw [hval] at hok
    have hae : a ≤ e := hok.1
    have heS : e < (splitNl content).length := hok.2.1
    have hcontent : c = joinNl (seg (splitNl content) a (e + 1)) := hok.2.2.1
    have hnbe : blank (lineAt (splitNl content) e) = false := hok.2.2.2.2.1
    have hblanks := blank_tail_eof content hcs hk
    have hcond : ((scanUpTo (detect_frontmatter_boundaries content)
        (splitNl content) (splitNl content).length).curStart.isSome
        && !(scanUpTo (detect_frontmatter_boundaries content)
          (splitNl content) (splitNl content).length).inFence) = true := by
      rw [hcs, hnf]
      rfl
    have hdet := detect_eq_scan content
    rw [endScan, if_pos hcond] at hdet
    have hsplit : seg (splitNl content) a (splitNl content).length
        = seg (splitNl content) a (e + 1)
          ++ seg (splitNl content) (e + 1) (splitNl content).length :=
      seg_append (by omega) (by omega)
    have htailblank : ∀ l ∈ seg (splitNl content) (e + 1) (splitNl content).length,
        blank l = true := by
      intro l hl
      obtain ⟨j, hj1, hj2, hj3, hj4⟩ := seg_mem_exists hl
      rw [hj4]
      exact hblanks j (by omega) hj2
    have hsegsnoc : seg (splitNl content) a (e + 1)
        = seg (splitNl content) a e ++ [lineAt (splitNl content) e] :=
      seg_snoc hae heS
    have hdtbeq : dropTrailingBlanks (scanUpTo (detect_frontmatter_boundaries content)
        (splitNl content) (splitNl content).length).curLines
        = seg (splitNl content) a (e + 1) := by
      rw [hcl, hsplit, dtb_append_blanks htailblank, hsegsnoc]
      exact dtb_concat_nonblank hnbe _
    have hdtbne : dropTrailingBlanks (scanUpTo (detect_frontmatter_boundaries content)
        (splitNl content) (splitNl content).length).curLines ≠ [] := by
      rw [hdtbeq]
      exact seg_ne_nil (by omega) (by omega)
    rw [finalizeBlock_some_emit hcs hdtbne] at hdet
    have hdet2 : detect_indented_code_blocks content
        = (scanUpTo (detect_frontmatter_boundaries content)
            (splitNl content) (splitNl content).length).blocks
          ++ [(a, a + (dropTrailingBlanks (scanUpTo (detect_frontmatter_boundaries content)
                (splitNl content) (splitNl content).length).curLines).length - 1,
              joinNl (dropTrailingBlanks (scanUpTo (detect_frontmatter_boundaries content)
                (splitNl content) (splitNl content).length).curLines))] := hdet
    have hemit : ((a, a + (dropTrailingBlanks (scanUpTo
          (detect_frontmatter_boundaries content)
          (splitNl content) (splitNl content).length).curLines).length - 1,
        joinNl (dropTrailingBlanks (scanUpTo (detect_frontmatter_boundaries content)
          (splitNl content) (splitNl content).length).curLines)) : Span)
        = (a, e, c) := by
      rw [hdtbeq, seg_length (by omega) (by omega),
        show a + (e + 1 - a) - 1 = e from by omega, ← hcontent]
    rw [hemit] at hdet2
    have hS : (detect_indented_code_blocks content).length
        = (scanUpTo (detect_frontmatter_boundaries content)
          (splitNl content) (splitNl content).length).blocks.length + 1 := by
      rw [hdet2]
      simp
    rcases hout with houtd | ⟨t, het, htn, houts⟩
    · rw [holen, hS,
        show (splitNl content).length + 2 * ((scanUpTo (detect_frontmatter_boundaries content)
            (splitNl content) (splitNl content).length).blocks.length + 1)
          = (splitNl content).length + 2 * (scanUpTo (detect_frontmatter_boundaries content)
            (splitNl content) (splitNl content).length).blocks.length + 2 from by omega,
        houtd]
      exact endScan_none_blocks rfl rfl
    · have hdtbnil : dropTrailingBlanks (seg (splitNl content) t
          (splitNl content).length) = [] := by
        rw [dtb_eq_nil_iff]
        intro l hl
        obtain ⟨j, hj1, hj2, hj3, hj4⟩ := seg_mem_exists hl
        rw [hj4]
        exact hblanks j (by omega) hj2
      rw [holen, hS,
        show (splitNl content).length + 2 * ((scanUpTo (detect_frontmatter_boundaries content)
            (splitNl content) (splitNl content).length).blocks.length + 1)
          = (splitNl content).length + 2 * (scanUpTo (detect_frontmatter_boundaries content)
            (splitNl content) (splitNl content).length).blocks.length + 2 from by omega,
        houts]
      exact endScan_nil_blocks rfl hdtbnil rfl
  · -- doomed accumulator at end of input: nothing is emitted on either side
    obtain ⟨hai, hcl, hind, hgood, hends2, hnf⟩ := hinv.cur_some a hcs
    have hcond : ((scanUpTo (detect_frontmatter_boundaries content)
        (splitNl content) (splitNl content).length).curStart.isSome
        && !(scanUpTo (detect_frontmatter_boundaries content)
          (splitNl content) (splitNl content).length).inFence) = true := by
      rw [hcs, hnf]
      rfl
    have hdet := detect_eq_scan content
    rw [endScan, if_pos hcond] at hdet
    by_cases hdtb : dropTrailingBlanks (scanUpTo (detect_frontmatter_boundaries content)
        (splitNl content) (splitNl content).length).curLines = []
    · rw [finalizeBlock_some_nil hcs hdtb] at hdet
      have hdet2 : detect_indented_code_blocks content
          = (scanUpTo (detect_frontmatter_boundaries content)
              (splitNl content) (splitNl content).length).blocks := hdet
      have hS := congrArg List.length hdet2
      rw [holen, hS, hout]
      exact endScan_nil_blocks rfl hdtb rfl
    · exfalso
      rw [finalizeBlock_some_emit hcs hdtb] at hdet
      have hdet2 : detect_indented_code_blocks content
          = (scanUpTo (detect_frontmatter_boundaries content)
              (splitNl content) (splitNl content).length).blocks
            ++ [(a, a + (dropTrailingBlanks (scanUpTo (detect_frontmatter_boundaries content)
                  (splitNl content) (splitNl content).length).curLines).length - 1,
                joinNl (dropTrailingBlanks (scanUpTo (detect_frontmatter_boundaries content)
                  (splitNl content) (splitNl content).length).curLines))] := hdet
      have h0 : (detect_indented_code_blocks content)[
          (scanUpTo (detect_frontmatter_boundaries content)
            (splitNl content) (splitNl content).length).blocks.length]?
          = some (a, a + (dropTrailingBlanks (scanUpTo (detect_frontmatter_boundaries content)
                (splitNl content) (splitNl content).length).curLines).length - 1,
              joinNl (dropTrailingBlanks (scanUpTo (detect_frontmatter_boundaries content)
                (splitNl content) (splitNl content).length).curLines)) := by
        rw [hdet2, List.getElem?_append_right (le_refl _), Nat.sub_self]
        rfl
      exact (hdoom _ h0) rfl

end MdConv

namespace MdConv

/-- C1: the converter is idempotent — applying `convert_to_fenced_blocks`
twice yields the same result as applying it once, for every input document:
the fenced blocks produced by the first pass are never re-detected as
indented blocks by the second. -/
theorem convert_idempotent (content : List Char) :
    convert_to_fenced_blocks (convert_to_fenced_blocks content)
      = convert_to_fenced_blocks content := by
  by_cases h : detect_indented_code_blocks content = []
  · rw [convert_of_nil h, convert_of_nil h]
  · exact convert_of_nil (detect_out_nil content h)

end MdConv
